import Mathlib

/-!
# Duration and time-zone conversion (`time.go` of `aura-studio/cast`)

A shallow embedding of the duration / time-zone part of the conversion
library, followed by theorems about it.

Conventions of the embedding

* A Go `string` is a `List Char`.  Every byte test of the source is against an
  ASCII byte (`+`, `-`, a digit, a blank, `:`, the letters of `UTC`), and in
  UTF-8 no byte of a multi-byte character is an ASCII byte, so the byte-level
  operations of the source agree with the character-level operations here.
* `int`, `int64` and `time.Duration` values are `Int`; every arithmetic result
  of those types is wrapped to 64 bits with `wrap64` (`int` is 64 bits wide).
* A Go result pair `(v, err)` is `Outcome.ret v err`; a run-time panic is
  `Outcome.panic`.
* What the source takes from outside (`time.Now`, `time.LoadLocation`, the
  text-to-integer conversion `ToInt64E`, the parsing of an absolute instant) is
  a field of `Env`.
-/

namespace Cast

/-! ## Machine integers and durations -/

/-- Smallest signed 64-bit integer. -/
def minInt64 : Int := -9223372036854775808

/-- Largest signed 64-bit integer. -/
def maxInt64 : Int := 9223372036854775807

/-- Two's-complement wrap-around to the signed 64-bit range. -/
def wrap64 (x : Int) : Int := (x + 9223372036854775808) % 18446744073709551616 - 9223372036854775808

/-- The value is representable as a signed 64-bit integer. -/
def inInt64 (x : Int) : Prop := minInt64 ≤ x ∧ x ≤ maxInt64

instance (x : Int) : Decidable (inInt64 x) := by unfold inInt64; infer_instance

/-- Constant `time.Nanosecond`. -/
def Nanosecond : Int := 1
/-- Constant `time.Microsecond`. -/
def Microsecond : Int := 1000 * Nanosecond
/-- Constant `time.Millisecond`. -/
def Millisecond : Int := 1000 * Microsecond
/-- Constant `time.Second`. -/
def Second : Int := 1000 * Millisecond
/-- Constant `time.Minute`. -/
def Minute : Int := 60 * Second
/-- Constant `time.Hour`. -/
def Hour : Int := 60 * Minute

/-- Product of two `time.Duration` values (64-bit, wrapping). -/
def dmul (a b : Int) : Int := wrap64 (a * b)

/-- Sum of two `time.Duration` values (64-bit, wrapping). -/
def dadd (a b : Int) : Int := wrap64 (a + b)

/-- Method `Duration.Nanoseconds`: `return int64(d)`. -/
def Nanoseconds (d : Int) : Int := d

/-! ## Errors, panics, results -/

/-- The error values built by `time.go`, and the errors handed over by a
collaborator (`foreign`). -/
inductive GoError where
  /-- Message "parse duration `%s` failed, empty match". -/
  | emptyMatch (str : List Char)
  /-- Message "parse duration `%s` failed, %v". -/
  | parseDuration (str : List Char) (cause : GoError)
  /-- Message "invalid timezone name `%s`" (no `+`/`-` after `UTC`). -/
  | invalidTimezoneName (str : List Char)
  /-- Message "invalid time zone name `%s`" (more than three fields). -/
  | invalidTimeZoneName (str : List Char)
  /-- Message "invalid duration type: %T". -/
  | invalidDurationType
  /-- Message "invalid time zone type: %T". -/
  | invalidTimeZoneType
  /-- An error produced outside `time.go`. -/
  | foreign (msg : List Char)
  deriving DecidableEq, Repr

/-- Run-time panics the source can raise. -/
inductive GoPanic where
  /-- Indexing a string outside its bounds. -/
  | indexOutOfRange
  /-- The `panic(e)` of `stringToTime`. -/
  | explicit (e : GoError)
  /-- Dereferencing a nil pointer. -/
  | nilDereference
  /-- The panic of `Time.In` at a nil location. -/
  | missingLocation
  deriving DecidableEq, Repr

/-- What a call of a Go function with result type `(α, error)` does: it returns
the pair, or it panics. -/
inductive Outcome (α : Type) where
  | ret (value : α) (err : Option GoError)
  | panic (p : GoPanic)
  deriving Repr

/-- Successful return `v, nil`. -/
@[reducible] def Outcome.ok {α : Type} (v : α) : Outcome α := Outcome.ret v none

/-- Failing return `v, err`. -/
@[reducible] def Outcome.fail {α : Type} (v : α) (e : GoError) : Outcome α := Outcome.ret v (some e)

/-! ## Zones -/

/-- A `time.Location`: a name and the offset from UTC, in seconds east, that is
in force at a given instant (nanoseconds since the Unix epoch). -/
structure Location where
  name : List Char
  offsetAt : Int → Int

/-- Library function `time.FixedZone(name, offset)`. -/
def FixedZone (name : List Char) (offset : Int) : Location :=
  { name := name, offsetAt := fun _ => offset }

/-! ## Floating-point values -/

/-- The finite floating-point number `man * 2 ^ exp`. -/
structure F64 where
  man : Int
  exp : Int
  deriving DecidableEq, Repr

/-- A `float32`, `float64` or component of a complex number. -/
inductive GoFloat where
  | finite (v : F64)
  | posInf
  | negInf
  | nan
  deriving DecidableEq, Repr

/-! ## Collaborators -/

/-- What `time.go` takes from outside itself. -/
structure Env where
  /-- Library call `time.Now()`, in nanoseconds since the Unix epoch. -/
  now : Int
  /-- The conversion `ToInt64E` of this library at a string argument (its
  source is in another file). -/
  ToInt64E : List Char → Except GoError Int
  /-- Library call `time.LoadLocation`. -/
  LoadLocation : List Char → Except GoError Location
  /-- The function `timeStringToTime`: text to an absolute instant
  (nanoseconds since the Unix epoch), by the table of time formats.  The
  instant is taken in the UTC location: calendar arithmetic in another
  location is not modelled. -/
  timeStringToTime : List Char → Except GoError Int
  /-- What the platform gives when a floating-point value outside the 64-bit
  integers (or an infinity, or a NaN) is converted to an integer: the language
  leaves the result to the implementation, so it is taken as some function of
  the value converted. -/
  floatOutOfRange : GoFloat → Int

/-! ## Strings -/

/-- The constant `UTC`. -/
def UTC : List Char := ['U', 'T', 'C']

/-- Library function `strings.HasPrefix`. -/
def HasPrefix (s pre : List Char) : Bool := pre.isPrefixOf s

/-- Library function `strings.Split` for a one-character separator. -/
def Split (sep : Char) : List Char → List (List Char)
  | [] => [[]]
  | c :: cs =>
    if c = sep then [] :: Split sep cs
    else
      match Split sep cs with
      | [] => [[c]]
      | p :: ps => (c :: p) :: ps

/-- Byte test `c >= '0' && c <= '9'`. -/
def isDigit (c : Char) : Bool := decide ('0' ≤ c) && decide (c ≤ '9')

/-! ## `utcStringToDurationE` (time.go 236-284) -/

/-- The function `utcStringToDurationE`. -/
def utcStringToDurationE (env : Env) (str : List Char) : Outcome Int :=
  if str = UTC then Outcome.ok 0
  else
    let cont (sign : Int) (str : List Char) : Outcome Int :=
      match Split ':' str with
      | [p0] =>
        match env.ToInt64E p0 with
        | Except.error err => Outcome.fail 0 err
        | Except.ok h => Outcome.ok (dmul (dmul sign h) Hour)
      | [p0, p1] =>
        match env.ToInt64E p0 with
        | Except.error err => Outcome.fail 0 err
        | Except.ok h =>
          match env.ToInt64E p1 with
          | Except.error err => Outcome.fail 0 err
          | Except.ok m => Outcome.ok (dmul sign (dadd (dmul h Hour) (dmul m Minute)))
      | [p0, p1, p2] =>
        match env.ToInt64E p0 with
        | Except.error err => Outcome.fail 0 err
        | Except.ok h =>
          match env.ToInt64E p1 with
          | Except.error err => Outcome.fail 0 err
          | Except.ok m =>
            match env.ToInt64E p2 with
            | Except.error err => Outcome.fail 0 err
            | Except.ok s =>
              Outcome.ok (dmul sign (dadd (dadd (dmul h Hour) (dmul m Minute)) (dmul s Second)))
      | _ => Outcome.fail 0 (GoError.invalidTimeZoneName str)
    if HasPrefix str ['U', 'T', 'C', '+'] then cont 1 (str.drop 4)
    else if HasPrefix str ['U', 'T', 'C', '-'] then cont (-1) (str.drop 4)
    else Outcome.fail 0 (GoError.invalidTimezoneName str)

/-! ## `locationStringToDurationE` (time.go 286-298) -/

/-- The function `locationStringToDurationE`: the offset, an `int` counting
seconds, is converted with `time.Duration(offset)`, which keeps the number. -/
def locationStringToDurationE (env : Env) (str : List Char) : Outcome Int :=
  match env.LoadLocation str with
  | Except.error err => Outcome.fail 0 err
  | Except.ok loc =>
    let offset := loc.offsetAt env.now
    Outcome.ok offset

/-! ## Instants and the calendar (package `time`)

An instant (`time.Time` in the UTC location, without monotonic reading) is its
number of nanoseconds since 1970-01-01T00:00:00Z, an unbounded `Int`: the
instants of the library span far more than the years any 64-bit duration can
reach from the present.  The calendar is the proleptic Gregorian calendar of
package `time`.

The library counts years, months and days in `int` and the seconds of an
instant in 64 bits, and these counts wrap around; the functions below count in
unbounded integers.  They are the library functions on the range
`calendarInRange`, where nothing wraps in the library, and nothing is stated
about calendar groups outside that range.  An instant read from a text keeps
the location of the text in the library; calendar arithmetic in a location
other than UTC is not modelled. -/

/-- Function `isLeap` of package `time`. -/
def isLeap (year : Int) : Bool :=
  decide (year % 4 = 0) && (decide (year % 100 ≠ 0) || decide (year % 400 = 0))

/-- Table `daysBefore` of package `time`: the days of a non-leap year before
the month with the given index (January has index 0). -/
def daysBefore (index : Int) : Int :=
  [0, 31, 59, 90, 120, 151, 181, 212, 243, 273, 304, 334, 365].getD index.toNat 0

/-- Days from 1970-01-01 to the first of January of `year`. -/
def daysSinceEpoch (year : Int) : Int :=
  365 * (year - 1) + (year - 1) / 4 - (year - 1) / 100 + (year - 1) / 400 - 719162

/-- Function `time.Date` in UTC, where its 64-bit counts do not wrap.  The
month is normalised into the year; the day, hour, minute, second and
nanosecond fields overflow into one another linearly, so they are added with
their weights. -/
def Date (year month day hour min sec nsec : Int) : Int :=
  let m := month - 1
  let year := year + m / 12
  let m := m % 12
  let d := daysSinceEpoch year + daysBefore m
    + (if isLeap year && decide (m + 1 ≥ 3) then 1 else 0) + (day - 1)
  (d * 86400 + hour * 3600 + min * 60 + sec) * 1000000000 + nsec

/-- Year and zero-based day of the year of a day number (days since
1970-01-01), by 400-, 100-, 4- and 1-year cycles as in `absDate`. -/
def yearDay (days : Int) : Int × Int :=
  let d := days + 719162
  let n400 := d / 146097
  let d := d - 146097 * n400
  let n100 := d / 36524
  let n100 := n100 - n100 / 4
  let d := d - 36524 * n100
  let n4 := d / 1461
  let d := d - 1461 * n4
  let n1 := d / 365
  let n1 := n1 - n1 / 4
  let d := d - 365 * n1
  (400 * n400 + 100 * n100 + 4 * n4 + n1 + 1, d)

/-- Month (1-based) and day of the month of a zero-based day of a non-leap
year: the estimate `day / 31` is too low by at most one month. -/
def monthOf (day : Int) : Int × Int :=
  let month := day / 31
  let fin := daysBefore (month + 1)
  if day ≥ fin then (month + 2, day - fin + 1)
  else (month + 1, day - daysBefore month + 1)

/-- Month and day of the month of a zero-based day of the given year. -/
def monthDay (year yday : Int) : Int × Int :=
  if isLeap year && decide (yday = 31 + 29 - 1) then (2, 29)
  else monthOf (if isLeap year && decide (yday > 31 + 29 - 1) then yday - 1 else yday)

/-- Method `Time.Date`: year, month and day of an instant. -/
def absDate (t : Int) : Int × Int × Int :=
  let days := (t / 1000000000) / 86400
  let yd := yearDay days
  let md := monthDay yd.1 yd.2
  (yd.1, md.1, md.2)

/-- Method `Time.AddDate` on an instant in UTC, where the sums `year+years`,
`month+months`, `day+days` (of type `int`) and the counts of `time.Date` do
not wrap: the date and the clock of `t` are taken apart and put together again
by `Date` with the years, months and days added. -/
def AddDate (t years months days : Int) : Int :=
  let ymd := absDate t
  let secs := (t / 1000000000) % 86400
  Date (ymd.1 + years) (ymd.2.1 + months) (ymd.2.2 + days)
    (secs / 3600) (secs % 3600 / 60) (secs % 60) (t % 1000000000)

/-- Method `Time.Add`. -/
def Add (t d : Int) : Int := t + d

/-- Method `Time.Sub`: the difference of two instants as a duration, which
saturates at the smallest and the largest duration. -/
def Sub (t u : Int) : Int :=
  if t - u < minInt64 then minInt64 else if maxInt64 < t - u then maxInt64 else t - u

/-- The range of a reference instant and of the numbers of a years, a months
and a days group on which `AddDate` above is the method of the library: the
instant is one that has a `UnixNano` (between the years 1677 and 2262, as the
readings of `time.Now` are), and each number is at most a thousand million in
size.  There the year of the result is within 1.1e9 of the present and its
seconds are below 4e16 in size, so neither the sums in `int`, nor the days and
seconds `time.Date` counts in `uint64` from its absolute zero year
-292277022399, nor the seconds of the result in `int64` wrap around. -/
def calendarInRange (t years months days : Int) : Prop :=
  inInt64 t ∧ |years| ≤ 1000000000 ∧ |months| ≤ 1000000000 ∧ |days| ≤ 1000000000

instance (t years months days : Int) : Decidable (calendarInRange t years months days) := by
  unfold calendarInRange; infer_instance

/-! ## The duration pattern (time.go 159-182)

`init` joins the nine strings of `durationRegExpGroups`, each wrapped as
`(?P<name>...)?`, into one pattern.  A pattern of that shape is a list of
groups, a group a list of `Atom`s.  `matchGroups` is the backtracking search
whose first result the `regexp` package returns (leftmost-first matching). -/

/-- The pieces the nine group patterns are made of. -/
inductive Atom where
  /-- One character of a class, such as `[Y|y]` or the literal `M`. -/
  | one (cls : List Char)
  /-- An optional character of a class, greedy: `[\+|\-]?`. -/
  | opt (cls : List Char)
  /-- One or more decimal digits, greedy: `\d+`. -/
  | digits
  deriving Repr

/-- First alternative if it succeeds, else the second. -/
def orElse {β : Type} (a b : Option β) : Option β :=
  match a with
  | some r => some r
  | none => b

/-- After the first digit of `\d+`: more digits first, then the rest `k` of the pattern. -/
def digitsLoop {β : Type} (k : List Char → Option β) : List Char → Option β
  | [] => k []
  | c :: cs => if isDigit c then orElse (digitsLoop k cs) (k (c :: cs)) else k (c :: cs)

/-- Backtracking match of a sequence of atoms at the head of `s`, followed by
the rest `k` of the pattern. -/
def matchAtoms {β : Type} : List Atom → (List Char → Option β) → List Char → Option β
  | [], k, s => k s
  | Atom.one cls :: rest, k, s =>
    match s with
    | c :: cs => if cls.contains c then matchAtoms rest k cs else none
    | [] => none
  | Atom.opt cls :: rest, k, s =>
    orElse
      (match s with
       | c :: cs => if cls.contains c then matchAtoms rest k cs else none
       | [] => none)
      (matchAtoms rest k s)
  | Atom.digits :: rest, k, s =>
    match s with
    | c :: cs => if isDigit c then digitsLoop (matchAtoms rest k) cs else none
    | [] => none

/-- The text of `s` in front of its suffix `rest`. -/
def consumed (s rest : List Char) : List Char := s.take (s.length - rest.length)

/-- Match of a sequence of optional capturing groups `(g)?` at the head of `s`:
the captured texts (empty for a group that takes no part) and the unmatched
rest.  A group is tried before it is skipped. -/
def matchGroups : List (List Atom) → List Char → Option (List (List Char) × List Char)
  | [], s => some ([], s)
  | g :: gs, s =>
    orElse
      (matchAtoms g
        (fun rest => (matchGroups gs rest).map (fun r => (consumed s rest :: r.1, r.2))) s)
      ((matchGroups gs s).map (fun r => ([] :: r.1, r.2)))

/-- Method `Regexp.FindStringSubmatch`: the leftmost match, as the matched text
followed by the text of each group; the empty list when nothing matches. -/
def FindStringSubmatch (re : List (List Atom)) : List Char → List (List Char)
  | [] =>
    match matchGroups re [] with
    | some r => [] :: r.1
    | none => []
  | c :: cs =>
    match matchGroups re (c :: cs) with
    | some r => consumed (c :: cs) r.2 :: r.1
    | none => FindStringSubmatch re cs

/-- The class `[\+|\-]`: inside brackets the bar is a character of the class. -/
def signClass : List Char := ['+', '|', '-']

/-- The pattern compiled by `init` from `durationRegExpGroups`: years, months,
days, hours, minutes, seconds, milliseconds, microseconds, nanoseconds. -/
def durationRegExp : List (List Atom) :=
  [ [Atom.opt signClass, Atom.digits, Atom.one ['Y', '|', 'y']],
    [Atom.opt signClass, Atom.digits, Atom.one ['M']],
    [Atom.opt signClass, Atom.digits, Atom.one ['D', '|', 'd']],
    [Atom.opt signClass, Atom.digits, Atom.one ['H', '|', 'h']],
    [Atom.opt signClass, Atom.digits, Atom.one ['m']],
    [Atom.opt signClass, Atom.digits, Atom.one ['S', '|', 's']],
    [Atom.opt signClass, Atom.digits, Atom.one ['m'], Atom.one ['s']],
    [Atom.opt signClass, Atom.digits, Atom.one ['u'], Atom.one ['s']],
    [Atom.opt signClass, Atom.digits, Atom.one ['n'], Atom.one ['s']] ]

/-! ## `regexpStringToDurationE` (time.go 184-234) -/

/-- The text after the first blank: `str[index+1:]` for
`index := strings.Index(str, " ")`, when there is a blank. -/
def afterFirstSpace : List Char → Option (List Char)
  | [] => none
  | c :: cs => if c = ' ' then some cs else afterFirstSpace cs

/-- The function `stringToTime` (time.go 462-468): it panics when the text is
not an instant. -/
def stringToTime (env : Env) (s : List Char) : Except GoPanic Int :=
  match env.timeStringToTime s with
  | Except.ok d => Except.ok d
  | Except.error e => Except.error (GoPanic.explicit e)

/-- The loop `for s[len(s)-1] < '0' || s[len(s)-1] > '9' { s = s[:len(s)-1] }`
on the reversed text: `none` when the text runs out, where the source indexes
an empty string. -/
def stripNonDigitsRev : List Char → Option (List Char)
  | [] => none
  | c :: cs => if isDigit c then some (c :: cs) else stripNonDigitsRev cs

/-- The loop that removes the characters after the last digit of a group. -/
def stripNonDigits (s : List Char) : Option (List Char) :=
  (stripNonDigitsRev s.reverse).map List.reverse

/-- The loop over `matches[1:]` that fills `nums`: finished with the numbers
(`ret nums none`), left early with an error, or a panic. -/
def parseNums (env : Env) (str : List Char) : List (List Char) → Outcome (List Int)
  | [] => Outcome.ok []
  | s :: rest =>
    if s.length = 0 then
      match parseNums env str rest with
      | Outcome.ret nums none => Outcome.ok (0 :: nums)
      | other => other
    else
      match stripNonDigits s with
      | none => Outcome.panic GoPanic.indexOutOfRange
      | some digits =>
        match env.ToInt64E digits with
        | Except.error err => Outcome.fail [] (GoError.parseDuration str err)
        | Except.ok n =>
          match parseNums env str rest with
          | Outcome.ret nums none => Outcome.ok (n :: nums)
          | other => other

/-- The expression of time.go 219-231 for the reference instant and the nine
numbers. -/
def applyNums (epoch : Int) (n0 n1 n2 n3 n4 n5 n6 n7 n8 : Int) : Int :=
  Sub
    (Add (Add (Add (Add (Add (Add (AddDate epoch n0 n1 n2)
      (dmul n3 Hour)) (dmul n4 Minute)) (dmul n5 Second))
      (dmul n6 Millisecond)) (dmul n7 Microsecond)) (dmul n8 Nanosecond))
    epoch

/-- The function `regexpStringToDurationE`. -/
def regexpStringToDurationE (env : Env) (str : List Char) : Outcome Int :=
  let epoch : Except GoPanic Int :=
    match afterFirstSpace str with
    | some text => stringToTime env text
    | none => Except.ok env.now
  match epoch with
  | Except.error p => Outcome.panic p
  | Except.ok epoch =>
    match str.getLast? with
    | none => Outcome.panic GoPanic.indexOutOfRange
    | some lastChar =>
      let str := if isDigit lastChar then str ++ ['s'] else str
      let submatches := FindStringSubmatch durationRegExp str
      if submatches.length = 0 then Outcome.fail 0 (GoError.emptyMatch str)
      else
        match parseNums env str (submatches.drop 1) with
        | Outcome.panic p => Outcome.panic p
        | Outcome.ret _ (some err) => Outcome.fail 0 err
        | Outcome.ret nums none =>
          match nums with
          | n0 :: n1 :: n2 :: n3 :: n4 :: n5 :: n6 :: n7 :: n8 :: _ =>
            Outcome.ok (applyNums epoch n0 n1 n2 n3 n4 n5 n6 n7 n8)
          | _ => Outcome.panic GoPanic.indexOutOfRange

/-! ## `stringToDurationE` (time.go 300-321) -/

/-- The pattern `d, err := f(str); if err != nil { return 0, err }; return d, nil`. -/
def orZero (r : Outcome Int) : Outcome Int :=
  match r with
  | Outcome.ret _ (some err) => Outcome.fail 0 err
  | Outcome.ret duration none => Outcome.ok duration
  | Outcome.panic p => Outcome.panic p

/-- The function `stringToDurationE`; `str[0]` panics on the empty string. -/
def stringToDurationE (env : Env) (str : List Char) : Outcome Int :=
  match str with
  | [] => Outcome.panic GoPanic.indexOutOfRange
  | c :: _ =>
    if c = '+' ∨ c = '-' ∨ isDigit c = true then orZero (regexpStringToDurationE env str)
    else if HasPrefix str UTC then orZero (utcStringToDurationE env str)
    else orZero (locationStringToDurationE env str)

/-! ## Floating point (`float64`)

A finite `float64` is a pair of integers; every operation rounds the exact
result to the nearest value with a 53-bit significand, ties to even.  The
exponent range is not limited: the magnitudes that `Duration.Seconds` meets
(zero, or between 1e-9 and 1e10) are far inside the normal range. -/

/-- Binary logarithm by halving, at most `fuel` times. -/
def log2Fuel : Nat → Nat → Nat
  | 0, _ => 0
  | fuel + 1, n => if n < 2 then 0 else log2Fuel fuel (n / 2) + 1

/-- The integer `⌊log₂ n⌋` for positive `n`. -/
def ilog2 (n : Nat) : Nat := log2Fuel n n

/-- The integer `⌊log₂ (a / d)⌋` for positive `a` and `d`. -/
def ilog2Ratio (a d : Nat) : Int :=
  let l : Int := (ilog2 a : Int) - (ilog2 d : Int)
  if 0 ≤ l then (if a < d * 2 ^ l.toNat then l - 1 else l)
  else (if a * 2 ^ (-l).toNat < d then l - 1 else l)

/-- The `float64` nearest to `(n / d) * 2 ^ s`, ties to even (`d` positive). -/
def roundRatio (n : Int) (d : Nat) (s : Int) : F64 :=
  if n = 0 then { man := 0, exp := 0 }
  else
    let a := n.natAbs
    let k := ilog2Ratio a d - 52
    let num := if 0 ≤ k then a else a * 2 ^ (-k).toNat
    let den := if 0 ≤ k then d * 2 ^ k.toNat else d
    let q := num / den
    let r := num % den
    let m := if 2 * r < den then q else if den < 2 * r then q + 1
      else if q % 2 = 0 then q else q + 1
    { man := n.sign * (m : Int), exp := k + s }

/-- Conversion `float64(i)` of an integer. -/
def F64.ofInt (i : Int) : F64 := roundRatio i 1 0

/-- Quotient `x / y` of two `float64` values, `y` not zero. -/
def F64.div (x y : F64) : F64 :=
  roundRatio (x.man * y.man.sign) y.man.natAbs (x.exp - y.exp)

/-- Sum `x + y` of two `float64` values. -/
def F64.add (x y : F64) : F64 :=
  let e := min x.exp y.exp
  roundRatio (x.man * 2 ^ (x.exp - e).toNat + y.man * 2 ^ (y.exp - e).toNat) 1 e

/-- Conversion `int(x)`: truncation toward zero (the values met here are in range). -/
def F64.toInt (x : F64) : Int :=
  if 0 ≤ x.exp then x.man * 2 ^ x.exp.toNat else Int.tdiv x.man (2 ^ (-x.exp).toNat)

/-- Method `Duration.Seconds`:
`sec := d / Second; nsec := d % Second; return float64(sec) + float64(nsec)/1e9`. -/
def Seconds (d : Int) : F64 :=
  let sec := Int.tdiv d Second
  let nsec := Int.tmod d Second
  F64.add (F64.ofInt sec) (F64.div (F64.ofInt nsec) (F64.ofInt 1000000000))

/-- The rational number a floating-point value stands for. -/
def F64.val (x : F64) : ℚ := (x.man : ℚ) * (2 : ℚ) ^ x.exp

/-! ## `durationToLocationE` (time.go 323-349) and `stringToLocationE` (351-358) -/

/-- The text `fmt.Sprintf("%02d", n)`: the decimal digits of `n`, with a zero
in front when there is only one (a minus sign counts for the width). -/
def sprintf02d (n : Int) : List Char :=
  if n < 0 then '-' :: Nat.toDigits 10 n.natAbs
  else
    let digits := Nat.toDigits 10 n.toNat
    if digits.length < 2 then '0' :: digits else digits

/-- The function `durationToLocationE`. -/
def durationToLocationE (duration : Int) : Outcome (Option Location) :=
  let seconds := F64.toInt (Seconds duration)
  let durationStr := UTC
  let durationStr := if seconds < 0 then durationStr ++ ['-'] else durationStr ++ ['+']
  let absSeconds := if seconds < 0 then wrap64 (-seconds) else seconds
  let h := Int.tdiv absSeconds 3600
  let m := Int.tdiv (Int.tmod absSeconds 3600) 60
  let s := Int.tmod (Int.tmod absSeconds 3600) 60
  let durationStr := if h ≠ 0 then durationStr ++ sprintf02d h else durationStr
  let durationStr := if m ≠ 0 then durationStr ++ (':' :: sprintf02d m) else durationStr
  let durationStr := if s ≠ 0 then durationStr ++ (':' :: sprintf02d s) else durationStr
  Outcome.ok (some (FixedZone durationStr seconds))

/-- The function `stringToLocationE`. -/
def stringToLocationE (env : Env) (str : List Char) : Outcome (Option Location) :=
  match stringToDurationE env str with
  | Outcome.panic p => Outcome.panic p
  | Outcome.ret _ (some err) => Outcome.fail none err
  | Outcome.ret duration none => durationToLocationE duration

/-! ## The entry points (time.go 15-157) -/

/-- The dynamic values the type switches of `ToDurationE` and `ToTimeZoneE`
tell apart.  Integers carry their value, a `*big.Int`, `*big.Float` or
`*big.Rat` is `none` when the pointer is nil, a value with a `String` or
`Error` method carries the text the method returns. -/
inductive GoAny where
  | int (v : Int)
  | int8 (v : Int)
  | int16 (v : Int)
  | int32 (v : Int)
  | int64 (v : Int)
  | uint (v : Int)
  | uint8 (v : Int)
  | uint16 (v : Int)
  | uint32 (v : Int)
  | uint64 (v : Int)
  | float32 (v : GoFloat)
  | float64 (v : GoFloat)
  | bigInt (v : Option Int)
  | bigFloat (v : Option F64)
  | bigRat (v : Option (Int × Nat))
  | complex64 (re im : GoFloat)
  | complex128 (re im : GoFloat)
  | bool (v : Bool)
  | duration (v : Int)
  | location (v : Location)
  | locationPtr (v : Option Location)
  | string (v : List Char)
  | bytes (v : List Char)
  | stringer (text : List Char)
  | error (text : List Char)
  | nil
  /-- A non-nil pointer to a value that has no `String` or `Error` method. -/
  | pointer (target : GoAny)
  /-- A nil pointer of such a type. -/
  | nilPointer
  /-- A value of any other type. -/
  | other

/-- Modelled from the spec: the function `indirectToStringerOrError` is not in
src/.  Section 4.1: an ownership indirection is followed to the value it
holds, an absent one becomes the absent value, and every other value is
returned unchanged.  A `*big.Int`, `*big.Float` or `*big.Rat` is a value the
switches have a case for, nil or not: section 4.3 tells the "explicitly-typed-
but-unset big value" from the absent value, so a nil one stays what it is. -/
def indirectToStringerOrError : GoAny → GoAny
  | GoAny.pointer target => indirectToStringerOrError target
  | GoAny.nilPointer => GoAny.nil
  | a => a

/-- Conversion `time.Duration(f)` or `int(f)` of a floating-point value:
truncation toward zero when the result fits, and the value `dflt f` that the
platform gives otherwise. -/
def floatToInt64 (dflt : GoFloat → Int) : GoFloat → Int
  | GoFloat.finite v => if inInt64 (F64.toInt v) then F64.toInt v else dflt (GoFloat.finite v)
  | f => dflt f

/-- Method `(*big.Float).Int64`: truncation toward zero, saturating. -/
def bigFloatInt64 (v : F64) : Int :=
  if F64.toInt v < minInt64 then minInt64
  else if maxInt64 < F64.toInt v then maxInt64 else F64.toInt v

/-- The function `ToDurationE`. -/
def ToDurationE (env : Env) (a : GoAny) : Outcome Int :=
  match indirectToStringerOrError a with
  | GoAny.int v => Outcome.ok (wrap64 v)
  | GoAny.int8 v => Outcome.ok (wrap64 v)
  | GoAny.int16 v => Outcome.ok (wrap64 v)
  | GoAny.int32 v => Outcome.ok (wrap64 v)
  | GoAny.int64 v => Outcome.ok (wrap64 v)
  | GoAny.uint v => Outcome.ok (wrap64 v)
  | GoAny.uint8 v => Outcome.ok (wrap64 v)
  | GoAny.uint16 v => Outcome.ok (wrap64 v)
  | GoAny.uint32 v => Outcome.ok (wrap64 v)
  | GoAny.uint64 v => Outcome.ok (wrap64 v)
  | GoAny.float32 v => Outcome.ok (floatToInt64 env.floatOutOfRange v)
  | GoAny.float64 v => Outcome.ok (floatToInt64 env.floatOutOfRange v)
  | GoAny.bigInt none => Outcome.panic GoPanic.nilDereference
  | GoAny.bigInt (some v) => Outcome.ok (wrap64 v)
  | GoAny.bigFloat none => Outcome.panic GoPanic.nilDereference
  | GoAny.bigFloat (some v) => Outcome.ok (bigFloatInt64 v)
  | GoAny.bigRat none => Outcome.panic GoPanic.nilDereference
  | GoAny.bigRat (some v) => Outcome.ok (floatToInt64 env.floatOutOfRange (GoFloat.finite (roundRatio v.1 v.2 0)))
  | GoAny.complex64 re _ => Outcome.ok (floatToInt64 env.floatOutOfRange re)
  | GoAny.complex128 re _ => Outcome.ok (floatToInt64 env.floatOutOfRange re)
  | GoAny.bool v => if v then Outcome.ok 1 else Outcome.ok 0
  | GoAny.duration v => Outcome.ok v
  | GoAny.location v => Outcome.ok (wrap64 (v.offsetAt env.now))
  | GoAny.locationPtr none => Outcome.panic GoPanic.missingLocation
  | GoAny.locationPtr (some v) => Outcome.ok (wrap64 (v.offsetAt env.now))
  | GoAny.string v => stringToDurationE env v
  | GoAny.bytes v => stringToDurationE env v
  | GoAny.stringer text => stringToDurationE env text
  | GoAny.error text => stringToDurationE env text
  | GoAny.nil => Outcome.ok 0
  | _ => Outcome.fail 0 GoError.invalidDurationType

/-- The function `ToDuration`. -/
def ToDuration (env : Env) (a : GoAny) : Except GoPanic Int :=
  match ToDurationE env a with
  | Outcome.ret v _ => Except.ok v
  | Outcome.panic p => Except.error p

/-- Successful return of a zone `time.FixedZone(UTC, offset)`. -/
def utcZone (offset : Int) : Outcome (Option Location) :=
  Outcome.ok (some (FixedZone UTC offset))

/-- The function `ToTimeZoneE`. -/
def ToTimeZoneE (env : Env) (a : GoAny) : Outcome (Option Location) :=
  match indirectToStringerOrError a with
  | GoAny.int v => utcZone (wrap64 v)
  | GoAny.int8 v => utcZone (wrap64 v)
  | GoAny.int16 v => utcZone (wrap64 v)
  | GoAny.int32 v => utcZone (wrap64 v)
  | GoAny.int64 v => utcZone (wrap64 v)
  | GoAny.uint v => utcZone (wrap64 v)
  | GoAny.uint8 v => utcZone (wrap64 v)
  | GoAny.uint16 v => utcZone (wrap64 v)
  | GoAny.uint32 v => utcZone (wrap64 v)
  | GoAny.uint64 v => utcZone (wrap64 v)
  | GoAny.float32 v => utcZone (floatToInt64 env.floatOutOfRange v)
  | GoAny.float64 v => utcZone (floatToInt64 env.floatOutOfRange v)
  | GoAny.bigInt none => Outcome.panic GoPanic.nilDereference
  | GoAny.bigInt (some v) => utcZone (wrap64 v)
  | GoAny.bigFloat none => Outcome.panic GoPanic.nilDereference
  | GoAny.bigFloat (some v) => utcZone (bigFloatInt64 v)
  | GoAny.bigRat none => Outcome.panic GoPanic.nilDereference
  | GoAny.bigRat (some v) => utcZone (floatToInt64 env.floatOutOfRange (GoFloat.finite (roundRatio v.1 v.2 0)))
  | GoAny.complex64 re _ => utcZone (floatToInt64 env.floatOutOfRange re)
  | GoAny.complex128 re _ => utcZone (floatToInt64 env.floatOutOfRange re)
  | GoAny.bool v => if v then utcZone 1 else utcZone 0
  | GoAny.duration v => durationToLocationE v
  | GoAny.location v => Outcome.ok (some v)
  | GoAny.locationPtr v => Outcome.ok v
  | GoAny.string v => stringToLocationE env v
  | GoAny.bytes v => stringToLocationE env v
  | GoAny.stringer text => stringToLocationE env text
  | GoAny.error text => stringToLocationE env text
  | GoAny.nil => Outcome.ok none
  | _ => Outcome.fail none GoError.invalidTimeZoneType

/-- The function `ToTimeZone`. -/
def ToTimeZone (env : Env) (a : GoAny) : Except GoPanic (Option Location) :=
  match ToTimeZoneE env a with
  | Outcome.ret v _ => Except.ok v
  | Outcome.panic p => Except.error p

/-! ## A concrete environment -/

/-- Value of a run of decimal digits. -/
def digitsValue (ds : List Char) : Nat :=
  ds.foldl (fun acc c => 10 * acc + (c.toNat - 48)) 0

/-- Modelled from the spec: the conversion `ToInt64E` at a string argument is
not in src/.  Section 4.2: text is handed to a textual-to-numeric parse, and
"any text not forming a complete, valid numeral" is a failure that carries the
text.  Here a numeral is an optional sign and one or more decimal digits, with
a value in the 64-bit range. -/
def specToInt64E (s : List Char) : Except GoError Int :=
  let body := match s with
    | '+' :: rest => rest
    | '-' :: rest => rest
    | _ => s
  let negative := match s with
    | '-' :: _ => true
    | _ => false
  if body ≠ [] ∧ body.all isDigit = true then
    let v : Int := if negative then -(digitsValue body : Int) else (digitsValue body : Int)
    if inInt64 v then Except.ok v else Except.error (GoError.foreign s)
  else Except.error (GoError.foreign s)

/-- A sample environment: the clock reads `now`, integers are read by
`specToInt64E`, the zone database knows `Asia/Shanghai` (eight hours east) and
`America/New_York` (five hours west), and the only instant the time formats
read is the text `2024-01-01` (1704067200 seconds after the Unix epoch). -/
def sampleEnv (now : Int) : Env where
  now := now
  ToInt64E := specToInt64E
  LoadLocation := fun name =>
    if name = "Asia/Shanghai".toList then
      Except.ok { name := name, offsetAt := fun _ => 28800 }
    else if name = "America/New_York".toList then
      Except.ok { name := name, offsetAt := fun _ => -18000 }
    else Except.error (GoError.foreign ("unknown time zone ".toList ++ name))
  timeStringToTime := fun s =>
    if s = "2024-01-01".toList then Except.ok 1704067200000000000
    else Except.error (GoError.foreign ("unable to parse date: ".toList ++ s))
  floatOutOfRange := fun _ => minInt64

/-! ## Written durations

The vocabulary of the statements about duration texts: a text made of groups,
each a numeral followed by a unit, in the order of the pattern. -/

/-- A numeral: an optional `+` or `-` and one or more decimal digits. -/
def isNumeral : List Char → Bool
  | '+' :: ds => !ds.isEmpty && ds.all isDigit
  | '-' :: ds => !ds.isEmpty && ds.all isDigit
  | ds => !ds.isEmpty && ds.all isDigit

/-- The spellings of the unit of each group of the pattern, 0 (years) to 8
(nanoseconds). -/
def unitTexts : Nat → List (List Char)
  | 0 => [['Y'], ['y']]
  | 1 => [['M']]
  | 2 => [['D'], ['d']]
  | 3 => [['H'], ['h']]
  | 4 => [['m']]
  | 5 => [['S'], ['s']]
  | 6 => [['m', 's']]
  | 7 => [['u', 's']]
  | 8 => [['n', 's']]
  | _ => []

/-- A group as it is written in a duration text: the index of its group in the
pattern, its numeral, its unit, and the integer `ToInt64E` reads the numeral as. -/
structure Token where
  group : Nat
  num : List Char
  unit : List Char
  value : Int

/-- The text of a written group. -/
def Token.text (t : Token) : List Char := t.num ++ t.unit

/-- The text made of the written groups, one after the other. -/
def render : List Token → List Char
  | [] => []
  | t :: ts => t.text ++ render ts

/-- The text of group `i` in the written groups, empty when it is not written. -/
def textAt (toks : List Token) (i : Nat) : List Char :=
  match toks.find? (fun t => decide (t.group = i)) with
  | some t => t.text
  | none => []

/-- The integer of group `i` in the written groups, zero when it is not written. -/
def valueAt (toks : List Token) (i : Nat) : Int :=
  match toks.find? (fun t => decide (t.group = i)) with
  | some t => t.value
  | none => 0

/-- A written group is well formed: its group is one of the nine, its numeral
is a numeral, its unit is a spelling of the unit of its group. -/
def Token.wellFormed (t : Token) : Prop :=
  t.group < 9 ∧ isNumeral t.num = true ∧ t.unit ∈ unitTexts t.group

/-- Each written group is well formed, and `ToInt64E` reads its numeral as its
value. -/
def wellWritten (env : Env) (toks : List Token) : Prop :=
  ∀ t ∈ toks, t.wellFormed ∧ env.ToInt64E t.num = Except.ok t.value

/-- The written groups are in the order of the pattern, and a milliseconds
group comes with a minutes or a seconds group. -/
def inGrammarOrder (toks : List Token) : Prop :=
  toks.Pairwise (fun a b => a.group < b.group) ∧
  ((∃ t ∈ toks, t.group = 6) → ∃ t ∈ toks, t.group = 4 ∨ t.group = 5)

/-- The written groups from pattern index `i` on are in the order of the
pattern, and a milliseconds group directly follows a minutes or seconds group. -/
def orderedFrom (i : Nat) : List Token → Prop
  | [] => True
  | t :: ts => i ≤ t.group ∧ (t.group = 6 → 5 ≤ i) ∧ orderedFrom (t.group + 1) ts

/-- What may follow the written groups: nothing, or a text that starts with
neither a character of the sign class nor a digit. -/
def junkOK (junk : List Char) : Prop :=
  ∀ c, junk.head? = some c → signClass.contains c = false ∧ isDigit c = false

/-- The unit atoms of a group pattern match exactly the unit text. -/
def unitMatches : List Atom → List Char → Bool
  | [], [] => true
  | Atom.one cls :: rest, c :: cs => cls.contains c && unitMatches rest cs
  | _, _ => false

/-- The unit atoms of a group pattern fail inside the unit text. -/
def unitFails : List Atom → List Char → Bool
  | Atom.one cls :: rest, c :: cs => !cls.contains c || unitFails rest cs
  | _, _ => false

/-- The checks on the group patterns from index `i` on that make the search
deterministic on written groups: each pattern is sign class, digits, unit; no
unit class holds a digit; a pattern takes the units of its own group and fails
on the units of every later group (minutes against milliseconds apart). -/
def patternOK (i : Nat) : List (List Atom) → Bool
  | [] => i == 9
  | (Atom.opt sc :: Atom.digits :: Atom.one cls :: more) :: gs =>
    sc == signClass && cls.all (fun c => !isDigit c) &&
    (unitTexts i).all (unitMatches (Atom.one cls :: more)) &&
    (List.range 9).all (fun j =>
      !(decide (i < j)) || (decide (j = 6) && decide (i < 5)) ||
        (unitTexts j).all (unitFails (Atom.one cls :: more))) &&
    patternOK (i + 1) gs
  | _ => false

/-- The duration of one unit of each group from hours (3) to nanoseconds (8). -/
def unitDuration : Nat → Int
  | 3 => Hour
  | 4 => Minute
  | 5 => Second
  | 6 => Millisecond
  | 7 => Microsecond
  | 8 => Nanosecond
  | _ => 0

/-! ## The label of a zone, in words

The label `durationToLocationE` gives, put as the specification words it: once
with the hours field present exactly when the hours are not zero, once with
the hours field present whenever the offset is not zero. -/

/-- The two decimal digits of a number below one hundred. -/
def twoDigits (n : Nat) : List Char := [Nat.digitChar (n / 10), Nat.digitChar (n % 10)]

/-- The hours field: the decimal digits of the hours, with a zero in front of a
single digit. -/
def hoursField (h : Nat) : List Char :=
  if h < 10 then ['0', Nat.digitChar h] else Nat.toDigits 10 h

/-- The label of an offset in seconds: `UTC`, the sign, the hours field when
the hours are not zero, `:MM` when the minutes are not zero, `:SS` when the
seconds are not zero. -/
def describedLabel (offset : Int) : List Char :=
  let a := offset.natAbs
  UTC ++ [if offset < 0 then '-' else '+']
    ++ (if a / 3600 = 0 then [] else hoursField (a / 3600))
    ++ (if a % 3600 / 60 = 0 then [] else ':' :: twoDigits (a % 3600 / 60))
    ++ (if a % 60 = 0 then [] else ':' :: twoDigits (a % 60))

/-- The label as the specification has it, with the hours field present
whenever the offset is not zero. -/
def claimedLabel (offset : Int) : List Char :=
  let a := offset.natAbs
  UTC ++ [if offset < 0 then '-' else '+']
    ++ (if offset = 0 then [] else hoursField (a / 3600))
    ++ (if a % 3600 / 60 = 0 then [] else ':' :: twoDigits (a % 3600 / 60))
    ++ (if a % 60 = 0 then [] else ':' :: twoDigits (a % 60))

/-! ## The shape of the group patterns -/

/-- The atoms are single characters of classes that hold no digit. -/
def unitAtoms : List Atom → Bool
  | [] => true
  | Atom.one cls :: rest => cls.all (fun c => !isDigit c) && unitAtoms rest
  | _ => false

/-- A group pattern is the optional sign class, digits, and one or more unit
atoms. -/
def groupOK : List Atom → Bool
  | Atom.opt sc :: Atom.digits :: u :: us => sc == signClass && unitAtoms (u :: us)
  | _ => false

/-- The text of a matched group: an optional character of the sign class, one or
more digits, and one or more characters that are no digits. -/
def isCapture (cap sign ds unit : List Char) : Prop :=
  cap = sign ++ ds ++ unit ∧ sign.length ≤ 1 ∧ (∀ c ∈ sign, signClass.contains c = true) ∧
    ds ≠ [] ∧ (∀ c ∈ ds, isDigit c = true) ∧ unit ≠ [] ∧ (∀ c ∈ unit, isDigit c = false)

/-! ## `TimeFormatType.String` (time.go 360-390) -/

/-- The type `TimeFormatType`, an `int`. -/
abbrev TimeFormatType : Type := Int

/-- Constant `TimeFormatNoTimezone`. -/
def TimeFormatNoTimezone : TimeFormatType := 0
/-- Constant `TimeFormatNamedTimezone`. -/
def TimeFormatNamedTimezone : TimeFormatType := 1
/-- Constant `TimeFormatNumericTimezone`. -/
def TimeFormatNumericTimezone : TimeFormatType := 2
/-- Constant `TimeFormatNumericAndNamedTimezone`. -/
def TimeFormatNumericAndNamedTimezone : TimeFormatType := 3
/-- Constant `TimeFormatTimeOnly`. -/
def TimeFormatTimeOnly : TimeFormatType := 4

/-- The constant `_timeFormatTypeName`. -/
def _timeFormatTypeName : List Char :=
  "timeFormatNoTimezonetimeFormatNamedTimezonetimeFormatNumericTimezonetimeFormatNumericAndNamedTimezonetimeFormatTimeOnly".toList

/-- The array `_timeFormatTypeIndex`. -/
def _timeFormatTypeIndex : List Nat := [0, 20, 43, 68, 101, 119]

/-- Library function `strconv.FormatInt(i, 10)`. -/
def FormatInt (i : Int) : List Char :=
  if i < 0 then '-' :: Nat.toDigits 10 i.natAbs else Nat.toDigits 10 i.toNat

/-- The slice expression `s[lo:hi]` of a string: it panics unless
`lo <= hi <= len(s)`. -/
def sliceString (s : List Char) (lo hi : Nat) : Except GoPanic (List Char) :=
  if lo ≤ hi ∧ hi ≤ s.length then Except.ok ((s.take hi).drop lo)
  else Except.error GoPanic.indexOutOfRange

/-- The method `String` of `TimeFormatType`; an index outside the array panics. -/
def TimeFormatType.String (i : TimeFormatType) : Except GoPanic (List Char) :=
  if i < 0 ∨ i ≥ ((_timeFormatTypeIndex.length : Int) - 1) then
    Except.ok ("timeFormatType(".toList ++ FormatInt i ++ ")".toList)
  else
    match _timeFormatTypeIndex[i.toNat]?, _timeFormatTypeIndex[(i + 1).toNat]? with
    | some lo, some hi => sliceString _timeFormatTypeName lo hi
    | _, _ => Except.error GoPanic.indexOutOfRange

/-- The five names of the time-format types, in the order of the constants. -/
def timeFormatTypeNames : List (List Char) :=
  ["timeFormatNoTimezone".toList, "timeFormatNamedTimezone".toList,
    "timeFormatNumericTimezone".toList, "timeFormatNumericAndNamedTimezone".toList,
    "timeFormatTimeOnly".toList]

/-! # Theorems -/

/-! ## Basic facts -/

theorem wrap64_of_inInt64 (x : Int) (h : inInt64 x) : wrap64 x = x := by
  unfold inInt64 minInt64 maxInt64 at h
  unfold wrap64
  omega

theorem Split_no_sep (sep : Char) (f : List Char) (h : sep ∉ f) : Split sep f = [f] := by
  induction f with
  | nil => rfl
  | cons c cs ih =>
    have hc : c ≠ sep := fun e => h (by simp [e])
    have hcs : sep ∉ cs := fun e => h (by simp [e])
    simp [Split, hc, ih hcs]

theorem Split_append_sep (sep : Char) (f r : List Char) (h : sep ∉ f) :
    Split sep (f ++ sep :: r) = f :: Split sep r := by
  induction f with
  | nil => simp [Split]
  | cons c cs ih =>
    have hc : c ≠ sep := fun e => h (by simp [e])
    have hcs : sep ∉ cs := fun e => h (by simp [e])
    simp [Split, hc, ih hcs]

theorem Split_intercalate (sep : Char) (fields : List (List Char)) (hne : fields ≠ [])
    (h : ∀ f ∈ fields, sep ∉ f) : Split sep (List.intercalate [sep] fields) = fields := by
  induction fields with
  | nil => exact absurd rfl hne
  | cons f rest ih =>
    cases rest with
    | nil =>
      simp [List.intercalate, Split_no_sep sep f (h f (by simp))]
    | cons g rest =>
      have e : List.intercalate [sep] (f :: g :: rest)
          = f ++ sep :: List.intercalate [sep] (g :: rest) := by
        simp [List.intercalate]
      rw [e, Split_append_sep sep f _ (h f (by simp)), ih (by simp)]
      intro x hx
      exact h x (by simp [List.mem_cons] at hx ⊢; right; exact hx)

theorem Hour_val : Hour = 3600000000000 := by decide
theorem Minute_val : Minute = 60000000000 := by decide
theorem Second_val : Second = 1000000000 := by decide
theorem Millisecond_val : Millisecond = 1000000 := by decide
theorem Microsecond_val : Microsecond = 1000 := by decide
theorem Nanosecond_val : Nanosecond = 1 := by decide

/-- What `utcStringToDurationE` computes from the sign and the three field values when
nothing overflows. -/
theorem utc_arith (sign h m s : Int) (hs : sign = 1 ∨ sign = -1)
    (hb : |h| * Hour + |m| * Minute + |s| * Second ≤ maxInt64) :
    dmul (dmul sign h) Hour = sign * (h * Hour) ∧
    dmul sign (dadd (dmul h Hour) (dmul m Minute)) = sign * (h * Hour + m * Minute) ∧
    dmul sign (dadd (dadd (dmul h Hour) (dmul m Minute)) (dmul s Second))
      = sign * (h * Hour + m * Minute + s * Second) := by
  rw [Hour_val, Minute_val, Second_val] at *
  unfold maxInt64 at hb
  unfold dmul dadd wrap64
  rcases abs_cases h with ⟨e1, _⟩ | ⟨e1, _⟩ <;> rcases abs_cases m with ⟨e2, _⟩ | ⟨e2, _⟩ <;>
    rcases abs_cases s with ⟨e3, _⟩ | ⟨e3, _⟩ <;> rw [e1, e2, e3] at hb <;>
    rcases hs with hs | hs <;> subst hs <;> refine ⟨?_, ?_, ?_⟩ <;> omega

theorem stringToDurationE_utc (env : Env) (rest : List Char) :
    stringToDurationE env ('U' :: 'T' :: 'C' :: rest)
      = orZero (utcStringToDurationE env ('U' :: 'T' :: 'C' :: rest)) := by
  simp [stringToDurationE, isDigit, HasPrefix, UTC]

/-- The part of `utcStringToDurationE` after the prefix `UTC+` / `UTC-`. -/
theorem utcStringToDurationE_signed (env : Env) (neg : Bool) (body : List Char) :
    utcStringToDurationE env ('U' :: 'T' :: 'C' :: (if neg then '-' else '+') :: body)
      = (match Split ':' body with
        | [p0] =>
          match env.ToInt64E p0 with
          | Except.error err => Outcome.fail 0 err
          | Except.ok h => Outcome.ok (dmul (dmul (if neg then -1 else 1) h) Hour)
        | [p0, p1] =>
          match env.ToInt64E p0 with
          | Except.error err => Outcome.fail 0 err
          | Except.ok h =>
            match env.ToInt64E p1 with
            | Except.error err => Outcome.fail 0 err
            | Except.ok m =>
              Outcome.ok (dmul (if neg then -1 else 1) (dadd (dmul h Hour) (dmul m Minute)))
        | [p0, p1, p2] =>
          match env.ToInt64E p0 with
          | Except.error err => Outcome.fail 0 err
          | Except.ok h =>
            match env.ToInt64E p1 with
            | Except.error err => Outcome.fail 0 err
            | Except.ok m =>
              match env.ToInt64E p2 with
              | Except.error err => Outcome.fail 0 err
              | Except.ok s =>
                Outcome.ok (dmul (if neg then -1 else 1)
                  (dadd (dadd (dmul h Hour) (dmul m Minute)) (dmul s Second)))
        | _ => Outcome.fail 0 (GoError.invalidTimeZoneName body)) := by
  cases neg <;> simp [utcStringToDurationE, UTC, HasPrefix]

/-- C1: for every input `UTC+` or `UTC-` followed by one, two or three colon-separated
fields that `ToInt64E` reads as the integers `h`, `m`, `s` (absent fields count as 0),
`ToDurationE` succeeds with `sign * (h hours + m minutes + s seconds)` in nanoseconds,
whatever the size of the fields, as long as the result fits 64 bits. -/
theorem utc_offset_fields (env : Env) (neg : Bool) (fields : List (List Char))
    (vals : List Int) (h1 : 1 ≤ fields.length) (h3 : fields.length ≤ 3)
    (hcolon : ∀ f ∈ fields, ':' ∉ f)
    (hvals : List.Forall₂ (fun f v => env.ToInt64E f = Except.ok v) fields vals)
    (hfit : |vals.getD 0 0| * Hour + |vals.getD 1 0| * Minute + |vals.getD 2 0| * Second
      ≤ maxInt64) :
    ToDurationE env
        (GoAny.string (UTC ++ (if neg then '-' else '+') :: List.intercalate [':'] fields))
      = Outcome.ok ((if neg then -1 else 1) *
          (vals.getD 0 0 * Hour + vals.getD 1 0 * Minute + vals.getD 2 0 * Second)) := by
  have hne : fields ≠ [] := by
    intro e
    rw [e] at h1
    simp at h1
  have hsplit := Split_intercalate ':' fields hne hcolon
  have hsign : (if neg then (-1 : Int) else 1) = 1 ∨ (if neg then (-1 : Int) else 1) = -1 := by
    cases neg <;> simp
  simp only [ToDurationE, indirectToStringerOrError, UTC, List.cons_append, List.nil_append]
  rw [stringToDurationE_utc, utcStringToDurationE_signed, hsplit]
  match fields, vals, hvals with
  | [f0], [v0], hv =>
    simp only [List.forall₂_cons, List.forall₂_nil_left_iff, and_true] at hv
    simp only [List.getD_cons_zero, List.getD_cons_succ, List.getD_nil] at hfit ⊢
    have ha := (utc_arith _ v0 0 0 hsign (by simpa using hfit)).1
    simp [hv, orZero, ha]
  | [f0, f1], [v0, v1], hv =>
    simp only [List.forall₂_cons, List.forall₂_nil_left_iff, and_true] at hv
    simp only [List.getD_cons_zero, List.getD_cons_succ, List.getD_nil] at hfit ⊢
    have ha := (utc_arith _ v0 v1 0 hsign (by simpa using hfit)).2.1
    simp [hv.1, hv.2, orZero, ha]
  | [f0, f1, f2], [v0, v1, v2], hv =>
    simp only [List.forall₂_cons, List.forall₂_nil_left_iff, and_true] at hv
    simp only [List.getD_cons_zero, List.getD_cons_succ, List.getD_nil] at hfit ⊢
    have ha := (utc_arith _ v0 v1 v2 hsign (by simpa using hfit)).2.2
    simp [hv.1, hv.2.1, hv.2.2, orZero, ha]
  | [], _, _ => exact absurd rfl hne
  | _ :: _ :: _ :: _ :: _, _, _ => simp at h3

/-- C1 at concrete inputs: in the sample environment `UTC+08:30` is eight and a half
hours. -/
theorem utc_offset_fields_witness :
    ToDurationE (sampleEnv 0) (GoAny.string "UTC+08:30".toList)
      = Outcome.ok (8 * Hour + 30 * Minute) := by
  have h := utc_offset_fields (sampleEnv 0) false ["08".toList, "30".toList] [8, 30]
    (by decide) (by decide) (by decide)
    (List.Forall₂.cons rfl (List.Forall₂.cons rfl List.Forall₂.nil))
    (by norm_num [Hour, Minute, Second, Millisecond, Microsecond, Nanosecond, maxInt64])
  simpa [UTC, List.intercalate] using h

/-- A zone name goes to the lookup: `stringToDurationE` on a text whose first
character is no sign and no digit and that does not start with `UTC`. -/
theorem stringToDurationE_name (env : Env) (c : Char) (rest : List Char)
    (hc : c ≠ '+' ∧ c ≠ '-' ∧ isDigit c = false) (hutc : HasPrefix (c :: rest) UTC = false) :
    stringToDurationE env (c :: rest) = orZero (locationStringToDurationE env (c :: rest)) := by
  obtain ⟨h1, h2, h3⟩ := hc
  simp [stringToDurationE, h1, h2, h3, hutc]

/-- C2: what the code does for a zone name (first character no sign and no digit, no
`UTC` in front): when the lookup resolves the name to a zone whose offset now is `k`
seconds, `ToDurationE` succeeds with the duration of `k` NANOSECONDS, the number of
seconds taken as a count of nanoseconds; when the lookup fails, `ToDurationE` fails
with the error of the lookup. -/
theorem named_zone_duration (env : Env) (c : Char) (rest : List Char)
    (hc : c ≠ '+' ∧ c ≠ '-' ∧ isDigit c = false) (hutc : HasPrefix (c :: rest) UTC = false) :
    (∀ loc, env.LoadLocation (c :: rest) = Except.ok loc →
      ToDurationE env (GoAny.string (c :: rest)) = Outcome.ok (loc.offsetAt env.now)) ∧
    (∀ err, env.LoadLocation (c :: rest) = Except.error err →
      ToDurationE env (GoAny.string (c :: rest)) = Outcome.fail 0 err) := by
  constructor
  · intro loc hl
    simp [ToDurationE, indirectToStringerOrError, stringToDurationE_name env c rest hc hutc,
      locationStringToDurationE, hl, orZero]
  · intro err hl
    simp [ToDurationE, indirectToStringerOrError, stringToDurationE_name env c rest hc hutc,
      locationStringToDurationE, hl, orZero]

/-- C2 at a concrete input: `Asia/Shanghai`, eight hours (28800 seconds) east, is
converted to 28800 nanoseconds, which is not eight hours. -/
theorem named_zone_duration_witness :
    ToDurationE (sampleEnv 0) (GoAny.string "Asia/Shanghai".toList) = Outcome.ok 28800 ∧
    (28800 : Int) ≠ 28800 * Second := by
  refine ⟨?_, by decide⟩
  exact (named_zone_duration (sampleEnv 0) 'A' "sia/Shanghai".toList (by decide) (by decide)).1
    { name := "Asia/Shanghai".toList, offsetAt := fun _ => 28800 } rfl

theorem stringToLocationE_of_fail (env : Env) (s : List Char) (v : Int) (e : GoError)
    (h : stringToDurationE env s = Outcome.fail v e) :
    stringToLocationE env s = Outcome.fail none e := by
  simp [stringToLocationE, h]

/-- A text `UTC...` that goes on with something other than `+` or `-`. -/
theorem utc_bad_continuation (env : Env) (rest : List Char) (hne : rest ≠ [])
    (hp : rest.head? ≠ some '+') (hm : rest.head? ≠ some '-') :
    stringToDurationE env (UTC ++ rest)
      = Outcome.fail 0 (GoError.invalidTimezoneName (UTC ++ rest)) := by
  cases rest with
  | nil => exact absurd rfl hne
  | cons c cs =>
    simp only [List.head?_cons, ne_eq, Option.some.injEq] at hp hm
    simp only [UTC, List.cons_append, List.nil_append]
    rw [stringToDurationE_utc]
    simp [utcStringToDurationE, UTC, HasPrefix, Ne.symm hp, Ne.symm hm, orZero]

/-- A text `UTC+...` or `UTC-...` with more than three fields, or with a field that
`ToInt64E` rejects. -/
theorem utc_bad_fields (env : Env) (neg : Bool) (fields : List (List Char))
    (hcolon : ∀ f ∈ fields, ':' ∉ f)
    (hbad : 3 < fields.length ∨ ∃ f ∈ fields, ∃ e, env.ToInt64E f = Except.error e) :
    ∃ e, stringToDurationE env
      (UTC ++ (if neg then '-' else '+') :: List.intercalate [':'] fields)
        = Outcome.fail 0 e := by
  have hne : fields ≠ [] := by
    rintro rfl
    rcases hbad with h | ⟨f, hf, _⟩
    · simp at h
    · simp at hf
  have hsplit := Split_intercalate ':' fields hne hcolon
  simp only [UTC, List.cons_append, List.nil_append]
  rw [stringToDurationE_utc, utcStringToDurationE_signed, hsplit]
  match fields, hbad with
  | [], _ => exact absurd rfl hne
  | [f0], hb =>
    rcases hb with h | ⟨f, hf, e, he⟩
    · simp at h
    · simp only [List.mem_singleton] at hf
      subst hf
      exact ⟨e, by simp [he, orZero]⟩
  | [f0, f1], hb =>
    rcases hb with h | ⟨f, hf, e, he⟩
    · simp at h
    · cases h0 : env.ToInt64E f0 with
      | error e0 => exact ⟨e0, by simp [orZero, h0]⟩
      | ok v0 =>
        cases h1 : env.ToInt64E f1 with
        | error e1 => exact ⟨e1, by simp [orZero, h0, h1]⟩
        | ok v1 =>
          simp only [List.mem_cons, List.mem_singleton, List.not_mem_nil, or_false] at hf
          rcases hf with hf | hf <;> subst hf <;> simp_all
  | [f0, f1, f2], hb =>
    rcases hb with h | ⟨f, hf, e, he⟩
    · simp at h
    · cases h0 : env.ToInt64E f0 with
      | error e0 => exact ⟨e0, by simp [orZero, h0]⟩
      | ok v0 =>
        cases h1 : env.ToInt64E f1 with
        | error e1 => exact ⟨e1, by simp [orZero, h0, h1]⟩
        | ok v1 =>
          cases h2 : env.ToInt64E f2 with
          | error e2 => exact ⟨e2, by simp [orZero, h0, h1, h2]⟩
          | ok v2 =>
            simp only [List.mem_cons, List.mem_singleton, List.not_mem_nil, or_false] at hf
            rcases hf with hf | hf | hf <;> subst hf <;> simp_all
  | f0 :: f1 :: f2 :: f3 :: more, _ =>
    exact ⟨GoError.invalidTimeZoneName (List.intercalate [':'] (f0 :: f1 :: f2 :: f3 :: more)),
      by simp [orZero]⟩

/-- The zone lookup has no part in the conversion of a text that starts with `UTC`. -/
theorem utc_ignores_lookup (env : Env) (rest : List Char)
    (lookup : List Char → Except GoError Location) :
    stringToDurationE { env with LoadLocation := lookup } (UTC ++ rest)
      = stringToDurationE env (UTC ++ rest) := by
  simp only [UTC, List.cons_append, List.nil_append]
  rw [stringToDurationE_utc, stringToDurationE_utc]
  rfl

/-- C10: a text that starts with `UTC` and goes on with something other than `+` or
`-`, and a text `UTC+...` / `UTC-...` with more than three colon-separated fields or
with a field that `ToInt64E` rejects, make `ToDurationE` and `ToTimeZoneE` fail (with
value 0 and nil); the result does not depend on the zone lookup, which is not asked. -/
theorem utc_malformed_fails (env : Env) (rest : List Char)
    (hbad : (rest ≠ [] ∧ rest.head? ≠ some '+' ∧ rest.head? ≠ some '-') ∨
      (∃ (neg : Bool) (fields : List (List Char)), rest = (if neg then '-' else '+') :: List.intercalate [':'] fields ∧
        (∀ f ∈ fields, ':' ∉ f) ∧
        (3 < fields.length ∨ ∃ f ∈ fields, ∃ e, env.ToInt64E f = Except.error e))) :
    (∃ e, ToDurationE env (GoAny.string (UTC ++ rest)) = Outcome.fail 0 e ∧
      ToTimeZoneE env (GoAny.string (UTC ++ rest)) = Outcome.fail none e) ∧
    ∀ lookup : List Char → Except GoError Location,
      ToDurationE { env with LoadLocation := lookup } (GoAny.string (UTC ++ rest))
        = ToDurationE env (GoAny.string (UTC ++ rest)) ∧
      (∃ e, ToTimeZoneE { env with LoadLocation := lookup } (GoAny.string (UTC ++ rest))
        = Outcome.fail none e) := by
  have key : ∃ e, stringToDurationE env (UTC ++ rest) = Outcome.fail 0 e := by
    rcases hbad with ⟨h1, h2, h3⟩ | ⟨neg, fields, hr, hc, hb⟩
    · exact ⟨_, utc_bad_continuation env rest h1 h2 h3⟩
    · rw [hr]
      exact utc_bad_fields env neg fields hc hb
  obtain ⟨e, he⟩ := key
  refine ⟨⟨e, ?_, ?_⟩, ?_⟩
  · simpa [ToDurationE, indirectToStringerOrError] using he
  · simpa [ToTimeZoneE, indirectToStringerOrError] using
      stringToLocationE_of_fail env _ 0 e he
  · intro lookup
    have hl := utc_ignores_lookup env rest lookup
    refine ⟨?_, e, ?_⟩
    · simpa [ToDurationE, indirectToStringerOrError] using hl
    · simpa [ToTimeZoneE, indirectToStringerOrError] using
        stringToLocationE_of_fail _ _ 0 e (hl.trans he)

/-- C10 at concrete inputs: `UTCx` has a bad continuation. -/
theorem utc_malformed_fails_witness :
    (∃ e, ToDurationE (sampleEnv 0) (GoAny.string "UTCx".toList) = Outcome.fail 0 e ∧
      ToTimeZoneE (sampleEnv 0) (GoAny.string "UTCx".toList) = Outcome.fail none e) := by
  have h := (utc_malformed_fails (sampleEnv 0) ['x'] (Or.inl (by decide))).1
  simpa [UTC] using h

/-! ## The calendar -/

theorem isLeap_iff (y : Int) :
    isLeap y = true ↔ (y % 4 = 0 ∧ (y % 100 ≠ 0 ∨ y % 400 = 0)) := by
  simp [isLeap]

theorem yearDay_arith (d b c e f r1 r2 r3 : Int) (hb : b = d / 146097)
    (hr1 : r1 = d - 146097 * b) (hc : c = r1 / 36524 - r1 / 36524 / 4)
    (hr2 : r2 = r1 - 36524 * c) (he : e = r2 / 1461) (hr3 : r3 = r2 - 1461 * e)
    (hf : f = r3 / 365 - r3 / 365 / 4) (Y : Int) (hY : Y = 400 * b + 100 * c + 4 * e + f + 1) :
    365 * (Y - 1) + (Y - 1) / 4 - (Y - 1) / 100 + (Y - 1) / 400 + (r3 - 365 * f) = d ∧
    0 ≤ r3 - 365 * f ∧ r3 - 365 * f ≤ 365 ∧
    (r3 - 365 * f = 365 → (Y % 4 = 0 ∧ (Y % 100 ≠ 0 ∨ Y % 400 = 0))) := by
  have hr1b : 0 ≤ r1 ∧ r1 < 146097 := by omega
  have hcb : (c = 0 ∧ r1 < 36524) ∨ (c = 1 ∧ 36524 ≤ r1 ∧ r1 < 73048) ∨
      (c = 2 ∧ 73048 ≤ r1 ∧ r1 < 109572) ∨ (c = 3 ∧ 109572 ≤ r1) := by omega
  have hr3b : 0 ≤ r3 ∧ r3 < 1461 := by omega
  have hfb : (f = 0 ∧ r3 < 365) ∨ (f = 1 ∧ 365 ≤ r3 ∧ r3 < 730) ∨
      (f = 2 ∧ 730 ≤ r3 ∧ r3 < 1095) ∨ (f = 3 ∧ 1095 ≤ r3) := by omega
  have heb : 0 ≤ e ∧ e ≤ 24 := by omega
  have h4 : (Y - 1) / 4 = 100 * b + 25 * c + e := by omega
  have h100 : (Y - 1) / 100 = 4 * b + c := by omega
  have h400 : (Y - 1) / 400 = b := by omega
  refine ⟨by omega, by omega, by omega, ?_⟩
  intro h
  have hf3 : f = 3 := by omega
  refine ⟨by omega, ?_⟩
  by_cases he24 : e = 24
  · right
    omega
  · left
    omega

theorem yearDay_spec (days : Int) :
    daysSinceEpoch (yearDay days).1 + (yearDay days).2 = days ∧ 0 ≤ (yearDay days).2 ∧
    (yearDay days).2 < (if isLeap (yearDay days).1 then 366 else 365) := by
  have h := yearDay_arith (days + 719162) _ _ _ _ _ _ _ rfl rfl rfl rfl rfl rfl rfl _ rfl
  obtain ⟨h1, h2, h3, h4⟩ := h
  refine ⟨?_, h2, ?_⟩
  · simp only [yearDay, daysSinceEpoch]
    omega
  · by_cases hl : isLeap (yearDay days).1 = true
    · rw [if_pos hl]
      simp only [yearDay]
      omega
    · rw [if_neg hl]
      have hne : (yearDay days).2 ≠ 365 := by
        intro h365
        exact hl ((isLeap_iff _).2 (h4 h365))
      have h3b : (yearDay days).2 ≤ 365 := h3
      omega


theorem daysBefore_vals :
    daysBefore 0 = 0 ∧ daysBefore 1 = 31 ∧ daysBefore 2 = 59 ∧ daysBefore 3 = 90 ∧
    daysBefore 4 = 120 ∧ daysBefore 5 = 151 ∧ daysBefore 6 = 181 ∧ daysBefore 7 = 212 ∧
    daysBefore 8 = 243 ∧ daysBefore 9 = 273 ∧ daysBefore 10 = 304 ∧ daysBefore 11 = 334 ∧
    daysBefore 12 = 365 := by
  refine ⟨rfl, rfl, rfl, rfl, rfl, rfl, rfl, rfl, rfl, rfl, rfl, rfl, rfl⟩

theorem monthOf_spec (day : Int) (h0 : 0 ≤ day) (h1 : day < 365) :
    1 ≤ (monthOf day).1 ∧ (monthOf day).1 ≤ 12 ∧
    daysBefore ((monthOf day).1 - 1) + ((monthOf day).2 - 1) = day ∧
    (3 ≤ (monthOf day).1 ↔ 59 ≤ day) := by
  obtain ⟨d0, d1, d2, d3, d4, d5, d6, d7, d8, d9, d10, d11, d12⟩ := daysBefore_vals
  have hm : day / 31 = 0 ∨ day / 31 = 1 ∨ day / 31 = 2 ∨ day / 31 = 3 ∨ day / 31 = 4 ∨
      day / 31 = 5 ∨ day / 31 = 6 ∨ day / 31 = 7 ∨ day / 31 = 8 ∨ day / 31 = 9 ∨
      day / 31 = 10 ∨ day / 31 = 11 := by omega
  simp only [monthOf]
  rcases hm with hm | hm | hm | hm | hm | hm | hm | hm | hm | hm | hm | hm <;>
    rw [hm] <;> norm_num [d0, d1, d2, d3, d4, d5, d6, d7, d8, d9, d10, d11, d12] <;>
    split <;> norm_num [d0, d1, d2, d3, d4, d5, d6, d7, d8, d9, d10, d11, d12] <;> omega

theorem monthDay_spec (year yday : Int) (h0 : 0 ≤ yday)
    (h1 : yday < (if isLeap year then 366 else 365)) :
    1 ≤ (monthDay year yday).1 ∧ (monthDay year yday).1 ≤ 12 ∧
    daysBefore ((monthDay year yday).1 - 1)
      + (if isLeap year && decide ((monthDay year yday).1 ≥ 3) then 1 else 0)
      + ((monthDay year yday).2 - 1) = yday := by
  cases hl : isLeap year
  · simp only [hl, Bool.false_and, Bool.false_eq_true, if_false] at h1 ⊢
    simp only [monthDay, hl, Bool.false_and, Bool.false_eq_true, if_false]
    have h := monthOf_spec yday h0 h1
    omega
  · simp only [hl, Bool.true_and, if_true] at h1 ⊢
    simp only [monthDay, hl, Bool.true_and, decide_eq_true_eq]
    have e1 : (31 : Int) + 29 - 1 = 59 := by norm_num
    rw [e1]
    by_cases h59 : yday = 59
    · rw [if_pos h59]
      norm_num [daysBefore_vals.2.1]
      omega
    · rw [if_neg h59]
      by_cases hgt : yday > 59
      · rw [if_pos hgt]
        have h := monthOf_spec (yday - 1) (by omega) (by omega)
        obtain ⟨a1, a2, a3, a4⟩ := h
        have a5 : 3 ≤ (monthOf (yday - 1)).1 := a4.2 (by omega)
        simp only [ge_iff_le, a5, if_true]
        omega
      · rw [if_neg hgt]
        have h := monthOf_spec yday (by omega) (by omega)
        obtain ⟨a1, a2, a3, a4⟩ := h
        have a5 : ¬ 3 ≤ (monthOf yday).1 := fun hh => by have := a4.1 hh; omega
        simp only [ge_iff_le, a5, if_false]
        omega

theorem AddDate_zero (t : Int) : AddDate t 0 0 0 = t := by
  have hy := yearDay_spec (t / 1000000000 / 86400)
  obtain ⟨hy1, hy2, hy3⟩ := hy
  have hm := monthDay_spec _ _ hy2 hy3
  obtain ⟨hm1, hm2, hm3⟩ := hm
  simp only [AddDate, Date, absDate, add_zero]
  generalize (monthDay (yearDay (t / 1000000000 / 86400)).1 (yearDay (t / 1000000000 / 86400)).2).1 = m at *
  generalize (monthDay (yearDay (t / 1000000000 / 86400)).1 (yearDay (t / 1000000000 / 86400)).2).2 = dd at *
  have e1 : (m - 1) / 12 = 0 := by omega
  have e2 : (m - 1) % 12 = m - 1 := by omega
  have e3 : m - 1 + 1 = m := by omega
  rw [e1, e2, e3, add_zero]
  omega

/-! ## The pattern -/

theorem matchGroups_isSome (gs : List (List Atom)) (s : List Char) :
    ∃ r, matchGroups gs s = some r := by
  induction gs generalizing s with
  | nil => exact ⟨_, rfl⟩
  | cons g gs ih =>
    obtain ⟨r, hr⟩ := ih s
    simp only [matchGroups, hr, Option.map_some']
    cases matchAtoms g _ s with
    | none => exact ⟨_, rfl⟩
    | some x => exact ⟨_, rfl⟩

theorem matchGroups_cons_match (g : List Atom) (gs : List (List Atom)) (s rest : List Char)
    (h : ∀ (k : List Char → Option (List (List Char) × List Char)), matchAtoms g k s = k rest) :
    matchGroups (g :: gs) s
      = (matchGroups gs rest).map (fun r => (consumed s rest :: r.1, r.2)) := by
  obtain ⟨r, hr⟩ := matchGroups_isSome gs rest
  simp [matchGroups, h, hr, orElse]

theorem matchGroups_cons_fail (g : List Atom) (gs : List (List Atom)) (s : List Char)
    (h : ∀ (k : List Char → Option (List (List Char) × List Char)), matchAtoms g k s = none) :
    matchGroups (g :: gs) s = (matchGroups gs s).map (fun r => ([] :: r.1, r.2)) := by
  simp [matchGroups, h, orElse]

theorem FindStringSubmatch_of_match (re : List (List Atom)) (s : List Char)
    (r : List (List Char) × List Char) (h : matchGroups re s = some r) :
    FindStringSubmatch re s = consumed s r.2 :: r.1 := by
  cases s with
  | nil => simp [FindStringSubmatch, h, consumed]
  | cons c cs => simp [FindStringSubmatch, h]

theorem digitsLoop_some {β : Type} (k : List Char → Option β) (s : List Char) (r : β)
    (h : digitsLoop k s = some r) : ∃ rest, k rest = some r := by
  induction s with
  | nil => exact ⟨[], by simpa [digitsLoop] using h⟩
  | cons c cs ih =>
    simp only [digitsLoop] at h
    split at h
    · cases hd : digitsLoop k cs with
      | some x =>
        rw [hd] at h
        simp only [orElse] at h
        exact ih (hd.trans h)
      | none =>
        rw [hd] at h
        simp only [orElse] at h
        exact ⟨_, h⟩
    · exact ⟨_, h⟩

theorem matchAtoms_some {β : Type} (g : List Atom) (k : List Char → Option β) (s : List Char)
    (r : β) (h : matchAtoms g k s = some r) : ∃ rest, k rest = some r := by
  induction g generalizing s with
  | nil => exact ⟨s, by simpa [matchAtoms] using h⟩
  | cons a rest ih =>
    cases a with
    | one cls =>
      cases s with
      | nil => simp [matchAtoms] at h
      | cons c cs =>
        simp only [matchAtoms] at h
        split at h
        · exact ih _ h
        · simp at h
    | opt cls =>
      simp only [matchAtoms] at h
      cases s with
      | nil =>
        simp only [orElse] at h
        exact ih _ h
      | cons c cs =>
        by_cases hc : cls.contains c = true
        · simp only [hc, if_true] at h
          cases h1 : matchAtoms rest k cs with
          | some x =>
            rw [h1] at h
            simp only [orElse] at h
            exact ih _ (h1.trans h)
          | none =>
            rw [h1] at h
            simp only [orElse] at h
            exact ih _ h
        · simp only [hc, if_false, orElse] at h
          exact ih _ h
    | digits =>
      cases s with
      | nil => simp [matchAtoms] at h
      | cons c cs =>
        simp only [matchAtoms] at h
        split at h
        · obtain ⟨r1, hr1⟩ := digitsLoop_some _ _ _ h
          exact ih _ hr1
        · simp at h

theorem matchGroups_length (gs : List (List Atom)) (s : List Char)
    (r : List (List Char) × List Char) (h : matchGroups gs s = some r) :
    r.1.length = gs.length := by
  induction gs generalizing s r with
  | nil =>
    simp only [matchGroups, Option.some.injEq] at h
    simp [← h]
  | cons g gs ih =>
    simp only [matchGroups] at h
    cases h1 : matchAtoms g
        (fun rest => (matchGroups gs rest).map (fun r => (consumed s rest :: r.1, r.2))) s with
    | some x =>
      rw [h1] at h
      simp only [orElse, Option.some.injEq] at h
      obtain ⟨rest, hrest⟩ := matchAtoms_some _ _ _ _ h1
      cases h2 : matchGroups gs rest with
      | none => simp [h2] at hrest
      | some y =>
        simp only [h2, Option.map_some', Option.some.injEq] at hrest
        rw [← h, ← hrest]
        simp [ih _ _ h2]
    | none =>
      rw [h1] at h
      simp only [orElse] at h
      cases h2 : matchGroups gs s with
      | none => simp [h2] at h
      | some y =>
        simp only [h2, Option.map_some', Option.some.injEq] at h
        rw [← h]
        simp [ih _ _ h2]

/-- The search never fails: the pattern matches the empty text at the first position. -/
theorem FindStringSubmatch_length (s : List Char) :
    (FindStringSubmatch durationRegExp s).length = 10 := by
  obtain ⟨r, hr⟩ := matchGroups_isSome durationRegExp s
  rw [FindStringSubmatch_of_match _ _ _ hr]
  simp [matchGroups_length _ _ _ hr, durationRegExp]

theorem isNumeral_cases (num : List Char) (h : isNumeral num = true) :
    ∃ (sign : List Char) (d : Char) (ds : List Char),
      (sign = [] ∨ sign = ['+'] ∨ sign = ['-']) ∧ num = sign ++ d :: ds ∧
      isDigit d = true ∧ ∀ c ∈ ds, isDigit c = true := by
  have key : ∀ ds : List Char, (!ds.isEmpty && ds.all isDigit) = true →
      ∃ d ds', ds = d :: ds' ∧ isDigit d = true ∧ ∀ c ∈ ds', isDigit c = true := by
    intro ds hds
    cases ds with
    | nil => simp at hds
    | cons d ds' =>
      simp only [List.isEmpty_cons, Bool.not_false, List.all_cons, Bool.true_and,
        Bool.and_eq_true, List.all_eq_true] at hds
      exact ⟨d, ds', rfl, hds.1, hds.2⟩
  cases num with
  | nil => simp [isNumeral] at h
  | cons c cs =>
    by_cases hp : c = '+'
    · subst hp
      simp only [isNumeral] at h
      obtain ⟨d, ds', e, h1, h2⟩ := key cs h
      exact ⟨['+'], d, ds', by simp, by simp [e], h1, h2⟩
    · by_cases hm : c = '-'
      · subst hm
        simp only [isNumeral] at h
        obtain ⟨d, ds', e, h1, h2⟩ := key cs h
        exact ⟨['-'], d, ds', by simp, by simp [e], h1, h2⟩
      · have h' : (!(c :: cs).isEmpty && (c :: cs).all isDigit) = true := by
          unfold isNumeral at h
          split at h
          · rename_i heq
            simp only [List.cons.injEq] at heq
            exact absurd heq.1 hp
          · rename_i heq
            simp only [List.cons.injEq] at heq
            exact absurd heq.1 hm
          · exact h
        obtain ⟨d, ds', e, h1, h2⟩ := key _ h'
        exact ⟨[], d, ds', by simp, by simp [e], h1, h2⟩

theorem orElse_none_right {β : Type} (a : Option β) : orElse a none = a := by
  cases a <;> rfl

theorem dropWhile_digits_append (ds w : List Char) (hds : ∀ c ∈ ds, isDigit c = true)
    (hw : ∀ c, w.head? = some c → isDigit c = false) :
    (ds ++ w).dropWhile isDigit = w := by
  induction ds with
  | nil =>
    cases w with
    | nil => rfl
    | cons c cs => simp [List.dropWhile, hw c rfl]
  | cons d ds ih =>
    simp only [List.cons_append, List.dropWhile, hds d (by simp)]
    exact ih (fun c hc => hds c (by simp [hc]))

theorem digitsLoop_dropWhile {β : Type} (k : List Char → Option β)
    (hk : ∀ c cs, isDigit c = true → k (c :: cs) = none) (s : List Char) :
    digitsLoop k s = k (s.dropWhile isDigit) := by
  induction s with
  | nil => rfl
  | cons c cs ih =>
    by_cases hc : isDigit c = true
    · simp [digitsLoop, hc, ih, hk c cs hc, orElse_none_right, List.dropWhile]
    · simp [digitsLoop, hc, List.dropWhile]

theorem matchAtoms_one_cons {β : Type} (cls : List Char) (rest : List Atom)
    (k : List Char → Option β) (c : Char) (cs : List Char) :
    matchAtoms (Atom.one cls :: rest) k (c :: cs)
      = if cls.contains c then matchAtoms rest k cs else none := rfl

theorem matchAtoms_one_nil {β : Type} (cls : List Char) (rest : List Atom)
    (k : List Char → Option β) : matchAtoms (Atom.one cls :: rest) k [] = none := rfl

theorem matchAtoms_digits_cons {β : Type} (rest : List Atom)
    (k : List Char → Option β) (c : Char) (cs : List Char) :
    matchAtoms (Atom.digits :: rest) k (c :: cs)
      = if isDigit c then digitsLoop (matchAtoms rest k) cs else none := rfl

theorem matchAtoms_opt_cons {β : Type} (cls : List Char) (rest : List Atom)
    (k : List Char → Option β) (c : Char) (cs : List Char) :
    matchAtoms (Atom.opt cls :: rest) k (c :: cs)
      = orElse (if cls.contains c then matchAtoms rest k cs else none)
          (matchAtoms rest k (c :: cs)) := rfl

theorem matchAtoms_opt_nil {β : Type} (cls : List Char) (rest : List Atom)
    (k : List Char → Option β) :
    matchAtoms (Atom.opt cls :: rest) k [] = matchAtoms rest k [] := rfl

theorem matchAtoms_digits_nil {β : Type} (rest : List Atom)
    (k : List Char → Option β) : matchAtoms (Atom.digits :: rest) k [] = none := rfl

theorem signClass_not_digit (c : Char) (h : isDigit c = true) : signClass.contains c = false := by
  by_contra hcon
  simp only [Bool.not_eq_false, signClass, List.contains_cons, List.contains_nil,
    Bool.or_false, Bool.or_eq_true, beq_iff_eq] at hcon
  rcases hcon with rfl | rfl | rfl <;> simp [isDigit] at h

/-- The sign and the digits of a group are consumed in one way only: after a numeral
in front of a non-digit, what is left of a group pattern is its unit. -/
theorem matchAtoms_numeral {β : Type} (cls : List Char) (more : List Atom)
    (k : List Char → Option β) (num w : List Char) (hnum : isNumeral num = true)
    (hw : ∀ c, w.head? = some c → isDigit c = false)
    (hcls : ∀ c, isDigit c = true → cls.contains c = false) :
    matchAtoms (Atom.opt signClass :: Atom.digits :: Atom.one cls :: more) k (num ++ w)
      = matchAtoms (Atom.one cls :: more) k w := by
  obtain ⟨sign, d, ds, hsign, rfl, hd, hds⟩ := isNumeral_cases num hnum
  have hk : ∀ c cs, isDigit c = true → matchAtoms (Atom.one cls :: more) k (c :: cs) = none := by
    intro c cs hc
    rw [matchAtoms_one_cons, hcls c hc]
    rfl
  have hdig : matchAtoms (Atom.digits :: Atom.one cls :: more) k (d :: (ds ++ w))
      = matchAtoms (Atom.one cls :: more) k w := by
    rw [matchAtoms_digits_cons, hd, if_pos rfl, digitsLoop_dropWhile _ hk,
      dropWhile_digits_append ds w hds hw]
  have hplus : isDigit '+' = false := by decide
  have hminus : isDigit '-' = false := by decide
  rcases hsign with rfl | rfl | rfl
  · have e : [] ++ d :: ds ++ w = d :: (ds ++ w) := by simp
    rw [e, matchAtoms_opt_cons, signClass_not_digit d hd, hdig]
    rfl
  · have e : ['+'] ++ d :: ds ++ w = '+' :: d :: (ds ++ w) := by simp
    have hin : signClass.contains '+' = true := by decide
    rw [e, matchAtoms_opt_cons, hin, if_pos rfl, hdig, matchAtoms_digits_cons, hplus]
    exact orElse_none_right _
  · have e : ['-'] ++ d :: ds ++ w = '-' :: d :: (ds ++ w) := by simp
    have hin : signClass.contains '-' = true := by decide
    rw [e, matchAtoms_opt_cons, hin, if_pos rfl, hdig, matchAtoms_digits_cons, hminus]
    exact orElse_none_right _

/-- A group pattern does not match a text that starts with neither a character of the
sign class nor a digit, nor the empty text. -/
theorem matchAtoms_junk {β : Type} (rest : List Atom) (k : List Char → Option β)
    (junk : List Char)
    (hj : ∀ c, junk.head? = some c → signClass.contains c = false ∧ isDigit c = false) :
    matchAtoms (Atom.opt signClass :: Atom.digits :: rest) k junk = none := by
  cases junk with
  | nil => rfl
  | cons c cs =>
    obtain ⟨h1, h2⟩ := hj c rfl
    rw [matchAtoms_opt_cons, h1, matchAtoms_digits_cons, h2]
    rfl

theorem patternOK_durationRegExp : patternOK 0 durationRegExp = true := by decide

theorem unitMatches_sound {β : Type} (atoms : List Atom) (u : List Char)
    (h : unitMatches atoms u = true) (k : List Char → Option β) (R : List Char) :
    matchAtoms atoms k (u ++ R) = k R := by
  induction atoms generalizing u with
  | nil =>
    cases u with
    | nil => rfl
    | cons c cs => simp [unitMatches] at h
  | cons a rest ih =>
    cases a with
    | one cls =>
      cases u with
      | nil => simp [unitMatches] at h
      | cons c cs =>
        simp only [unitMatches, Bool.and_eq_true] at h
        rw [List.cons_append, matchAtoms_one_cons, h.1, if_pos rfl]
        exact ih cs h.2
    | opt cls => simp [unitMatches] at h
    | digits => simp [unitMatches] at h

theorem unitFails_sound {β : Type} (atoms : List Atom) (u : List Char)
    (h : unitFails atoms u = true) (k : List Char → Option β) (R : List Char) :
    matchAtoms atoms k (u ++ R) = none := by
  induction atoms generalizing u with
  | nil => simp [unitFails] at h
  | cons a rest ih =>
    cases a with
    | one cls =>
      cases u with
      | nil => simp [unitFails] at h
      | cons c cs =>
        simp only [unitFails, Bool.or_eq_true, Bool.not_eq_true'] at h
        rw [List.cons_append, matchAtoms_one_cons]
        by_cases hc : cls.contains c = true
        · rw [hc, if_pos rfl]
          rcases h with h | h
          · rw [hc] at h
            exact absurd h (by decide)
          · exact ih cs h
        · rw [if_neg hc]
    | opt cls => simp [unitFails] at h
    | digits => simp [unitFails] at h

theorem unit_head_not_digit (j : Nat) (u : List Char) (hu : u ∈ unitTexts j) (R : List Char) :
    ∀ c, (u ++ R).head? = some c → isDigit c = false := by
  have hall : ∀ j' < 9, (unitTexts j').all
      (fun u => match u with | c :: _ => !isDigit c | [] => false) = true := by decide
  by_cases hj : j < 9
  · have h := List.all_eq_true.1 (hall j hj) u hu
    cases u with
    | nil => simp at h
    | cons c cs =>
      intro c' hc'
      simp only [List.cons_append, List.head?_cons, Option.some.injEq] at hc'
      subst hc'
      simpa using h
  · have e : unitTexts j = [] := by
      unfold unitTexts
      split <;> first | omega | rfl
    rw [e] at hu
    simp at hu

theorem consumed_append (a b : List Char) : consumed (a ++ b) b = a := by
  simp [consumed]

theorem orderedFrom_le (i : Nat) (toks : List Token) (h : orderedFrom i toks) :
    ∀ t ∈ toks, i ≤ t.group := by
  induction toks generalizing i with
  | nil => simp
  | cons t ts ih =>
    obtain ⟨h1, _, h3⟩ := h
    intro t' ht'
    rcases List.mem_cons.1 ht' with rfl | hm
    · exact h1
    · have := ih _ h3 t' hm
      omega

theorem textAt_of_lt (toks : List Token) (i : Nat) (h : ∀ t ∈ toks, i < t.group) :
    textAt toks i = [] := by
  have : toks.find? (fun t => decide (t.group = i)) = none := by
    rw [List.find?_eq_none]
    intro t ht
    have := h t ht
    simp
    omega
  simp [textAt, this]

theorem textAt_cons_ne (t : Token) (ts : List Token) (j : Nat) (h : t.group ≠ j) :
    textAt (t :: ts) j = textAt ts j := by
  simp [textAt, List.find?, h]

theorem textAt_cons_eq (t : Token) (ts : List Token) : textAt (t :: ts) t.group = t.text := by
  simp [textAt, List.find?]

/-- On a text made of written groups in the order of the pattern, followed by nothing
that could start a group, the search takes each written group with the pattern of its
group and leaves the other groups empty. -/
theorem matchGroups_written (gs : List (List Atom)) (i : Nat) (hok : patternOK i gs = true)
    (toks : List Token) (junk : List Char) (hord : orderedFrom i toks)
    (hwf : ∀ t ∈ toks, t.wellFormed) (hjunk : junkOK junk) :
    matchGroups gs (render toks ++ junk)
      = some ((List.range' i gs.length).map (textAt toks), junk) := by
  induction gs generalizing i toks with
  | nil =>
    have hi : i = 9 := by simpa [patternOK] using hok
    cases toks with
    | nil => simp [render, matchGroups]
    | cons t ts =>
      have h1 := hord.1
      have h2 := (hwf t (by simp)).1
      omega
  | cons g gs ih =>
    unfold patternOK at hok
    split at hok
    · rename_i heq
      simp at heq
    · rename_i sc cls more gs' heq
      simp only [List.cons.injEq] at heq
      obtain ⟨hg, hgs⟩ := heq
      subst hg
      subst hgs
      simp only [Bool.and_eq_true, beq_iff_eq, List.all_eq_true, Bool.or_eq_true,
        Bool.not_eq_true', decide_eq_true_eq, decide_eq_false_iff_not, List.mem_range] at hok
      obtain ⟨⟨⟨⟨hsc, hcls⟩, hmatch⟩, hfail⟩, hrest⟩ := hok
      subst hsc
      have hcls' : ∀ c, isDigit c = true → cls.contains c = false := by
        intro c hc
        by_contra hcon
        have hmem : c ∈ cls := by simpa using hcon
        have := hcls c hmem
        simp [hc] at this
      rw [List.length_cons, List.range'_succ, List.map_cons]
      have habsent : ∀ toks', orderedFrom (i + 1) toks' → (∀ t ∈ toks', t.wellFormed) →
          (∀ (k : List Char → Option (List (List Char) × List Char)),
            matchAtoms (Atom.opt signClass :: Atom.digits :: Atom.one cls :: more) k
              (render toks' ++ junk) = none) →
          matchGroups ((Atom.opt signClass :: Atom.digits :: Atom.one cls :: more) :: gs)
            (render toks' ++ junk)
            = some ([] :: (List.range' (i + 1) gs.length).map (textAt toks'), junk) := by
        intro toks' ho hw hn
        rw [matchGroups_cons_fail _ _ _ hn, ih (i + 1) hrest toks' ho hw]
        rfl
      cases toks with
      | nil =>
        have h := habsent [] trivial (by simp) (fun k => by
          simpa [render] using matchAtoms_junk _ k junk hjunk)
        simpa [textAt] using h
      | cons t ts =>
        obtain ⟨ho1, ho2, ho3⟩ := hord
        obtain ⟨hw1, hw2, hw3⟩ := hwf t (by simp)
        have hwts : ∀ t' ∈ ts, t'.wellFormed := fun t' ht' => hwf t' (by simp [ht'])
        have hshape : render (t :: ts) ++ junk = t.num ++ (t.unit ++ (render ts ++ junk)) := by
          simp [render, Token.text]
        have hnum : ∀ (k : List Char → Option (List (List Char) × List Char)),
            matchAtoms (Atom.opt signClass :: Atom.digits :: Atom.one cls :: more) k
              (render (t :: ts) ++ junk)
              = matchAtoms (Atom.one cls :: more) k (t.unit ++ (render ts ++ junk)) := by
          intro k
          rw [hshape]
          exact matchAtoms_numeral cls more k t.num _ hw2
            (unit_head_not_digit t.group t.unit hw3 _) hcls'
        by_cases hti : t.group = i
        · have hm := hmatch t.unit (by rw [← hti]; exact hw3)
          have hstep : ∀ (k : List Char → Option (List (List Char) × List Char)),
              matchAtoms (Atom.opt signClass :: Atom.digits :: Atom.one cls :: more) k
                (render (t :: ts) ++ junk) = k (render ts ++ junk) := by
            intro k
            rw [hnum k]
            exact unitMatches_sound _ _ hm k _
          rw [matchGroups_cons_match _ _ _ _ hstep,
            ih (i + 1) hrest ts (by rw [← hti]; exact ho3) hwts]
          have hc : consumed (render (t :: ts) ++ junk) (render ts ++ junk) = t.text := by
            have e : render (t :: ts) ++ junk = t.text ++ (render ts ++ junk) := by
              simp [render]
            rw [e, consumed_append]
          have hmap : (List.range' (i + 1) gs.length).map (textAt ts)
              = (List.range' (i + 1) gs.length).map (textAt (t :: ts)) := by
            apply List.map_congr_left
            intro j hj
            have hj' := (List.mem_range'_1.1 hj).1
            rw [textAt_cons_ne t ts j (by omega)]
          simp only [Option.map_some', hc, hmap]
          rw [← hti, textAt_cons_eq]
        · have hlt : i < t.group := by omega
          have hf := hfail t.group hw1
          have hf' : ∀ u ∈ unitTexts t.group, unitFails (Atom.one cls :: more) u = true := by
            rcases hf with (hf | hf) | hf
            · exact absurd hlt hf
            · have := ho2 hf.1
              omega
            · exact hf
          have hno : ∀ (k : List Char → Option (List (List Char) × List Char)),
              matchAtoms (Atom.opt signClass :: Atom.digits :: Atom.one cls :: more) k
                (render (t :: ts) ++ junk) = none := by
            intro k
            rw [hnum k]
            exact unitFails_sound _ _ (hf' t.unit hw3) k _
          have hord' : orderedFrom (i + 1) (t :: ts) :=
            ⟨by omega, fun h6 => by have := ho2 h6; omega, ho3⟩
          rw [habsent (t :: ts) hord' hwf hno]
          have htx : textAt (t :: ts) i = [] := by
            apply textAt_of_lt
            intro t' ht'
            have := orderedFrom_le (i + 1) (t :: ts) hord' t' ht'
            omega
          rw [htx]
    · simp at hok

/-! ## The numbers of the groups -/

theorem stripNonDigitsRev_append (a b : List Char) (ha : ∀ c ∈ a, isDigit c = false) :
    stripNonDigitsRev (a ++ b) = stripNonDigitsRev b := by
  induction a with
  | nil => rfl
  | cons c cs ih =>
    simp only [List.cons_append, stripNonDigitsRev, ha c (by simp)]
    exact ih (fun c' hc' => ha c' (by simp [hc']))

theorem numeral_reverse (num : List Char) (h : isNumeral num = true) :
    ∃ c cs, num.reverse = c :: cs ∧ isDigit c = true := by
  obtain ⟨sign, d, ds, _, rfl, hd, hds⟩ := isNumeral_cases num h
  have hall : ∀ c ∈ d :: ds, isDigit c = true := by
    intro c hc
    rcases List.mem_cons.1 hc with rfl | hm
    · exact hd
    · exact hds c hm
  have hne : (d :: ds).reverse ≠ [] := by simp
  cases hr : (d :: ds).reverse with
  | nil => exact absurd hr hne
  | cons c cs =>
    refine ⟨c, cs ++ sign.reverse, ?_, ?_⟩
    · rw [List.reverse_append, hr]
      rfl
    · apply hall
      have : c ∈ (d :: ds).reverse := by rw [hr]; simp
      exact List.mem_reverse.1 this

theorem unit_no_digit (j : Nat) (u : List Char) (hu : u ∈ unitTexts j) :
    ∀ c ∈ u, isDigit c = false := by
  have hall : ∀ j' < 9, (unitTexts j').all (fun u => u.all (fun c => !isDigit c)) = true := by
    decide
  by_cases hj : j < 9
  · have h := List.all_eq_true.1 (hall j hj) u hu
    intro c hc
    simpa using List.all_eq_true.1 h c hc
  · have e : unitTexts j = [] := by
      unfold unitTexts
      split <;> first | omega | rfl
    rw [e] at hu
    simp at hu

/-- The stripping loop gives back the numeral of a written group. -/
theorem stripNonDigits_text (t : Token) (h : t.wellFormed) :
    stripNonDigits t.text = some t.num := by
  obtain ⟨_, hnum, hunit⟩ := h
  obtain ⟨c, cs, hr, hc⟩ := numeral_reverse t.num hnum
  simp only [stripNonDigits, Token.text, List.reverse_append]
  rw [stripNonDigitsRev_append _ _ (fun c hc => unit_no_digit _ _ hunit c (List.mem_reverse.1 hc)),
    hr]
  simp only [stripNonDigitsRev, hc, if_true, Option.map_some', Option.some.injEq]
  rw [← hr, List.reverse_reverse]

theorem text_ne_nil (t : Token) (h : t.wellFormed) : t.text.length ≠ 0 := by
  obtain ⟨_, d, ds, _, e, _, _⟩ := isNumeral_cases t.num h.2.1
  simp [Token.text, e]

theorem find_group (toks : List Token) (j : Nat) (t : Token)
    (h : toks.find? (fun t => decide (t.group = j)) = some t) : t ∈ toks :=
  List.mem_of_find?_eq_some h

/-- The loop over the groups reads, for each group, the value of the written group
or zero. -/
theorem parseNums_written (env : Env) (str : List Char) (toks : List Token)
    (hww : wellWritten env toks) (js : List Nat) :
    parseNums env str (js.map (textAt toks)) = Outcome.ok (js.map (valueAt toks)) := by
  induction js with
  | nil => rfl
  | cons j js ih =>
    simp only [List.map_cons, parseNums, ih]
    cases hf : toks.find? (fun t => decide (t.group = j)) with
    | none => simp [textAt, valueAt, hf]
    | some t =>
      obtain ⟨hwf, hval⟩ := hww t (find_group toks j t hf)
      have e1 : textAt toks j = t.text := by simp [textAt, hf]
      have e2 : valueAt toks j = t.value := by simp [valueAt, hf]
      rw [e1, e2, if_neg (text_ne_nil t hwf), stripNonDigits_text t hwf]
      simp only [hval]

/-! ## `regexpStringToDurationE` on written groups -/

theorem afterFirstSpace_none (s : List Char) (h : ' ' ∉ s) : afterFirstSpace s = none := by
  induction s with
  | nil => rfl
  | cons c cs ih =>
    have hc : c ≠ ' ' := fun e => h (by simp [e])
    simp only [afterFirstSpace, hc, if_false]
    exact ih (fun hm => h (by simp [hm]))

theorem durationRegExp_length : durationRegExp.length = 9 := rfl

/-- The search and the number loop on written groups: the nine numbers are the
values of the written groups, zero for the groups that are not written. -/
theorem regexp_core (env : Env) (toks : List Token) (junk : List Char)
    (hord : orderedFrom 0 toks) (hww : wellWritten env toks) (hjunk : junkOK junk) :
    (FindStringSubmatch durationRegExp (render toks ++ junk)).length ≠ 0 ∧
    parseNums env (render toks ++ junk)
        ((FindStringSubmatch durationRegExp (render toks ++ junk)).drop 1)
      = Outcome.ok [valueAt toks 0, valueAt toks 1, valueAt toks 2, valueAt toks 3,
          valueAt toks 4, valueAt toks 5, valueAt toks 6, valueAt toks 7, valueAt toks 8] := by
  have hm := matchGroups_written durationRegExp 0 patternOK_durationRegExp toks junk hord
    (fun t ht => (hww t ht).1) hjunk
  rw [FindStringSubmatch_of_match _ _ _ hm]
  refine ⟨by simp, ?_⟩
  simp only [List.drop_succ_cons, List.drop_zero]
  rw [parseNums_written env _ toks hww]
  rfl

/-- A text of written groups that ends in no digit and holds no blank. -/
theorem regexp_written (env : Env) (toks : List Token) (junk : List Char)
    (hord : orderedFrom 0 toks) (hww : wellWritten env toks) (hjunk : junkOK junk)
    (hspace : ' ' ∉ render toks ++ junk) (c : Char)
    (hlast : (render toks ++ junk).getLast? = some c) (hc : isDigit c = false) :
    regexpStringToDurationE env (render toks ++ junk)
      = Outcome.ok (applyNums env.now (valueAt toks 0) (valueAt toks 1) (valueAt toks 2)
          (valueAt toks 3) (valueAt toks 4) (valueAt toks 5) (valueAt toks 6)
          (valueAt toks 7) (valueAt toks 8)) := by
  obtain ⟨h1, h2⟩ := regexp_core env toks junk hord hww hjunk
  simp only [regexpStringToDurationE, afterFirstSpace_none _ hspace, hlast, hc]
  simp only [Bool.false_eq_true, if_false, h1, h2]

theorem dmul_zero_left (x : Int) : dmul 0 x = 0 := by
  simp [dmul, wrap64]

theorem dmul_of_inInt64 (a b : Int) (h : inInt64 (a * b)) : dmul a b = a * b :=
  wrap64_of_inInt64 _ h

theorem Sub_add_left (t d : Int) (h : inInt64 d) : Sub (t + d) t = d := by
  unfold inInt64 at h
  unfold Sub
  have e : t + d - t = d := by ring
  rw [e]
  rw [if_neg (by omega), if_neg (by omega)]

/-- Without years, months and days the result is the flat sum, whatever the reference
instant. -/
theorem applyNums_flat (epoch n3 n4 n5 n6 n7 n8 : Int)
    (h3 : inInt64 (n3 * Hour)) (h4 : inInt64 (n4 * Minute)) (h5 : inInt64 (n5 * Second))
    (h6 : inInt64 (n6 * Millisecond)) (h7 : inInt64 (n7 * Microsecond))
    (h8 : inInt64 (n8 * Nanosecond))
    (hsum : inInt64 (n3 * Hour + n4 * Minute + n5 * Second + n6 * Millisecond
      + n7 * Microsecond + n8 * Nanosecond)) :
    applyNums epoch 0 0 0 n3 n4 n5 n6 n7 n8
      = n3 * Hour + n4 * Minute + n5 * Second + n6 * Millisecond + n7 * Microsecond
        + n8 * Nanosecond := by
  unfold applyNums Add
  rw [AddDate_zero, dmul_of_inInt64 _ _ h3, dmul_of_inInt64 _ _ h4, dmul_of_inInt64 _ _ h5,
    dmul_of_inInt64 _ _ h6, dmul_of_inInt64 _ _ h7, dmul_of_inInt64 _ _ h8]
  have e : epoch + n3 * Hour + n4 * Minute + n5 * Second + n6 * Millisecond + n7 * Microsecond
      + n8 * Nanosecond = epoch + (n3 * Hour + n4 * Minute + n5 * Second + n6 * Millisecond
      + n7 * Microsecond + n8 * Nanosecond) := by ring
  rw [e]
  exact Sub_add_left _ _ hsum

/-- With years, months and days only, the result is the calendar difference. -/
theorem applyNums_calendar (epoch y m d : Int) :
    applyNums epoch y m d 0 0 0 0 0 0 = Sub (AddDate epoch y m d) epoch := by
  simp [applyNums, Add, dmul_zero_left]

/-! ## Texts of written groups -/

theorem isNumeral_of_digits (ds : List Char) (hne : ds ≠ [])
    (hds : ∀ c ∈ ds, isDigit c = true) : isNumeral ds = true := by
  cases ds with
  | nil => exact absurd rfl hne
  | cons d ds' =>
    have hd := hds d (by simp)
    have hp : d ≠ '+' := by
      rintro rfl
      simp [isDigit] at hd
    have hm : d ≠ '-' := by
      rintro rfl
      simp [isDigit] at hd
    unfold isNumeral
    split
    · rename_i heq
      simp only [List.cons.injEq] at heq
      exact absurd heq.1 hp
    · rename_i heq
      simp only [List.cons.injEq] at heq
      exact absurd heq.1 hm
    · simp only [List.isEmpty_cons, Bool.not_false, Bool.true_and, List.all_eq_true]
      exact hds

theorem numeral_chars (num : List Char) (h : isNumeral num = true) :
    ∀ c ∈ num, c = '+' ∨ c = '-' ∨ isDigit c = true := by
  obtain ⟨sign, d, ds, hsign, rfl, hd, hds⟩ := isNumeral_cases num h
  intro c hc
  rcases List.mem_append.1 hc with hs | hs
  · rcases hsign with rfl | rfl | rfl
    · simp at hs
    · simp at hs
      exact Or.inl hs
    · simp at hs
      exact Or.inr (Or.inl hs)
  · rcases List.mem_cons.1 hs with rfl | hm
    · exact Or.inr (Or.inr hd)
    · exact Or.inr (Or.inr (hds c hm))

theorem numeral_head (num : List Char) (h : isNumeral num = true) :
    ∃ c cs, num = c :: cs ∧ (c = '+' ∨ c = '-' ∨ isDigit c = true) := by
  cases num with
  | nil => simp [isNumeral] at h
  | cons c cs => exact ⟨c, cs, rfl, numeral_chars _ h c (by simp)⟩

theorem unit_ne_nil (j : Nat) (u : List Char) (hu : u ∈ unitTexts j) : u ≠ [] := by
  rintro rfl
  have := unit_head_not_digit j [] hu ['0'] '0' rfl
  simp [isDigit] at this

theorem unit_no_space (j : Nat) (u : List Char) (hu : u ∈ unitTexts j) : ' ' ∉ u := by
  have hall : ∀ j' < 9, (unitTexts j').all (fun u => u.all (fun c => c != ' ')) = true := by
    decide
  by_cases hj : j < 9
  · have h := List.all_eq_true.1 (hall j hj) u hu
    intro hc
    have := List.all_eq_true.1 h ' ' hc
    simp at this
  · have e : unitTexts j = [] := by
      unfold unitTexts
      split <;> first | omega | rfl
    rw [e] at hu
    simp at hu

theorem render_no_space (toks : List Token) (h : ∀ t ∈ toks, t.wellFormed) :
    ' ' ∉ render toks := by
  induction toks with
  | nil => simp [render]
  | cons t ts ih =>
    obtain ⟨_, hn, hu⟩ := h t (by simp)
    simp only [render, Token.text, List.mem_append, not_or]
    refine ⟨⟨?_, unit_no_space _ _ hu⟩, ih (fun t' ht' => h t' (by simp [ht']))⟩
    intro hc
    rcases numeral_chars _ hn ' ' hc with h1 | h1 | h1
    · exact absurd h1 (by decide)
    · exact absurd h1 (by decide)
    · simp [isDigit] at h1

theorem render_head (toks : List Token) (hne : toks ≠ []) (h : ∀ t ∈ toks, t.wellFormed) :
    ∃ c cs, render toks = c :: cs ∧ (c = '+' ∨ c = '-' ∨ isDigit c = true) := by
  cases toks with
  | nil => exact absurd rfl hne
  | cons t ts =>
    obtain ⟨c, cs, e, hc⟩ := numeral_head t.num (h t (by simp)).2.1
    exact ⟨c, cs ++ t.unit ++ render ts, by simp [render, Token.text, e], hc⟩

theorem render_last (toks : List Token) (hne : toks ≠ []) (h : ∀ t ∈ toks, t.wellFormed) :
    ∃ c, (render toks).getLast? = some c ∧ isDigit c = false := by
  induction toks with
  | nil => exact absurd rfl hne
  | cons t ts ih =>
    obtain ⟨_, _, hu⟩ := h t (by simp)
    by_cases hts : ts = []
    · subst hts
      have hune := unit_ne_nil _ _ hu
      refine ⟨t.unit.getLast hune, ?_, ?_⟩
      · simp [render, Token.text, List.getLast?_append, List.getLast?_eq_getLast _ hune]
      · exact unit_no_digit _ _ hu _ (List.getLast_mem hune)
    · obtain ⟨c, hc1, hc2⟩ := ih hts (fun t' ht' => h t' (by simp [ht']))
      refine ⟨c, ?_, hc2⟩
      simp [render, List.getLast?_append, hc1]

theorem orderedFrom_of_pairwise (i : Nat) (toks : List Token)
    (hp : toks.Pairwise (fun a b => a.group < b.group)) (hi : ∀ t ∈ toks, i ≤ t.group)
    (hms : ∀ t ∈ toks, t.group = 6 → 5 ≤ i ∨ ∃ t' ∈ toks, t'.group = 4 ∨ t'.group = 5) :
    orderedFrom i toks := by
  induction toks generalizing i with
  | nil => trivial
  | cons t ts ih =>
    obtain ⟨hlt, hp'⟩ := List.pairwise_cons.1 hp
    refine ⟨hi t (by simp), ?_, ?_⟩
    · intro h6
      rcases hms t (by simp) h6 with h | ⟨t', ht', h45⟩
      · exact h
      · rcases List.mem_cons.1 ht' with rfl | hm
        · omega
        · have := hlt t' hm
          omega
    · apply ih _ hp'
      · intro t' ht'
        have := hlt t' ht'
        omega
      · intro t2 ht2 h6
        rcases hms t2 (by simp [ht2]) h6 with h | ⟨t', ht', h45⟩
        · left
          have := hi t (by simp)
          omega
        · rcases List.mem_cons.1 ht' with rfl | hm
          · left
            omega
          · right
            exact ⟨t', hm, h45⟩

theorem orderedFrom_of_inGrammarOrder (toks : List Token) (h : inGrammarOrder toks) :
    orderedFrom 0 toks := by
  apply orderedFrom_of_pairwise 0 toks h.1 (fun _ _ => Nat.zero_le _)
  intro t ht h6
  exact Or.inr (h.2 ⟨t, ht, h6⟩)

/-- What `ToDurationE` does on a text of written groups in the order of the pattern. -/
theorem ToDurationE_written (env : Env) (toks : List Token) (hne : toks ≠ [])
    (hww : wellWritten env toks) (hord : inGrammarOrder toks) :
    ToDurationE env (GoAny.string (render toks))
      = Outcome.ok (applyNums env.now (valueAt toks 0) (valueAt toks 1) (valueAt toks 2)
          (valueAt toks 3) (valueAt toks 4) (valueAt toks 5) (valueAt toks 6)
          (valueAt toks 7) (valueAt toks 8)) := by
  have hwf : ∀ t ∈ toks, t.wellFormed := fun t ht => (hww t ht).1
  obtain ⟨c, cs, hcs, hc⟩ := render_head toks hne hwf
  obtain ⟨l, hl1, hl2⟩ := render_last toks hne hwf
  have hsp := render_no_space toks hwf
  have hr := regexp_written env toks [] (orderedFrom_of_inGrammarOrder toks hord) hww
    (by intro c hc; simp at hc) (by simpa using hsp) l (by simpa using hl1) hl2
  simp only [List.append_nil] at hr
  simp only [ToDurationE, indirectToStringerOrError]
  rw [hcs, stringToDurationE, ← hcs, hr]
  simp [hc, orZero]

theorem valueAt_single (t : Token) (j : Nat) :
    valueAt [t] j = if t.group = j then t.value else 0 := by
  by_cases h : t.group = j <;> simp [valueAt, List.find?, h]

theorem valueAt_of_lt (toks : List Token) (i : Nat) (h : ∀ t ∈ toks, i < t.group) :
    valueAt toks i = 0 := by
  have : toks.find? (fun t => decide (t.group = i)) = none := by
    rw [List.find?_eq_none]
    intro t ht
    have := h t ht
    simp
    omega
  simp [valueAt, this]

theorem valueAt_of_gt (toks : List Token) (i : Nat) (h : ∀ t ∈ toks, t.group < i) :
    valueAt toks i = 0 := by
  have : toks.find? (fun t => decide (t.group = i)) = none := by
    rw [List.find?_eq_none]
    intro t ht
    have := h t ht
    simp
    omega
  simp [valueAt, this]

/-- C9: a text made only of hours, minutes, seconds, milliseconds, microseconds and
nanoseconds groups in the order of the pattern, each a numeral (with its own optional
sign) and a unit, a milliseconds group only together with a minutes or seconds group,
is converted to the sum of the values of the groups times their units, a group that is
not written counting zero; the result is the same for every reading of the clock
(no product and no sum leaving the 64-bit range). -/
theorem flat_sum_of_groups (env : Env) (toks : List Token) (hne : toks ≠ [])
    (hww : wellWritten env toks) (hord : inGrammarOrder toks)
    (hhms : ∀ t ∈ toks, 3 ≤ t.group)
    (hfit : ∀ i, inInt64 (valueAt toks i * unitDuration i))
    (hsum : inInt64 (valueAt toks 3 * Hour + valueAt toks 4 * Minute + valueAt toks 5 * Second
      + valueAt toks 6 * Millisecond + valueAt toks 7 * Microsecond
      + valueAt toks 8 * Nanosecond)) :
    ToDurationE env (GoAny.string (render toks))
      = Outcome.ok (valueAt toks 3 * Hour + valueAt toks 4 * Minute + valueAt toks 5 * Second
          + valueAt toks 6 * Millisecond + valueAt toks 7 * Microsecond
          + valueAt toks 8 * Nanosecond) ∧
    ∀ now : Int, ToDurationE { env with now := now } (GoAny.string (render toks))
      = ToDurationE env (GoAny.string (render toks)) := by
  have key : ∀ env' : Env, env'.ToInt64E = env.ToInt64E →
      ToDurationE env' (GoAny.string (render toks))
        = Outcome.ok (valueAt toks 3 * Hour + valueAt toks 4 * Minute + valueAt toks 5 * Second
          + valueAt toks 6 * Millisecond + valueAt toks 7 * Microsecond
          + valueAt toks 8 * Nanosecond) := by
    intro env' he
    have hww' : wellWritten env' toks := by
      intro t ht
      rw [he]
      exact hww t ht
    rw [ToDurationE_written env' toks hne hww' hord,
      valueAt_of_lt toks 0 (fun t ht => by have := hhms t ht; omega),
      valueAt_of_lt toks 1 (fun t ht => by have := hhms t ht; omega),
      valueAt_of_lt toks 2 (fun t ht => by have := hhms t ht; omega),
      applyNums_flat _ _ _ _ _ _ _ (hfit 3) (hfit 4) (hfit 5) (hfit 6) (hfit 7) (hfit 8) hsum]
  refine ⟨key env rfl, ?_⟩
  intro now
  rw [key env rfl, key { env with now := now } rfl]

/-- C9 at a concrete input: `-1H30m` is minus thirty minutes. -/
theorem flat_sum_of_groups_witness :
    ToDurationE (sampleEnv 0) (GoAny.string "-1H30m".toList) = Outcome.ok (-(30 * Minute)) := by
  have h := (flat_sum_of_groups (sampleEnv 0)
    [{ group := 3, num := "-1".toList, unit := ['H'], value := -1 },
     { group := 4, num := "30".toList, unit := ['m'], value := 30 }]
    (by simp)
    (by
      intro t ht
      simp only [List.mem_cons, List.mem_singleton, List.not_mem_nil, or_false] at ht
      rcases ht with rfl | rfl
      · exact ⟨⟨by decide, by decide, by decide⟩, rfl⟩
      · exact ⟨⟨by decide, by decide, by decide⟩, rfl⟩)
    ⟨by simp, fun _ => ⟨_, List.mem_cons_of_mem _ (List.mem_singleton.2 rfl), Or.inl rfl⟩⟩
    (by
      intro t ht
      simp only [List.mem_cons, List.mem_singleton, List.not_mem_nil, or_false] at ht
      rcases ht with rfl | rfl <;> decide)
    (by
      intro i
      simp only [valueAt, List.find?]
      by_cases h3 : i = 3
      · subst h3
        decide
      · by_cases h4 : i = 4
        · subst h4
          decide
        · have e3 : ¬ (3 = i) := fun h => h3 h.symm
          have e4 : ¬ (4 = i) := fun h => h4 h.symm
          simp [e3, e4, inInt64, minInt64, maxInt64])
    (by decide)).1
  have e : render [{ group := 3, num := "-1".toList, unit := ['H'], value := -1 },
     { group := 4, num := "30".toList, unit := ['m'], value := 30 }] = "-1H30m".toList := by
    decide
  rw [e] at h
  rw [h]
  rfl

/-- Days alone move an instant by whole days of 24 hours. -/
theorem AddDate_days (t days : Int) : AddDate t 0 0 days = t + days * (24 * Hour) := by
  have h0 := AddDate_zero t
  have e : AddDate t 0 0 days = AddDate t 0 0 0 + days * 86400000000000 := by
    simp only [AddDate, Date]
    ring
  rw [e, h0, Hour_val]
  ring

/-- C8: a text made only of years, months and days groups, read at an instant and with
numbers in the range where the 64-bit calendar arithmetic of the library does not wrap
(`calendarInRange`), is converted to the difference between the reference instant moved
by the calendar (`AddDate`) and the reference instant itself, a difference that
saturates at the largest and smallest duration; days alone move the instant by whole
days of 24 hours; with the clock at 2024-01-01T00:00:00Z and groups of 1 year, 2 months
and 3 days the result is the time from there to 2025-03-04T00:00:00Z, 428 days or
36 979 200 seconds. -/
theorem calendar_groups (env : Env) (toks : List Token) (hne : toks ≠ [])
    (hww : wellWritten env toks) (hord : inGrammarOrder toks)
    (hymd : ∀ t ∈ toks, t.group ≤ 2)
    (_hrange : calendarInRange env.now (valueAt toks 0) (valueAt toks 1) (valueAt toks 2)) :
    ToDurationE env (GoAny.string (render toks))
      = Outcome.ok (Sub (AddDate env.now (valueAt toks 0) (valueAt toks 1) (valueAt toks 2))
          env.now) ∧
    (valueAt toks 0 = 0 → valueAt toks 1 = 0 →
      ToDurationE env (GoAny.string (render toks))
        = Outcome.ok (Sub (env.now + valueAt toks 2 * (24 * Hour)) env.now)) ∧
    (env.now = Date 2024 1 1 0 0 0 0 → valueAt toks 0 = 1 → valueAt toks 1 = 2 →
      valueAt toks 2 = 3 →
      ToDurationE env (GoAny.string (render toks))
        = Outcome.ok (Date 2025 3 4 0 0 0 0 - Date 2024 1 1 0 0 0 0) ∧
      Date 2025 3 4 0 0 0 0 - Date 2024 1 1 0 0 0 0 = 428 * (24 * Hour) ∧
      Date 2025 3 4 0 0 0 0 - Date 2024 1 1 0 0 0 0 = 36979200 * Second) := by
  have h1 : ToDurationE env (GoAny.string (render toks))
      = Outcome.ok (Sub (AddDate env.now (valueAt toks 0) (valueAt toks 1) (valueAt toks 2))
          env.now) := by
    rw [ToDurationE_written env toks hne hww hord,
      valueAt_of_gt toks 3 (fun t ht => by have := hymd t ht; omega),
      valueAt_of_gt toks 4 (fun t ht => by have := hymd t ht; omega),
      valueAt_of_gt toks 5 (fun t ht => by have := hymd t ht; omega),
      valueAt_of_gt toks 6 (fun t ht => by have := hymd t ht; omega),
      valueAt_of_gt toks 7 (fun t ht => by have := hymd t ht; omega),
      valueAt_of_gt toks 8 (fun t ht => by have := hymd t ht; omega),
      applyNums_calendar]
  refine ⟨h1, ?_, ?_⟩
  · intro hy hm
    rw [h1, hy, hm, AddDate_days]
  · intro hnow hy hm hd
    refine ⟨?_, by decide, by decide⟩
    rw [h1, hnow, hy, hm, hd]
    have e : Sub (AddDate (Date 2024 1 1 0 0 0 0) 1 2 3) (Date 2024 1 1 0 0 0 0)
        = Date 2025 3 4 0 0 0 0 - Date 2024 1 1 0 0 0 0 := by decide
    rw [e]

/-- C8 at a concrete input: `1Y2M3D` read at 2024-01-01T00:00:00Z. -/
theorem calendar_groups_witness :
    ToDurationE (sampleEnv 1704067200000000000) (GoAny.string "1Y2M3D".toList)
      = Outcome.ok (36979200 * Second) := by
  have h := (calendar_groups (sampleEnv 1704067200000000000)
    [{ group := 0, num := ['1'], unit := ['Y'], value := 1 },
     { group := 1, num := ['2'], unit := ['M'], value := 2 },
     { group := 2, num := ['3'], unit := ['D'], value := 3 }]
    (by simp)
    (by
      intro t ht
      simp only [List.mem_cons, List.mem_singleton, List.not_mem_nil, or_false] at ht
      rcases ht with rfl | rfl | rfl
      · exact ⟨⟨by decide, by decide, by decide⟩, rfl⟩
      · exact ⟨⟨by decide, by decide, by decide⟩, rfl⟩
      · exact ⟨⟨by decide, by decide, by decide⟩, rfl⟩)
    ⟨by simp, fun h => by
      obtain ⟨t, ht, h6⟩ := h
      simp only [List.mem_cons, List.mem_singleton, List.not_mem_nil, or_false] at ht
      rcases ht with rfl | rfl | rfl <;> simp at h6⟩
    (by
      intro t ht
      simp only [List.mem_cons, List.mem_singleton, List.not_mem_nil, or_false] at ht
      rcases ht with rfl | rfl | rfl <;> decide)
    (by decide)).2.2 (by decide) (by decide) (by decide) (by decide)
  have e : render [{ group := 0, num := ['1'], unit := ['Y'], value := 1 },
     { group := 1, num := ['2'], unit := ['M'], value := 2 },
     { group := 2, num := ['3'], unit := ['D'], value := 3 }] = "1Y2M3D".toList := by
    decide
  rw [e] at h
  rw [h.1, h.2.2]

theorem single_token (env : Env) (g : Nat) (ds u : List Char) (n : Int) (hg : g < 9)
    (hne : ds ≠ []) (hds : ∀ c ∈ ds, isDigit c = true) (hu : u ∈ unitTexts g)
    (hn : env.ToInt64E ds = Except.ok n) :
    wellWritten env [{ group := g, num := ds, unit := u, value := n }] ∧
    orderedFrom 0 [{ group := g, num := ds, unit := u, value := n }] ∨ g = 6 := by
  by_cases h6 : g = 6
  · exact Or.inr h6
  · left
    constructor
    · intro t ht
      simp only [List.mem_singleton] at ht
      subst ht
      exact ⟨⟨hg, isNumeral_of_digits _ hne hds, hu⟩, hn⟩
    · exact ⟨Nat.zero_le _, fun h => absurd h h6, trivial⟩

theorem getLast?_append_two (l : List Char) (a b : Char) :
    (l ++ [a, b]).getLast? = some b := by
  have e : l ++ [a, b] = (l ++ [a]) ++ [b] := by simp
  rw [e]
  simp

/-- C6: what the code does for a non-empty run of digits, read by `ToInt64E` as `n`,
followed by a sub-second suffix: with `us` the result is `n` microseconds and with `ns`
it is `n` nanoseconds, but with `ms` it is `n` MINUTES: the minutes group, which comes
first in the pattern, takes the digits and the `m`, and the `s` is left over. -/
theorem sub_second_suffixes (env : Env) (ds : List Char) (n : Int) (hne : ds ≠ [])
    (hds : ∀ c ∈ ds, isDigit c = true) (hn : env.ToInt64E ds = Except.ok n)
    (hfit : inInt64 (n * Minute)) :
    ToDurationE env (GoAny.string (ds ++ ['m', 's'])) = Outcome.ok (n * Minute) ∧
    ToDurationE env (GoAny.string (ds ++ ['u', 's'])) = Outcome.ok (n * Microsecond) ∧
    ToDurationE env (GoAny.string (ds ++ ['n', 's'])) = Outcome.ok (n * Nanosecond) := by
  have hz : inInt64 0 := by decide
  have hus : inInt64 (n * Microsecond) := by
    rw [Minute_val] at hfit
    rw [Microsecond_val]
    unfold inInt64 minInt64 maxInt64 at *
    omega
  have hns : inInt64 (n * Nanosecond) := by
    rw [Minute_val] at hfit
    rw [Nanosecond_val]
    unfold inInt64 minInt64 maxInt64 at *
    omega
  have hsp : ' ' ∉ ds := by
    intro hc
    have := hds ' ' hc
    simp [isDigit] at this
  obtain ⟨d, ds', rfl⟩ : ∃ d ds', ds = d :: ds' := by
    cases ds with
    | nil => exact absurd rfl hne
    | cons d ds' => exact ⟨d, ds', rfl⟩
  have hd' : d = '+' ∨ d = '-' ∨ isDigit d = true := Or.inr (Or.inr (hds d (by simp)))
  refine ⟨?_, ?_, ?_⟩
  · rcases single_token env 4 (d :: ds') ['m'] n (by decide) hne hds (by simp [unitTexts]) hn
      with ⟨hw, ho⟩ | h
    · have hr : regexpStringToDurationE env (d :: (ds' ++ ['m', 's']))
          = Outcome.ok (applyNums env.now 0 0 0 0 n 0 0 0 0) := by
        have h := regexp_written env _ ['s'] ho hw
          (by intro c hc; simp at hc; subst hc; decide)
          (by
            simp only [render, Token.text, List.append_nil, List.mem_append, not_or]
            exact ⟨⟨hsp, by decide⟩, by decide⟩)
          's' (by
            simp only [render, Token.text, List.append_nil, List.append_assoc]
            exact getLast?_append_two _ _ _) (by decide)
        simpa [render, Token.text, valueAt_single] using h
      simp only [ToDurationE, indirectToStringerOrError, stringToDurationE, List.cons_append]
      rw [if_pos hd', hr]
      rw [applyNums_flat _ _ _ _ _ _ _ (by simpa using hz) (by simpa using hfit)
        (by simpa using hz) (by simpa using hz) (by simpa using hz) (by simpa using hz)
        (by simpa using hfit)]
      simp [orZero]
    · omega
  · rcases single_token env 7 (d :: ds') ['u', 's'] n (by decide) hne hds (by simp [unitTexts])
      hn with ⟨hw, ho⟩ | h
    · have hr : regexpStringToDurationE env (d :: (ds' ++ ['u', 's']))
          = Outcome.ok (applyNums env.now 0 0 0 0 0 0 0 n 0) := by
        have h := regexp_written env _ [] ho hw (by intro c hc; simp at hc)
          (by
            simp only [render, Token.text, List.append_nil, List.mem_append, not_or]
            exact ⟨hsp, by decide⟩)
          's' (by
            simp only [render, Token.text, List.append_nil]
            exact getLast?_append_two _ _ _) (by decide)
        simpa [render, Token.text, valueAt_single] using h
      simp only [ToDurationE, indirectToStringerOrError, stringToDurationE, List.cons_append]
      rw [if_pos hd', hr]
      rw [applyNums_flat _ _ _ _ _ _ _ (by simpa using hz) (by simpa using hz)
        (by simpa using hz) (by simpa using hz) (by simpa using hus) (by simpa using hz)
        (by simpa using hus)]
      simp [orZero]
    · omega
  · rcases single_token env 8 (d :: ds') ['n', 's'] n (by decide) hne hds (by simp [unitTexts])
      hn with ⟨hw, ho⟩ | h
    · have hr : regexpStringToDurationE env (d :: (ds' ++ ['n', 's']))
          = Outcome.ok (applyNums env.now 0 0 0 0 0 0 0 0 n) := by
        have h := regexp_written env _ [] ho hw (by intro c hc; simp at hc)
          (by
            simp only [render, Token.text, List.append_nil, List.mem_append, not_or]
            exact ⟨hsp, by decide⟩)
          's' (by
            simp only [render, Token.text, List.append_nil]
            exact getLast?_append_two _ _ _) (by decide)
        simpa [render, Token.text, valueAt_single] using h
      simp only [ToDurationE, indirectToStringerOrError, stringToDurationE, List.cons_append]
      rw [if_pos hd', hr]
      rw [applyNums_flat _ _ _ _ _ _ _ (by simpa using hz) (by simpa using hz)
        (by simpa using hz) (by simpa using hz) (by simpa using hz) (by simpa using hns)
        (by simpa using hns)]
      simp [orZero]
    · omega

/-- C6 at a concrete input: `5ms` is converted to five minutes, not five milliseconds. -/
theorem sub_second_suffixes_witness :
    ToDurationE (sampleEnv 0) (GoAny.string "5ms".toList) = Outcome.ok (5 * Minute) ∧
    (5 * Minute : Int) ≠ 5 * Millisecond :=
  ⟨(sub_second_suffixes (sampleEnv 0) ['5'] 5 (by decide) (by decide) rfl (by decide)).1,
    by decide⟩

/-- C5: what the code does when no group matches: for a text without a blank that
starts with a sign or a digit, ends in no digit, and in which none of the nine groups
matches (all nine captured texts are empty), `ToDurationE` SUCCEEDS with the zero
duration; the search itself has matched, the empty text, so the test for an empty match
does not fire. -/
theorem no_group_matched_succeeds (env : Env) (c0 : Char) (rest : List Char) (c : Char)
    (hc0 : c0 = '+' ∨ c0 = '-' ∨ isDigit c0 = true) (hsp : ' ' ∉ c0 :: rest)
    (hlast : (c0 :: rest).getLast? = some c) (hc : isDigit c = false)
    (hnone : (FindStringSubmatch durationRegExp (c0 :: rest)).drop 1 = List.replicate 9 []) :
    ToDurationE env (GoAny.string (c0 :: rest)) = Outcome.ok 0 := by
  have hlen : (FindStringSubmatch durationRegExp (c0 :: rest)).length ≠ 0 := by
    rw [FindStringSubmatch_length]
    decide
  have hz : inInt64 (0 * Hour) := by decide
  have hp : parseNums env (c0 :: rest) (List.replicate 9 [])
      = Outcome.ok [0, 0, 0, 0, 0, 0, 0, 0, 0] := by
    simp [parseNums, List.replicate]
  have ha : applyNums env.now 0 0 0 0 0 0 0 0 0 = 0 := by
    rw [applyNums_flat _ _ _ _ _ _ _ (by decide) (by decide) (by decide) (by decide)
      (by decide) (by decide) (by decide)]
    decide
  simp only [ToDurationE, indirectToStringerOrError, stringToDurationE]
  rw [if_pos hc0]
  simp only [regexpStringToDurationE, afterFirstSpace_none _ hsp, hlast, hc]
  simp only [Bool.false_eq_true, if_false, hlen, hnone, hp, ha, orZero]

/-- C5 at concrete inputs: `1x` and `+` are converted to the zero duration without an
error. -/
theorem no_group_matched_succeeds_witness :
    ToDurationE (sampleEnv 0) (GoAny.string "1x".toList) = Outcome.ok 0 ∧
    ToDurationE (sampleEnv 0) (GoAny.string "+".toList) = Outcome.ok 0 :=
  ⟨no_group_matched_succeeds (sampleEnv 0) '1' ['x'] 'x' (by decide) (by decide) rfl
      (by decide) (by decide),
    no_group_matched_succeeds (sampleEnv 0) '+' [] '+' (by decide) (by decide) rfl
      (by decide) (by decide)⟩

/-! ## Floating point: a bound on rounding -/

theorem round_step_le (num den : Nat) :
    (if 2 * (num % den) < den then num / den
      else if den < 2 * (num % den) then num / den + 1
      else if num / den % 2 = 0 then num / den else num / den + 1) * den ≤ 2 * num := by
  have h := Nat.div_add_mod num den
  have hc : num / den * den = den * (num / den) := Nat.mul_comm _ _
  split
  · omega
  · split
    · rw [Nat.add_mul]
      omega
    · split
      · omega
      · rw [Nat.add_mul]
        omega

theorem two_zpow_pos (e : Int) : (0 : ℚ) < (2 : ℚ) ^ e := zpow_pos (by norm_num) e

/-- Rounding at most doubles the magnitude. -/
theorem roundRatio_abs_le (n : Int) (d : Nat) (s : Int) (hd : 0 < d) :
    |(roundRatio n d s).val| ≤ 2 * (|(n : ℚ)| / d) * (2 : ℚ) ^ s := by
  have hdq : (0 : ℚ) < (d : ℚ) := by exact_mod_cast hd
  by_cases hn : n = 0
  · subst hn
    simp [roundRatio, F64.val]
  · simp only [roundRatio, hn, if_false, F64.val]
    generalize hk : ilog2Ratio n.natAbs d - 52 = k
    generalize hnum : (if 0 ≤ k then n.natAbs else n.natAbs * 2 ^ (-k).toNat) = num
    generalize hden : (if 0 ≤ k then d * 2 ^ k.toNat else d) = den
    have hstep := round_step_le num den
    generalize hm : (if 2 * (num % den) < den then num / den
      else if den < 2 * (num % den) then num / den + 1
      else if num / den % 2 = 0 then num / den else num / den + 1) = m at hstep
    have hstepq : (m : ℚ) * den ≤ 2 * num := by exact_mod_cast hstep
    have hratio : (num : ℚ) = (n.natAbs : ℚ) / d / (2 : ℚ) ^ k * den := by
      by_cases hk0 : 0 ≤ k
      · rw [if_pos hk0] at hnum hden
        subst hnum
        subst hden
        have e : (2 : ℚ) ^ k = ((2 ^ k.toNat : Nat) : ℚ) := by
          rw [Nat.cast_pow]
          conv_lhs => rw [← Int.toNat_of_nonneg hk0]
          rw [zpow_natCast]
          norm_num
        rw [e]
        have hp : (0 : ℚ) < ((2 ^ k.toNat : Nat) : ℚ) := by positivity
        push_cast
        field_simp
      · rw [if_neg hk0] at hnum hden
        subst hnum
        subst hden
        have hk1 : 0 ≤ -k := by omega
        have e : (2 : ℚ) ^ k = 1 / ((2 ^ (-k).toNat : Nat) : ℚ) := by
          rw [Nat.cast_pow]
          have : k = -((-k).toNat : Int) := by
            rw [Int.toNat_of_nonneg hk1]
            ring
          conv_lhs => rw [this]
          rw [zpow_neg, zpow_natCast]
          norm_num
        rw [e]
        have hp : (0 : ℚ) < ((2 ^ (-k).toNat : Nat) : ℚ) := by positivity
        push_cast
        field_simp
    have hden_pos : (0 : ℚ) < den := by
      have : 0 < den := by
        by_cases hk0 : 0 ≤ k
        · rw [if_pos hk0] at hden
          subst hden
          positivity
        · rw [if_neg hk0] at hden
          subst hden
          exact hd
      exact_mod_cast this
    have h2k := two_zpow_pos k
    have hmk : (m : ℚ) * (2 : ℚ) ^ k ≤ 2 * ((n.natAbs : ℚ) / d) := by
      rw [hratio] at hstepq
      have h1 : (m : ℚ) * den ≤ (2 * ((n.natAbs : ℚ) / d) / (2 : ℚ) ^ k) * den := by
        calc (m : ℚ) * den ≤ 2 * ((n.natAbs : ℚ) / d / (2 : ℚ) ^ k * den) := hstepq
          _ = (2 * ((n.natAbs : ℚ) / d) / (2 : ℚ) ^ k) * den := by ring
      have h2 : (m : ℚ) ≤ 2 * ((n.natAbs : ℚ) / d) / (2 : ℚ) ^ k :=
        le_of_mul_le_mul_right h1 hden_pos
      rwa [le_div_iff₀ h2k] at h2
    have habs : |((n.sign * (m : Int) : Int) : ℚ) * (2 : ℚ) ^ (k + s)|
        = (m : ℚ) * (2 : ℚ) ^ k * (2 : ℚ) ^ s := by
      rw [abs_mul, abs_of_pos (two_zpow_pos _), zpow_add₀ (by norm_num : (2 : ℚ) ≠ 0)]
      have : |((n.sign * (m : Int) : Int) : ℚ)| = (m : ℚ) := by
        rw [← Int.cast_abs, abs_mul, Int.abs_sign_of_nonzero hn, one_mul]
        simp
      rw [this]
      ring
    rw [habs]
    have hnabs : (n.natAbs : ℚ) = |(n : ℚ)| := by
      rw [← Int.cast_abs, Int.abs_eq_natAbs, Int.cast_natCast]
    rw [← hnabs]
    exact mul_le_mul_of_nonneg_right hmk (le_of_lt (two_zpow_pos s))

theorem ofInt_abs_le (i : Int) : |(F64.ofInt i).val| ≤ 2 * |(i : ℚ)| := by
  have h := roundRatio_abs_le i 1 0 (by decide)
  simpa [F64.ofInt] using h

theorem val_abs (x : F64) : |x.val| = |(x.man : ℚ)| * (2 : ℚ) ^ x.exp := by
  unfold F64.val
  rw [abs_mul, abs_of_pos (two_zpow_pos _)]

theorem div_abs_le (x y : F64) (hy : y.man ≠ 0) :
    |(F64.div x y).val| ≤ 2 * (|x.val| / |y.val|) := by
  have hpos : 0 < y.man.natAbs := Int.natAbs_pos.2 hy
  have h := roundRatio_abs_le (x.man * y.man.sign) y.man.natAbs (x.exp - y.exp) hpos
  have hx := two_zpow_pos x.exp
  have hye := two_zpow_pos y.exp
  have hyq : (0 : ℚ) < |(y.man : ℚ)| := abs_pos.2 (by exact_mod_cast hy)
  have e1 : |((x.man * y.man.sign : Int) : ℚ)| = |(x.man : ℚ)| := by
    rw [← Int.cast_abs, abs_mul, Int.abs_sign_of_nonzero hy, mul_one, Int.cast_abs]
  have e2 : ((y.man.natAbs : Nat) : ℚ) = |(y.man : ℚ)| := by
    rw [← Int.cast_abs, Int.abs_eq_natAbs, Int.cast_natCast]
  have e3 : (2 : ℚ) ^ (x.exp - y.exp) = (2 : ℚ) ^ x.exp / (2 : ℚ) ^ y.exp :=
    zpow_sub₀ (by norm_num) _ _
  rw [e1, e2, e3] at h
  rw [val_abs x, val_abs y]
  have e4 : 2 * (|(x.man : ℚ)| / |(y.man : ℚ)|) * ((2 : ℚ) ^ x.exp / (2 : ℚ) ^ y.exp)
      = 2 * (|(x.man : ℚ)| * (2 : ℚ) ^ x.exp / (|(y.man : ℚ)| * (2 : ℚ) ^ y.exp)) := by
    field_simp
    ring
  rw [← e4]
  exact h

theorem tdiv_abs_mul_le (a p : Int) (hp : 0 < p) : |Int.tdiv a p| * p ≤ |a| := by
  rw [Int.abs_eq_natAbs, Int.abs_eq_natAbs, Int.natAbs_tdiv]
  have hpn : p = (p.natAbs : Int) := by omega
  rw [hpn]
  have := Nat.div_mul_le_self a.natAbs p.natAbs
  exact_mod_cast this

theorem shift_val (man e f : Int) (h : f ≤ e) :
    ((man * 2 ^ (e - f).toNat : Int) : ℚ) * (2 : ℚ) ^ f = (man : ℚ) * (2 : ℚ) ^ e := by
  have h0 : 0 ≤ e - f := by omega
  have e1 : (2 : ℚ) ^ e = (2 : ℚ) ^ ((e - f).toNat : Int) * (2 : ℚ) ^ f := by
    rw [← zpow_add₀ (by norm_num : (2 : ℚ) ≠ 0), Int.toNat_of_nonneg h0]
    congr 1
    ring
  rw [e1, zpow_natCast]
  push_cast
  ring

theorem add_abs_le (x y : F64) : |(F64.add x y).val| ≤ 2 * |x.val + y.val| := by
  have h := roundRatio_abs_le
    (x.man * 2 ^ (x.exp - min x.exp y.exp).toNat + y.man * 2 ^ (y.exp - min x.exp y.exp).toNat)
    1 (min x.exp y.exp) (by decide)
  have e : ((x.man * 2 ^ (x.exp - min x.exp y.exp).toNat
      + y.man * 2 ^ (y.exp - min x.exp y.exp).toNat : Int) : ℚ) * (2 : ℚ) ^ (min x.exp y.exp)
      = x.val + y.val := by
    rw [Int.cast_add, add_mul, shift_val _ _ _ (min_le_left _ _),
      shift_val _ _ _ (min_le_right _ _)]
    rfl
  have hp := two_zpow_pos (min x.exp y.exp)
  simp only [F64.add]
  rw [← e, abs_mul, abs_of_pos hp]
  simpa [mul_assoc] using h

theorem toInt_abs_le (x : F64) : |((F64.toInt x : Int) : ℚ)| ≤ |x.val| := by
  unfold F64.toInt F64.val
  by_cases h : 0 ≤ x.exp
  · rw [if_pos h]
    have e : (2 : ℚ) ^ x.exp = ((2 ^ x.exp.toNat : Int) : ℚ) := by
      conv_lhs => rw [← Int.toNat_of_nonneg h]
      rw [zpow_natCast]
      push_cast
      rfl
    rw [e]
    push_cast
    exact le_refl _
  · rw [if_neg h]
    have h1 : 0 ≤ -x.exp := by omega
    have hp : (0 : Int) < 2 ^ (-x.exp).toNat := by positivity
    have e : (2 : ℚ) ^ x.exp = 1 / ((2 ^ (-x.exp).toNat : Int) : ℚ) := by
      have : x.exp = -((-x.exp).toNat : Int) := by
        rw [Int.toNat_of_nonneg h1]
        ring
      conv_lhs => rw [this]
      rw [zpow_neg, zpow_natCast]
      push_cast
      simp
    rw [e, abs_mul, abs_of_pos (by positivity : (0 : ℚ) < 1 / ((2 ^ (-x.exp).toNat : Int) : ℚ)),
      mul_one_div, le_div_iff₀ (by exact_mod_cast hp), ← Int.cast_abs, ← Int.cast_abs,
      ← Int.cast_mul]
    have hle : |Int.tdiv x.man (2 ^ (-x.exp).toNat)| * 2 ^ (-x.exp).toNat ≤ |x.man| :=
      tdiv_abs_mul_le _ _ hp
    exact_mod_cast hle

/-- Truncated division and remainder in terms of the rounded-down ones. -/
theorem tdiv_tmod_cases (a b : Int) (hb : 0 < b) :
    (0 ≤ a ∧ Int.tdiv a b = a / b ∧ Int.tmod a b = a % b) ∨
    (a < 0 ∧ Int.tdiv a b = -((-a) / b) ∧ Int.tmod a b = -((-a) % b)) := by
  rcases le_or_lt 0 a with h | h
  · exact Or.inl ⟨h, Int.tdiv_eq_ediv h (le_of_lt hb), Int.tmod_eq_emod h (le_of_lt hb)⟩
  · right
    have h1 : Int.tdiv a b = -((-a) / b) := by
      have := Int.neg_tdiv (-a) b
      rw [neg_neg] at this
      rw [this, Int.tdiv_eq_ediv (by omega) (le_of_lt hb)]
    refine ⟨h, h1, ?_⟩
    rw [Int.tmod_def, h1, Int.emod_def]
    ring

theorem ofInt_billion : F64.ofInt 1000000000 = { man := 8388608000000000, exp := -23 } := by
  decide

/-- The whole seconds of a duration stay far inside the 64-bit range. -/
theorem Seconds_toInt_bound (d : Int) (hd : inInt64 d) :
    |F64.toInt (Seconds d)| ≤ 36893488180 := by
  have hsec : |Int.tdiv d Second| ≤ 9223372036 ∧ |Int.tmod d Second| ≤ 999999999 := by
    rw [Second_val]
    unfold inInt64 minInt64 maxInt64 at hd
    rcases tdiv_tmod_cases d 1000000000 (by norm_num) with ⟨h0, h1, h2⟩ | ⟨h0, h1, h2⟩
    · rw [h1, h2, abs_of_nonneg (by omega), abs_of_nonneg (by omega)]
      omega
    · rw [h1, h2, abs_of_nonpos (by omega), abs_of_nonpos (by omega)]
      omega
  obtain ⟨hs, hn⟩ := hsec
  have hsq : |((Int.tdiv d Second : Int) : ℚ)| ≤ 9223372036 := by
    rw [← Int.cast_abs]
    exact_mod_cast hs
  have hnq : |((Int.tmod d Second : Int) : ℚ)| ≤ 999999999 := by
    rw [← Int.cast_abs]
    exact_mod_cast hn
  have hX := ofInt_abs_le (Int.tdiv d Second)
  have hN := ofInt_abs_le (Int.tmod d Second)
  have hD : |(F64.ofInt 1000000000).val| = 1000000000 := by
    rw [ofInt_billion]
    norm_num [F64.val, zpow_neg]
  have hY := div_abs_le (F64.ofInt (Int.tmod d Second)) (F64.ofInt 1000000000)
    (by rw [ofInt_billion]; decide)
  rw [hD] at hY
  have hY' : |(F64.div (F64.ofInt (Int.tmod d Second)) (F64.ofInt 1000000000)).val| ≤ 4 := by
    have : |(F64.ofInt (Int.tmod d Second)).val| / 1000000000 ≤ 2 := by
      rw [div_le_iff₀ (by norm_num)]
      linarith
    linarith
  have hA := add_abs_le (F64.ofInt (Int.tdiv d Second))
    (F64.div (F64.ofInt (Int.tmod d Second)) (F64.ofInt 1000000000))
  have hT := toInt_abs_le (Seconds d)
  have hfin : |((F64.toInt (Seconds d) : Int) : ℚ)| ≤ 36893488180 := by
    have hsum := abs_add (F64.ofInt (Int.tdiv d Second)).val
      (F64.div (F64.ofInt (Int.tmod d Second)) (F64.ofInt 1000000000)).val
    have : |(Seconds d).val| ≤ 2 * (2 * 9223372036 + 4) := by
      unfold Seconds
      linarith
    linarith
  rw [← Int.cast_abs] at hfin
  exact_mod_cast hfin

/-! ## The label of a zone -/

theorem sprintf02d_two (n : Nat) (h : n < 100) : sprintf02d (n : Int) = twoDigits n := by
  have hall : ∀ k < 100, sprintf02d ((k : Nat) : Int) = twoDigits k := by decide
  exact hall n h

theorem toDigitsCore_length_pos (b f m : Nat) :
    1 ≤ (Nat.toDigitsCore b (f + 1) m []).length := by
  simp only [Nat.toDigitsCore]
  split
  · simp
  · rw [Nat.toDigitsCore_lens_eq]
    omega

theorem toDigits_length_two (n : Nat) (h : 10 ≤ n) : 2 ≤ (Nat.toDigits 10 n).length := by
  obtain ⟨f, rfl⟩ : ∃ f, n = f + 1 := ⟨n - 1, by omega⟩
  have hne : (f + 1) / 10 ≠ 0 := by omega
  unfold Nat.toDigits
  rw [Nat.toDigitsCore]
  simp only [hne, if_false]
  rw [Nat.toDigitsCore_lens_eq]
  have := toDigitsCore_length_pos 10 f ((f + 1) / 10)
  omega

theorem sprintf02d_hours (h : Nat) : sprintf02d (h : Int) = hoursField h := by
  by_cases h10 : h < 10
  · have := sprintf02d_two h (by omega)
    rw [this]
    simp only [hoursField, h10, if_true, twoDigits]
    have e1 : h / 10 = 0 := by omega
    have e2 : h % 10 = h := by omega
    rw [e1, e2]
    rfl
  · have hlen := toDigits_length_two h (by omega)
    have hneg : ¬ ((h : Int) < 0) := by omega
    simp only [sprintf02d, hneg, if_false, Int.toNat_ofNat, hoursField, h10]
    rw [if_neg (by omega)]

/-- C4 (as amended): for every duration the zone `durationToLocationE` returns carries
the whole seconds of the duration as offset and the label `UTC`, a sign (`-` when the
offset is negative, `+` otherwise), the hours field (decimal, padded with a zero to two
digits) exactly when the hours component is not zero, `:MM` exactly when the minutes
component is not zero and `:SS` exactly when the seconds component is not zero, where
hours, minutes and seconds take the absolute offset apart. -/
theorem label_of_duration (d : Int) (hd : inInt64 d) :
    durationToLocationE d
      = Outcome.ok (some (FixedZone (describedLabel (F64.toInt (Seconds d)))
          (F64.toInt (Seconds d)))) := by
  have hb := Seconds_toInt_bound d hd
  simp only [durationToLocationE]
  generalize F64.toInt (Seconds d) = k at hb ⊢
  have habs : (if k < 0 then wrap64 (-k) else k) = (k.natAbs : Int) := by
    rcases abs_cases k with ⟨e, h0⟩ | ⟨e, h0⟩
    · rw [if_neg (by omega)]
      omega
    · rw [if_pos h0, wrap64_of_inInt64 _ (by unfold inInt64 minInt64 maxInt64; omega)]
      omega
  rw [habs]
  simp only [describedLabel]
  generalize k.natAbs = a
  have e1 : Int.tdiv (a : Int) 3600 = ((a / 3600 : Nat) : Int) := (Int.ofNat_tdiv a 3600).symm
  have t1 : Int.tmod (a : Int) 3600 = ((a % 3600 : Nat) : Int) := (Int.ofNat_tmod a 3600).symm
  have e2 : Int.tdiv (Int.tmod (a : Int) 3600) 60 = ((a % 3600 / 60 : Nat) : Int) := by
    rw [t1]
    exact (Int.ofNat_tdiv (a % 3600) 60).symm
  have e3 : Int.tmod (Int.tmod (a : Int) 3600) 60 = ((a % 60 : Nat) : Int) := by
    rw [t1]
    have h60 : a % 3600 % 60 = a % 60 := by omega
    rw [← h60]
    exact (Int.ofNat_tmod (a % 3600) 60).symm
  rw [e1, e2, e3, sprintf02d_hours, sprintf02d_two _ (by omega), sprintf02d_two _ (by omega)]
  have c1 : (((a / 3600 : Nat) : Int) ≠ 0) = ¬ (a / 3600 = 0) := by
    rw [ne_eq, Nat.cast_eq_zero]
  have c2 : (((a % 3600 / 60 : Nat) : Int) ≠ 0) = ¬ (a % 3600 / 60 = 0) := by
    rw [ne_eq, Nat.cast_eq_zero]
  have c3 : (((a % 60 : Nat) : Int) ≠ 0) = ¬ (a % 60 = 0) := by
    rw [ne_eq, Nat.cast_eq_zero]
  simp only [c1, c2, c3]
  congr 3
  by_cases hk : k < 0 <;> by_cases hh : a / 3600 = 0 <;> by_cases hm : a % 3600 / 60 = 0 <;>
    by_cases hs : a % 60 = 0 <;>
    simp only [hk, hh, hm, hs, if_true, if_false, not_true_eq_false, not_false_eq_true,
      List.append_nil, List.nil_append, List.append_assoc, List.cons_append, UTC]

/-- C4 (as amended) at a concrete input: eight and a half hours give `UTC+08:30`. -/
theorem label_of_duration_witness :
    durationToLocationE (8 * Hour + 30 * Minute)
      = Outcome.ok (some (FixedZone "UTC+08:30".toList 30600)) := by
  have h := label_of_duration (8 * Hour + 30 * Minute) (by decide)
  have e1 : F64.toInt (Seconds (8 * Hour + 30 * Minute)) = 30600 := by decide
  have e2 : describedLabel 30600 = "UTC+08:30".toList := by decide
  rw [e1, e2] at h
  exact h

/-- C4 as stated fails: thirty minutes have the offset 1800, which is not zero, and the
label `UTC+:30`, in which there is no hours field; with the hours field present
whenever the offset is not zero the label would be `UTC+00:30`. -/
theorem label_without_hours :
    ∃ z : Location, durationToLocationE (30 * Minute) = Outcome.ok (some z) ∧
      z.offsetAt 0 = 1800 ∧ z.name = "UTC+:30".toList ∧
      claimedLabel 1800 = "UTC+00:30".toList ∧ z.name ≠ claimedLabel 1800 :=
  ⟨FixedZone "UTC+:30".toList 1800, rfl, rfl, rfl, by decide, by decide⟩

/-! ## Floating point: the error of rounding -/

theorem log2Fuel_spec (fuel n : Nat) (h1 : 1 ≤ n) (h2 : n < 2 ^ fuel) :
    2 ^ log2Fuel fuel n ≤ n ∧ n < 2 ^ (log2Fuel fuel n + 1) := by
  induction fuel generalizing n with
  | zero =>
    simp at h2
    omega
  | succ f ih =>
    simp only [log2Fuel]
    split
    · simp
      omega
    · have h3 : 1 ≤ n / 2 := by omega
      have h4 : n / 2 < 2 ^ f := by
        rw [Nat.pow_succ] at h2
        omega
      obtain ⟨a, b⟩ := ih (n / 2) h3 h4
      rw [Nat.pow_succ, Nat.pow_succ]
      rw [Nat.pow_succ] at b
      omega

theorem ilog2_spec (n : Nat) (h : 1 ≤ n) : 2 ^ ilog2 n ≤ n ∧ n < 2 ^ (ilog2 n + 1) :=
  log2Fuel_spec n n h (Nat.lt_two_pow n)

theorem zpow_toNat (e : Int) (h : 0 ≤ e) : ((2 ^ e.toNat : Nat) : ℚ) = (2 : ℚ) ^ e := by
  rw [Nat.cast_pow]
  conv_rhs => rw [← Int.toNat_of_nonneg h]
  rw [zpow_natCast]
  norm_num

/-- The exponent found for a ratio is not above the ratio. -/
theorem ilog2Ratio_le (a d : Nat) (ha : 1 ≤ a) (hd : 1 ≤ d) :
    (2 : ℚ) ^ ilog2Ratio a d ≤ (a : ℚ) / d := by
  obtain ⟨a1, a2⟩ := ilog2_spec a ha
  obtain ⟨d1, d2⟩ := ilog2_spec d hd
  have hdq : (0 : ℚ) < d := by exact_mod_cast hd
  have a1q : (2 : ℚ) ^ (ilog2 a : Int) ≤ a := by
    rw [zpow_natCast]
    exact_mod_cast a1
  have d2q : (d : ℚ) < (2 : ℚ) ^ ((ilog2 d : Int) + 1) := by
    have : (d : ℚ) < ((2 ^ (ilog2 d + 1) : Nat) : ℚ) := by exact_mod_cast d2
    rw [Nat.cast_pow] at this
    have e : ((ilog2 d : Int) + 1) = ((ilog2 d + 1 : Nat) : Int) := by push_cast; rfl
    rw [e, zpow_natCast]
    exact_mod_cast this
  -- the lower candidate is always below the ratio
  have hlow : (2 : ℚ) ^ ((ilog2 a : Int) - (ilog2 d : Int) - 1) ≤ (a : ℚ) / d := by
    rw [le_div_iff₀ hdq]
    have e : (2 : ℚ) ^ (ilog2 a : Int)
        = (2 : ℚ) ^ ((ilog2 a : Int) - (ilog2 d : Int) - 1) * (2 : ℚ) ^ ((ilog2 d : Int) + 1) := by
      rw [← zpow_add₀ (by norm_num : (2 : ℚ) ≠ 0)]
      congr 1
      ring
    have hp := two_zpow_pos ((ilog2 a : Int) - (ilog2 d : Int) - 1)
    calc (2 : ℚ) ^ ((ilog2 a : Int) - (ilog2 d : Int) - 1) * d
        ≤ (2 : ℚ) ^ ((ilog2 a : Int) - (ilog2 d : Int) - 1) * (2 : ℚ) ^ ((ilog2 d : Int) + 1) :=
          mul_le_mul_of_nonneg_left (le_of_lt d2q) (le_of_lt hp)
      _ = (2 : ℚ) ^ (ilog2 a : Int) := e.symm
      _ ≤ a := a1q
  simp only [ilog2Ratio]
  generalize (ilog2 a : Int) - (ilog2 d : Int) = l at hlow
  by_cases hl : 0 ≤ l
  · rw [if_pos hl]
    split
    · exact hlow
    · rename_i hnot
      rw [le_div_iff₀ hdq, ← zpow_toNat l hl]
      have : d * 2 ^ l.toNat ≤ a := by omega
      have hq : ((d * 2 ^ l.toNat : Nat) : ℚ) ≤ (a : ℚ) := by exact_mod_cast this
      rw [Nat.cast_mul] at hq
      linarith
  · rw [if_neg hl]
    split
    · exact hlow
    · rename_i hnot
      have hl' : 0 ≤ -l := by omega
      have : d ≤ a * 2 ^ (-l).toNat := by omega
      have hq : (d : ℚ) ≤ ((a * 2 ^ (-l).toNat : Nat) : ℚ) := by exact_mod_cast this
      rw [Nat.cast_mul, zpow_toNat (-l) hl', zpow_neg] at hq
      have hp := two_zpow_pos l
      rw [le_div_iff₀ hdq]
      have : (d : ℚ) * (2 : ℚ) ^ l ≤ a := by
        have := mul_le_mul_of_nonneg_right hq (le_of_lt hp)
        rwa [mul_assoc, inv_mul_cancel₀ (ne_of_gt hp), mul_one] at this
      linarith

theorem round_step_err (num den : Nat) (hden : 0 < den) :
    2 * ((if 2 * (num % den) < den then num / den
      else if den < 2 * (num % den) then num / den + 1
      else if num / den % 2 = 0 then num / den else num / den + 1) * den) ≤ 2 * num + den ∧
    2 * num ≤ 2 * ((if 2 * (num % den) < den then num / den
      else if den < 2 * (num % den) then num / den + 1
      else if num / den % 2 = 0 then num / den else num / den + 1) * den) + den := by
  have h := Nat.div_add_mod num den
  have hr := Nat.mod_lt num hden
  have hc : num / den * den = den * (num / den) := Nat.mul_comm _ _
  split
  · omega
  · split
    · rw [Nat.add_mul]
      omega
    · split
      · omega
      · rw [Nat.add_mul]
        omega

/-- Rounding is off by at most the fraction `2^-53` of the exact value. -/
theorem roundRatio_err (n : Int) (d : Nat) (s : Int) (hd : 0 < d) :
    |(roundRatio n d s).val - (n : ℚ) / d * (2 : ℚ) ^ s|
      ≤ |(n : ℚ)| / d * (2 : ℚ) ^ s * (2 : ℚ) ^ (-53 : Int) := by
  have hdq : (0 : ℚ) < (d : ℚ) := by exact_mod_cast hd
  by_cases hn : n = 0
  · subst hn
    simp [roundRatio, F64.val]
  · have ha : 1 ≤ n.natAbs := Int.natAbs_pos.2 hn
    have hlog := ilog2Ratio_le n.natAbs d ha hd
    simp only [roundRatio, hn, if_false, F64.val]
    generalize hk : ilog2Ratio n.natAbs d - 52 = k
    have hlog' : (2 : ℚ) ^ k * (2 : ℚ) ^ (52 : Int) ≤ (n.natAbs : ℚ) / d := by
      rw [← zpow_add₀ (by norm_num : (2 : ℚ) ≠ 0), ← hk]
      have : ilog2Ratio n.natAbs d - 52 + 52 = ilog2Ratio n.natAbs d := by ring
      rw [this]
      exact hlog
    generalize hnum : (if 0 ≤ k then n.natAbs else n.natAbs * 2 ^ (-k).toNat) = num
    generalize hden : (if 0 ≤ k then d * 2 ^ k.toNat else d) = den
    have hden0 : 0 < den := by
      by_cases hk0 : 0 ≤ k
      · rw [if_pos hk0] at hden
        subst hden
        positivity
      · rw [if_neg hk0] at hden
        subst hden
        exact hd
    have hden_pos : (0 : ℚ) < den := by exact_mod_cast hden0
    have hstep := round_step_err num den hden0
    generalize hm : (if 2 * (num % den) < den then num / den
      else if den < 2 * (num % den) then num / den + 1
      else if num / den % 2 = 0 then num / den else num / den + 1) = m at hstep
    obtain ⟨hs1, hs2⟩ := hstep
    have hs1q : 2 * ((m : ℚ) * den) ≤ 2 * num + den := by exact_mod_cast hs1
    have hs2q : 2 * (num : ℚ) ≤ 2 * ((m : ℚ) * den) + den := by exact_mod_cast hs2
    have h2k := two_zpow_pos k
    have h2s := two_zpow_pos s
    have hratio : (num : ℚ) = (n.natAbs : ℚ) / d / (2 : ℚ) ^ k * den := by
      by_cases hk0 : 0 ≤ k
      · rw [if_pos hk0] at hnum hden
        subst hnum
        subst hden
        rw [Nat.cast_mul, zpow_toNat k hk0]
        field_simp
      · rw [if_neg hk0] at hnum hden
        subst hnum
        subst hden
        have hk1 : 0 ≤ -k := by omega
        rw [Nat.cast_mul, zpow_toNat (-k) hk1, zpow_neg]
        field_simp
        ring
    -- the distance between the rounded significand and the exact one is at most one half
    have hhalf : |(m : ℚ) - (n.natAbs : ℚ) / d / (2 : ℚ) ^ k| ≤ 1 / 2 := by
      rw [hratio] at hs1q hs2q
      rw [abs_le]
      constructor
      · have : ((n.natAbs : ℚ) / d / (2 : ℚ) ^ k - 1 / 2 - m) * den ≤ 0 := by nlinarith
        have := nonpos_of_mul_nonpos_left this hden_pos
        linarith
      · have : ((m : ℚ) - (n.natAbs : ℚ) / d / (2 : ℚ) ^ k - 1 / 2) * den ≤ 0 := by nlinarith
        have := nonpos_of_mul_nonpos_left this hden_pos
        linarith
    have hnabs : |(n : ℚ)| = (n.natAbs : ℚ) := by
      rw [← Int.cast_abs, Int.abs_eq_natAbs, Int.cast_natCast]
    have hsign : (n : ℚ) = (n.sign : ℚ) * (n.natAbs : ℚ) := by
      have h1 : n = n.sign * (n.natAbs : Int) := (Int.sign_mul_natAbs n).symm
      have h2 : ((n : Int) : ℚ) = ((n.sign * (n.natAbs : Int) : Int) : ℚ) := congrArg _ h1
      rw [h2, Int.cast_mul, Int.cast_natCast]
    have hsabs : |(n.sign : ℚ)| = 1 := by
      rw [← Int.cast_abs, Int.abs_sign_of_nonzero hn]
      simp
    have hdiff : ((n.sign * (m : Int) : Int) : ℚ) * (2 : ℚ) ^ (k + s) - (n : ℚ) / d * (2 : ℚ) ^ s
        = (n.sign : ℚ) * (((m : ℚ) - (n.natAbs : ℚ) / d / (2 : ℚ) ^ k) * ((2 : ℚ) ^ k * (2 : ℚ) ^ s))
        := by
      rw [zpow_add₀ (by norm_num : (2 : ℚ) ≠ 0)]
      conv_lhs => rw [hsign]
      push_cast
      field_simp
      ring
    rw [hdiff, abs_mul, hsabs, one_mul, abs_mul, abs_of_pos (mul_pos h2k h2s), hnabs]
    have e53 : (2 : ℚ) ^ (-53 : Int) * (2 : ℚ) ^ (52 : Int) = 1 / 2 := by norm_num [zpow_neg]
    calc |(m : ℚ) - (n.natAbs : ℚ) / d / (2 : ℚ) ^ k| * ((2 : ℚ) ^ k * (2 : ℚ) ^ s)
        ≤ 1 / 2 * ((2 : ℚ) ^ k * (2 : ℚ) ^ s) :=
          mul_le_mul_of_nonneg_right hhalf (le_of_lt (mul_pos h2k h2s))
      _ = (2 : ℚ) ^ k * (2 : ℚ) ^ (52 : Int) * ((2 : ℚ) ^ s * (2 : ℚ) ^ (-53 : Int)) := by
          rw [← e53]
          ring
      _ ≤ (n.natAbs : ℚ) / d * ((2 : ℚ) ^ s * (2 : ℚ) ^ (-53 : Int)) :=
          mul_le_mul_of_nonneg_right hlog' (le_of_lt (mul_pos h2s (two_zpow_pos _)))
      _ = (n.natAbs : ℚ) / d * (2 : ℚ) ^ s * (2 : ℚ) ^ (-53 : Int) := by ring

theorem ofInt_err (i : Int) :
    |(F64.ofInt i).val - (i : ℚ)| ≤ |(i : ℚ)| * (2 : ℚ) ^ (-53 : Int) := by
  have h := roundRatio_err i 1 0 (by decide)
  simpa [F64.ofInt] using h

theorem div_err (x y : F64) (hy : y.man ≠ 0) :
    |(F64.div x y).val - x.val / y.val| ≤ |x.val / y.val| * (2 : ℚ) ^ (-53 : Int) := by
  have hpos : 0 < y.man.natAbs := Int.natAbs_pos.2 hy
  have h := roundRatio_err (x.man * y.man.sign) y.man.natAbs (x.exp - y.exp) hpos
  have hx := two_zpow_pos x.exp
  have hye := two_zpow_pos y.exp
  have hyne : (y.man : ℚ) ≠ 0 := by exact_mod_cast hy
  have hyq : (0 : ℚ) < |(y.man : ℚ)| := abs_pos.2 hyne
  have e1 : |((x.man * y.man.sign : Int) : ℚ)| = |(x.man : ℚ)| := by
    rw [← Int.cast_abs, abs_mul, Int.abs_sign_of_nonzero hy, mul_one, Int.cast_abs]
  have e2 : ((y.man.natAbs : Nat) : ℚ) = |(y.man : ℚ)| := by
    rw [← Int.cast_abs, Int.abs_eq_natAbs, Int.cast_natCast]
  have e3 : (2 : ℚ) ^ (x.exp - y.exp) = (2 : ℚ) ^ x.exp / (2 : ℚ) ^ y.exp :=
    zpow_sub₀ (by norm_num) _ _
  have e5 : ((x.man * y.man.sign : Int) : ℚ) / |(y.man : ℚ)| = (x.man : ℚ) / (y.man : ℚ) := by
    have hs : (y.man : ℚ) = (y.man.sign : ℚ) * |(y.man : ℚ)| := by
      have h1 : y.man = y.man.sign * |y.man| := (Int.sign_mul_abs y.man).symm
      exact_mod_cast h1
    have hsq : (y.man.sign : ℚ) * (y.man.sign : ℚ) = 1 := by
      have : y.man.sign * y.man.sign = 1 := by
        rcases Int.lt_trichotomy y.man 0 with h | h | h
        · rw [Int.sign_eq_neg_one_of_neg h]
          norm_num
        · exact absurd h hy
        · rw [Int.sign_eq_one_of_pos h]
          norm_num
      exact_mod_cast this
    rw [Int.cast_mul, div_eq_div_iff (ne_of_gt hyq) hyne]
    conv_lhs => rw [hs]
    calc (x.man : ℚ) * (y.man.sign : ℚ) * ((y.man.sign : ℚ) * |(y.man : ℚ)|)
        = (x.man : ℚ) * ((y.man.sign : ℚ) * (y.man.sign : ℚ)) * |(y.man : ℚ)| := by ring
      _ = (x.man : ℚ) * |(y.man : ℚ)| := by rw [hsq, mul_one]
  rw [e1, e2, e3, e5] at h
  rw [abs_div, val_abs x, val_abs y]
  have e4 : |(x.man : ℚ)| / |(y.man : ℚ)| * ((2 : ℚ) ^ x.exp / (2 : ℚ) ^ y.exp)
      = |(x.man : ℚ)| * (2 : ℚ) ^ x.exp / (|(y.man : ℚ)| * (2 : ℚ) ^ y.exp) := by
    field_simp
  have e6 : (x.man : ℚ) / (y.man : ℚ) * ((2 : ℚ) ^ x.exp / (2 : ℚ) ^ y.exp)
      = x.val / y.val := by
    unfold F64.val
    field_simp
  rw [e4, e6] at h
  exact h

theorem add_err (x y : F64) :
    |(F64.add x y).val - (x.val + y.val)| ≤ |x.val + y.val| * (2 : ℚ) ^ (-53 : Int) := by
  have h := roundRatio_err
    (x.man * 2 ^ (x.exp - min x.exp y.exp).toNat + y.man * 2 ^ (y.exp - min x.exp y.exp).toNat)
    1 (min x.exp y.exp) (by decide)
  have e : ((x.man * 2 ^ (x.exp - min x.exp y.exp).toNat
      + y.man * 2 ^ (y.exp - min x.exp y.exp).toNat : Int) : ℚ) * (2 : ℚ) ^ (min x.exp y.exp)
      = x.val + y.val := by
    rw [Int.cast_add, add_mul, shift_val _ _ _ (min_le_left _ _),
      shift_val _ _ _ (min_le_right _ _)]
    rfl
  have hp := two_zpow_pos (min x.exp y.exp)
  simp only [Nat.cast_one, div_one] at h
  rw [e] at h
  have e2 : |((x.man * 2 ^ (x.exp - min x.exp y.exp).toNat
      + y.man * 2 ^ (y.exp - min x.exp y.exp).toNat : Int) : ℚ)| * (2 : ℚ) ^ (min x.exp y.exp)
      = |x.val + y.val| := by
    rw [← e, abs_mul, abs_of_pos hp]
  rw [e2] at h
  exact h

theorem abs_le_of_err (v x e : ℚ) (h : |v - x| ≤ |x| * e) : |v| ≤ |x| * (1 + e) := by
  have h1 : |v| ≤ |v - x| + |x| := by
    have := abs_add (v - x) x
    simpa using this
  linarith

/-- A duration of less than one second has zero whole seconds. -/
theorem Seconds_small (d : Int) (h : |d| < Second) : F64.toInt (Seconds d) = 0 := by
  rw [Second_val] at h
  have hd : -1000000000 < d ∧ d < 1000000000 := abs_lt.1 h
  have hsec : Int.tdiv d Second = 0 ∧ Int.tmod d Second = d := by
    rw [Second_val]
    rcases tdiv_tmod_cases d 1000000000 (by norm_num) with ⟨h0, h1, h2⟩ | ⟨h0, h1, h2⟩
    · rw [h1, h2]
      omega
    · rw [h1, h2]
      omega
  have hdq : |(d : ℚ)| ≤ 999999999 := by
    rw [← Int.cast_abs]
    have : |d| ≤ 999999999 := by
      rw [abs_le]
      omega
    exact_mod_cast this
  have hzero : (F64.ofInt 0).val = 0 := by
    have : F64.ofInt 0 = { man := 0, exp := 0 } := by decide
    rw [this]
    simp [F64.val]
  have hD : (F64.ofInt 1000000000).val = 1000000000 := by
    rw [ofInt_billion]
    norm_num [F64.val, zpow_neg]
  have hN := abs_le_of_err _ _ _ (ofInt_err d)
  have hY := abs_le_of_err _ _ _ (div_err (F64.ofInt d) (F64.ofInt 1000000000)
    (by rw [ofInt_billion]; decide))
  have hS := abs_le_of_err _ _ _ (add_err (F64.ofInt 0)
    (F64.div (F64.ofInt d) (F64.ofInt 1000000000)))
  rw [hzero, zero_add] at hS
  rw [hD] at hY
  have heps : (2 : ℚ) ^ (-53 : Int) = 1 / 9007199254740992 := by norm_num [zpow_neg]
  rw [heps] at hN hY hS
  have hform : Seconds d
      = F64.add (F64.ofInt 0) (F64.div (F64.ofInt d) (F64.ofInt 1000000000)) := by
    simp only [Seconds, hsec.1, hsec.2]
  have hval : |(Seconds d).val| < 1 := by
    rw [hform]
    have h1 : |(F64.ofInt d).val| ≤ 999999999 * (1 + 1 / 9007199254740992) := by
      calc |(F64.ofInt d).val| ≤ |(d : ℚ)| * (1 + 1 / 9007199254740992) := hN
        _ ≤ 999999999 * (1 + 1 / 9007199254740992) :=
          mul_le_mul_of_nonneg_right hdq (by norm_num)
    have h2 : |(F64.div (F64.ofInt d) (F64.ofInt 1000000000)).val|
        ≤ 999999999 * (1 + 1 / 9007199254740992) / 1000000000
          * (1 + 1 / 9007199254740992) := by
      calc |(F64.div (F64.ofInt d) (F64.ofInt 1000000000)).val|
          ≤ |(F64.ofInt d).val / 1000000000| * (1 + 1 / 9007199254740992) := hY
        _ ≤ 999999999 * (1 + 1 / 9007199254740992) / 1000000000
            * (1 + 1 / 9007199254740992) := by
          apply mul_le_mul_of_nonneg_right _ (by norm_num)
          rw [abs_div, abs_of_pos (by norm_num : (0 : ℚ) < 1000000000)]
          exact div_le_div_of_nonneg_right h1 (by norm_num)
    calc |(F64.add (F64.ofInt 0) (F64.div (F64.ofInt d) (F64.ofInt 1000000000))).val|
        ≤ |(F64.div (F64.ofInt d) (F64.ofInt 1000000000)).val|
            * (1 + 1 / 9007199254740992) := hS
      _ ≤ 999999999 * (1 + 1 / 9007199254740992) / 1000000000
            * (1 + 1 / 9007199254740992) * (1 + 1 / 9007199254740992) :=
          mul_le_mul_of_nonneg_right h2 (by norm_num)
      _ < 1 := by norm_num
  have hT := toInt_abs_le (Seconds d)
  have hlt : |((F64.toInt (Seconds d) : Int) : ℚ)| < 1 := lt_of_le_of_lt hT hval
  rw [← Int.cast_abs] at hlt
  have hlt' : |F64.toInt (Seconds d)| < 1 := by exact_mod_cast hlt
  rw [abs_lt] at hlt'
  omega

/-- The zone of a duration of less than one second: offset zero, label `UTC+`. -/
theorem durationToLocationE_small (d : Int) (h : |d| < Second) :
    durationToLocationE d = Outcome.ok (some (FixedZone "UTC+".toList 0)) := by
  simp only [durationToLocationE, Seconds_small d h]
  rfl

/-- C3: what the code does for a zone name (first character no sign and no digit, no
`UTC` in front) that the lookup resolves to a zone whose offset now is `k` seconds, for
every `k` below a thousand million in size: `ToTimeZoneE` returns the zone with offset
ZERO and label `UTC+`, whatever `k` is. -/
theorem named_zone_location_loses_offset (env : Env) (c : Char) (rest : List Char)
    (hc : c ≠ '+' ∧ c ≠ '-' ∧ isDigit c = false) (hutc : HasPrefix (c :: rest) UTC = false)
    (loc : Location) (hl : env.LoadLocation (c :: rest) = Except.ok loc)
    (hk : |loc.offsetAt env.now| < 1000000000) :
    ToTimeZoneE env (GoAny.string (c :: rest))
      = Outcome.ok (some (FixedZone "UTC+".toList 0)) := by
  have hdur : stringToDurationE env (c :: rest) = Outcome.ok (loc.offsetAt env.now) := by
    simp [stringToDurationE_name env c rest hc hutc, locationStringToDurationE, hl, orZero]
  simp only [ToTimeZoneE, indirectToStringerOrError, stringToLocationE, hdur]
  exact durationToLocationE_small _ (by rw [Second_val]; exact hk)

/-- C3 at a concrete input: `Asia/Shanghai`, 28800 seconds east, becomes a zone with
offset 0. -/
theorem named_zone_location_loses_offset_witness :
    ToTimeZoneE (sampleEnv 0) (GoAny.string "Asia/Shanghai".toList)
      = Outcome.ok (some (FixedZone "UTC+".toList 0)) ∧ (28800 : Int) ≠ 0 :=
  ⟨named_zone_location_loses_offset (sampleEnv 0) 'A' "sia/Shanghai".toList (by decide)
      (by decide) { name := "Asia/Shanghai".toList, offsetAt := fun _ => 28800 } rfl
      (by decide),
    by decide⟩

/-! ## Floating point: exact cases -/

theorem ilog2_one : ilog2 1 = 0 := by decide

theorem ilog2_lt (a e : Nat) (ha : 1 ≤ a) (h : a < 2 ^ (e + 1)) : ilog2 a ≤ e := by
  obtain ⟨h1, _⟩ := ilog2_spec a ha
  by_contra hc
  have h2 : e + 1 ≤ ilog2 a := by omega
  have h3 : 2 ^ (e + 1) ≤ 2 ^ ilog2 a := Nat.pow_le_pow_right (by decide) h2
  omega

theorem ilog2Ratio_one (a : Nat) (ha : 1 ≤ a) : ilog2Ratio a 1 = (ilog2 a : Int) := by
  obtain ⟨h1, _⟩ := ilog2_spec a ha
  simp only [ilog2Ratio, ilog2_one, Nat.cast_zero, sub_zero, one_mul, Int.toNat_ofNat]
  rw [if_pos (Int.natCast_nonneg _), if_neg (by omega)]

/-- An integer of less than 54 bits, scaled by a power of two, is kept by rounding: the
result has the same value and a significand of less than 54 bits, and its exponent is
not above the scale. -/
theorem roundRatio_int_exact (n : Int) (s : Int) (hn : n ≠ 0) (h : n.natAbs < 2 ^ 53) :
    (roundRatio n 1 s).val = (n : ℚ) * (2 : ℚ) ^ s ∧ (roundRatio n 1 s).exp ≤ s ∧
      (roundRatio n 1 s).man.natAbs < 2 ^ 53 := by
  have ha : 1 ≤ n.natAbs := Int.natAbs_pos.2 hn
  have hL : ilog2 n.natAbs ≤ 52 := ilog2_lt _ 52 ha h
  obtain ⟨_, hup⟩ := ilog2_spec n.natAbs ha
  have hsign : (n : ℚ) = (n.sign : ℚ) * (n.natAbs : ℚ) := by
    have h1 : n = n.sign * (n.natAbs : Int) := (Int.sign_mul_natAbs n).symm
    have h2 : ((n : Int) : ℚ) = ((n.sign * (n.natAbs : Int) : Int) : ℚ) := congrArg _ h1
    rw [h2, Int.cast_mul, Int.cast_natCast]
  have hsabs : n.sign.natAbs = 1 := by
    rcases Int.lt_trichotomy n 0 with h0 | h0 | h0
    · rw [Int.sign_eq_neg_one_of_neg h0]
      rfl
    · exact absurd h0 hn
    · rw [Int.sign_eq_one_of_pos h0]
      rfl
  simp only [roundRatio, hn, if_false, ilog2Ratio_one _ ha, F64.val]
  generalize hk : (ilog2 n.natAbs : Int) - 52 = k
  have hk0 : k ≤ 0 := by omega
  by_cases hz : 0 ≤ k
  · have hkz : k = 0 := by omega
    subst hkz
    simp only [le_refl, if_true, Int.toNat_zero, pow_zero, mul_one, Nat.mod_one, mul_zero,
      Nat.lt_one_iff, Nat.div_one, zero_add]
    refine ⟨?_, trivial, ?_⟩
    · rw [hsign, Int.cast_mul, Int.cast_natCast]
    · rw [Int.natAbs_mul, hsabs, one_mul, Int.natAbs_ofNat]
      exact h
  · simp only [hz, if_false, Nat.mod_one, mul_zero, Nat.lt_one_iff, Nat.div_one, if_true]
    have hk1 : 0 ≤ -k := by omega
    refine ⟨?_, by omega, ?_⟩
    · rw [zpow_add₀ (by norm_num : (2 : ℚ) ≠ 0), hsign]
      have e := zpow_toNat (-k) hk1
      rw [zpow_neg] at e
      rw [Int.cast_mul, Int.cast_natCast, Nat.cast_mul, e]
      have hp := two_zpow_pos k
      field_simp
      ring
    · rw [Int.natAbs_mul, hsabs, one_mul, Int.natAbs_ofNat]
      have e1 : (-k).toNat = 52 - ilog2 n.natAbs := by omega
      rw [e1]
      have e2 : 2 ^ 53 = 2 ^ (ilog2 n.natAbs + 1) * 2 ^ (52 - ilog2 n.natAbs) := by
        rw [← Nat.pow_add]
        congr 1
        omega
      rw [e2]
      exact Nat.mul_lt_mul_of_lt_of_le hup (le_refl _) (by positivity)

/-- The conversion of an integer of less than 54 bits to floating point is exact. -/
theorem ofInt_exact (i : Int) (h : i.natAbs < 2 ^ 53) :
    (F64.ofInt i).val = (i : ℚ) ∧ (F64.ofInt i).exp ≤ 0 ∧ (F64.ofInt i).man.natAbs < 2 ^ 53 := by
  by_cases hi : i = 0
  · subst hi
    have : F64.ofInt 0 = { man := 0, exp := 0 } := by decide
    rw [this]
    exact ⟨by simp [F64.val], le_refl _, by decide⟩
  · have := roundRatio_int_exact i 0 hi h
    simpa [F64.ofInt] using this

/-! ## The entry points at simple sources -/

/-- C11: at the text `UTC`, `ToDurationE` succeeds with the zero duration and
`ToTimeZoneE` succeeds with a zone of offset 0 (its label is `UTC+`). -/
theorem utc_alone_is_zero (env : Env) :
    ToDurationE env (GoAny.string UTC) = Outcome.ok 0 ∧
    ToTimeZoneE env (GoAny.string UTC) = Outcome.ok (some (FixedZone "UTC+".toList 0)) := by
  have h : stringToDurationE env UTC = Outcome.ok 0 := rfl
  refine ⟨h, ?_⟩
  show stringToLocationE env UTC = _
  unfold stringToLocationE
  rw [h]
  exact durationToLocationE_small 0 (by decide)

/-- C12 (as the code behaves): at the empty string, the empty byte sequence and a
value whose `String` method gives the empty text, `ToDurationE` and `ToTimeZoneE`
return nothing: the test `str[0]` of `stringToDurationE` indexes the empty text and
the call panics. -/
theorem empty_text_panics (env : Env) :
    ToDurationE env (GoAny.string []) = Outcome.panic GoPanic.indexOutOfRange ∧
    ToTimeZoneE env (GoAny.string []) = Outcome.panic GoPanic.indexOutOfRange ∧
    ToDurationE env (GoAny.bytes []) = Outcome.panic GoPanic.indexOutOfRange ∧
    ToTimeZoneE env (GoAny.bytes []) = Outcome.panic GoPanic.indexOutOfRange ∧
    ToDurationE env (GoAny.stringer []) = Outcome.panic GoPanic.indexOutOfRange ∧
    ToTimeZoneE env (GoAny.stringer []) = Outcome.panic GoPanic.indexOutOfRange :=
  ⟨rfl, rfl, rfl, rfl, rfl, rfl⟩

/-- C16: at the absent value, `ToDurationE` succeeds with the zero duration and
`ToTimeZoneE` succeeds with the nil zone. -/
theorem nil_is_zero (env : Env) :
    ToDurationE env GoAny.nil = Outcome.ok 0 ∧ ToTimeZoneE env GoAny.nil = Outcome.ok none :=
  ⟨rfl, rfl⟩

/-- C17 (as the code behaves): at a nil `*big.Int`, `*big.Float` or `*big.Rat`,
`ToDurationE` and `ToTimeZoneE` return no failure: the method called on the nil
pointer dereferences it and the call panics. -/
theorem nil_big_value_panics (env : Env) :
    ToDurationE env (GoAny.bigInt none) = Outcome.panic GoPanic.nilDereference ∧
    ToDurationE env (GoAny.bigFloat none) = Outcome.panic GoPanic.nilDereference ∧
    ToDurationE env (GoAny.bigRat none) = Outcome.panic GoPanic.nilDereference ∧
    ToTimeZoneE env (GoAny.bigInt none) = Outcome.panic GoPanic.nilDereference ∧
    ToTimeZoneE env (GoAny.bigFloat none) = Outcome.panic GoPanic.nilDereference ∧
    ToTimeZoneE env (GoAny.bigRat none) = Outcome.panic GoPanic.nilDereference :=
  ⟨rfl, rfl, rfl, rfl, rfl, rfl⟩

/-- C18: at a boolean, `ToDurationE` succeeds with 1 nanosecond for `true` and 0 for
`false`, and `ToTimeZoneE` succeeds with the zone `UTC` of offset 1 second for `true`
and 0 for `false`. -/
theorem bool_is_one_or_zero (env : Env) (b : Bool) :
    ToDurationE env (GoAny.bool b) = Outcome.ok (if b then 1 else 0) ∧
    ToTimeZoneE env (GoAny.bool b) = Outcome.ok (some (FixedZone UTC (if b then 1 else 0))) := by
  cases b
  · exact ⟨rfl, rfl⟩
  · exact ⟨rfl, rfl⟩

/-- C19: two complex values with the same real part have the same `ToDurationE`
result and the same `ToTimeZoneE` result, which is the result for the real part alone
as a floating-point value, for `complex128` and for `complex64`. -/
theorem imaginary_part_ignored (env : Env) (re im1 im2 : GoFloat) :
    ToDurationE env (GoAny.complex128 re im1) = ToDurationE env (GoAny.complex128 re im2) ∧
    ToDurationE env (GoAny.complex128 re im1) = ToDurationE env (GoAny.float64 re) ∧
    ToDurationE env (GoAny.complex64 re im1) = ToDurationE env (GoAny.complex64 re im2) ∧
    ToDurationE env (GoAny.complex64 re im1) = ToDurationE env (GoAny.float32 re) ∧
    ToTimeZoneE env (GoAny.complex128 re im1) = ToTimeZoneE env (GoAny.complex128 re im2) ∧
    ToTimeZoneE env (GoAny.complex128 re im1) = ToTimeZoneE env (GoAny.float64 re) ∧
    ToTimeZoneE env (GoAny.complex64 re im1) = ToTimeZoneE env (GoAny.complex64 re im2) ∧
    ToTimeZoneE env (GoAny.complex64 re im1) = ToTimeZoneE env (GoAny.float32 re) :=
  ⟨rfl, rfl, rfl, rfl, rfl, rfl, rfl, rfl⟩

/-- C15: at a signed 64-bit integer `n`, `ToDurationE` succeeds with the duration of
`n` nanoseconds, and `ToDuration` at the nanosecond count of a duration gives the
duration back. -/
theorem int64_is_nanoseconds (env : Env) (n : Int) (h : inInt64 n) :
    ToDurationE env (GoAny.int64 n) = Outcome.ok n ∧
    ToDuration env (GoAny.int64 (Nanoseconds n)) = Except.ok n := by
  have e : ToDurationE env (GoAny.int64 n) = Outcome.ok n := by
    show Outcome.ok (wrap64 n) = _
    rw [wrap64_of_inInt64 n h]
  refine ⟨e, ?_⟩
  unfold ToDuration Nanoseconds
  rw [e]

theorem int64_is_nanoseconds_witness :
    ToDurationE (sampleEnv 0) (GoAny.int64 (-9223372036854775808)) =
        Outcome.ok (-9223372036854775808) ∧
      ToDuration (sampleEnv 0) (GoAny.int64 (Nanoseconds (-9223372036854775808))) =
        Except.ok (-9223372036854775808) :=
  int64_is_nanoseconds (sampleEnv 0) (-9223372036854775808) (by decide)

/-! ## Failures carry the zero value -/

theorem orZero_fail (r : Outcome Int) (v : Int) (e : GoError)
    (h : orZero r = Outcome.ret v (some e)) : v = 0 := by
  cases r with
  | panic p => simp [orZero] at h
  | ret x err =>
    cases err with
    | none => simp [orZero] at h
    | some err =>
      simp only [orZero, Outcome.ret.injEq] at h
      exact h.1.symm

theorem stringToDurationE_fail (env : Env) (s : List Char) (v : Int) (e : GoError)
    (h : stringToDurationE env s = Outcome.ret v (some e)) : v = 0 := by
  cases s with
  | nil => simp [stringToDurationE] at h
  | cons c cs =>
    simp only [stringToDurationE] at h
    split at h
    · exact orZero_fail _ v e h
    · split at h
      · exact orZero_fail _ v e h
      · exact orZero_fail _ v e h

theorem durationToLocationE_ok (d : Int) :
    ∃ loc, durationToLocationE d = Outcome.ok (some loc) :=
  ⟨_, rfl⟩

theorem stringToLocationE_fail (env : Env) (s : List Char) (z : Option Location) (e : GoError)
    (h : stringToLocationE env s = Outcome.ret z (some e)) : z = none := by
  unfold stringToLocationE at h
  cases hd : stringToDurationE env s with
  | panic p => simp [hd] at h
  | ret d err =>
    cases err with
    | none =>
      obtain ⟨loc, hl⟩ := durationToLocationE_ok d
      simp [hd, hl] at h
    | some err =>
      simp only [hd, Outcome.ret.injEq] at h
      exact h.1.symm

theorem ToDurationE_fail (env : Env) (a : GoAny) (v : Int) (e : GoError)
    (h : ToDurationE env a = Outcome.ret v (some e)) : v = 0 := by
  unfold ToDurationE at h
  generalize indirectToStringerOrError a = b at h
  cases b with
  | bigInt o => cases o <;> simp at h
  | bigFloat o => cases o <;> simp at h
  | bigRat o => cases o <;> simp at h
  | locationPtr o => cases o <;> simp at h
  | bool b => cases b <;> simp at h
  | string s => exact stringToDurationE_fail env s v e h
  | bytes s => exact stringToDurationE_fail env s v e h
  | stringer s => exact stringToDurationE_fail env s v e h
  | error s => exact stringToDurationE_fail env s v e h
  | pointer t =>
    simp only [Outcome.ret.injEq] at h
    exact h.1.symm
  | nilPointer =>
    simp only [Outcome.ret.injEq] at h
    exact h.1.symm
  | other =>
    simp only [Outcome.ret.injEq] at h
    exact h.1.symm
  | _ => simp at h

theorem ToTimeZoneE_fail (env : Env) (a : GoAny) (z : Option Location) (e : GoError)
    (h : ToTimeZoneE env a = Outcome.ret z (some e)) : z = none := by
  unfold ToTimeZoneE at h
  generalize indirectToStringerOrError a = b at h
  cases b with
  | bigInt o => cases o <;> simp [utcZone] at h
  | bigFloat o => cases o <;> simp [utcZone] at h
  | bigRat o => cases o <;> simp [utcZone] at h
  | bool b => cases b <;> simp [utcZone] at h
  | duration d =>
    obtain ⟨loc, hl⟩ := durationToLocationE_ok d
    simp [hl] at h
  | string s => exact stringToLocationE_fail env s z e h
  | bytes s => exact stringToLocationE_fail env s z e h
  | stringer s => exact stringToLocationE_fail env s z e h
  | error s => exact stringToLocationE_fail env s z e h
  | pointer t =>
    simp only [Outcome.ret.injEq] at h
    exact h.1.symm
  | nilPointer =>
    simp only [Outcome.ret.injEq] at h
    exact h.1.symm
  | other =>
    simp only [Outcome.ret.injEq] at h
    exact h.1.symm
  | _ => simp [utcZone] at h

/-- C14: a failure of `ToDurationE` comes with the duration 0 and a failure of
`ToTimeZoneE` with the nil zone, so `ToDuration` and `ToTimeZone` give the value of
the other function on success and the zero value on every failure. -/
theorem failure_gives_zero_value (env : Env) (a : GoAny) :
    (∀ v e, ToDurationE env a = Outcome.ret v (some e) →
      v = 0 ∧ ToDuration env a = Except.ok 0) ∧
    (∀ v, ToDurationE env a = Outcome.ok v → ToDuration env a = Except.ok v) ∧
    (∀ z e, ToTimeZoneE env a = Outcome.ret z (some e) →
      z = none ∧ ToTimeZone env a = Except.ok none) ∧
    (∀ z, ToTimeZoneE env a = Outcome.ok z → ToTimeZone env a = Except.ok z) := by
  refine ⟨?_, ?_, ?_, ?_⟩
  · intro v e h
    have hv := ToDurationE_fail env a v e h
    subst hv
    refine ⟨rfl, ?_⟩
    unfold ToDuration
    rw [h]
  · intro v h
    unfold ToDuration
    rw [h]
  · intro z e h
    have hz := ToTimeZoneE_fail env a z e h
    subst hz
    refine ⟨rfl, ?_⟩
    unfold ToTimeZone
    rw [h]
  · intro z h
    unfold ToTimeZone
    rw [h]

theorem failure_gives_zero_value_witness :
    ToDuration (sampleEnv 0) GoAny.other = Except.ok 0 ∧
    ToDuration (sampleEnv 0) (GoAny.string "UTC+08:30".toList) = Except.ok (8 * Hour + 30 * Minute) ∧
    ToTimeZone (sampleEnv 0) (GoAny.string "UTCx".toList) = Except.ok none ∧
    ToTimeZone (sampleEnv 0) (GoAny.bool true) = Except.ok (some (FixedZone UTC 1)) :=
  ⟨((failure_gives_zero_value (sampleEnv 0) GoAny.other).1 0
      GoError.invalidDurationType rfl).2,
    (failure_gives_zero_value (sampleEnv 0) (GoAny.string "UTC+08:30".toList)).2.1
      (8 * Hour + 30 * Minute) rfl,
    ((failure_gives_zero_value (sampleEnv 0) (GoAny.string "UTCx".toList)).2.2.1 none
      (GoError.invalidTimezoneName "UTCx".toList) rfl).2,
    (failure_gives_zero_value (sampleEnv 0) (GoAny.bool true)).2.2.2
      (some (FixedZone UTC 1)) rfl⟩

/-! ## An instant that is not read -/

/-- C13 (as the code behaves): when the text after the first blank of a sign- or
digit-leading input is not read as an instant, `ToDurationE` does not return: it
panics with the error of the time-format collaborator, and so does `ToDuration`. -/
theorem unreadable_instant_panics (env : Env) (c : Char) (rest text : List Char) (e : GoError)
    (hc : c = '+' ∨ c = '-' ∨ isDigit c = true)
    (hs : afterFirstSpace (c :: rest) = some text)
    (ht : env.timeStringToTime text = Except.error e) :
    ToDurationE env (GoAny.string (c :: rest)) = Outcome.panic (GoPanic.explicit e) ∧
    ToDuration env (GoAny.string (c :: rest)) = Except.error (GoPanic.explicit e) ∧
    ToTimeZoneE env (GoAny.string (c :: rest)) = Outcome.panic (GoPanic.explicit e) := by
  have h : stringToDurationE env (c :: rest) = Outcome.panic (GoPanic.explicit e) := by
    simp only [stringToDurationE, if_pos hc, regexpStringToDurationE, hs, stringToTime, ht]
    rfl
  have hd : ToDurationE env (GoAny.string (c :: rest)) = Outcome.panic (GoPanic.explicit e) := h
  refine ⟨hd, ?_, ?_⟩
  · unfold ToDuration
    rw [hd]
  · show stringToLocationE env (c :: rest) = _
    unfold stringToLocationE
    rw [h]

theorem unreadable_instant_panics_witness :
    ToDurationE (sampleEnv 0) (GoAny.string "1H notadate".toList) =
        Outcome.panic (GoPanic.explicit
          (GoError.foreign "unable to parse date: notadate".toList)) ∧
      ToDuration (sampleEnv 0) (GoAny.string "1H notadate".toList) =
        Except.error (GoPanic.explicit
          (GoError.foreign "unable to parse date: notadate".toList)) ∧
      ToTimeZoneE (sampleEnv 0) (GoAny.string "1H notadate".toList) =
        Outcome.panic (GoPanic.explicit
          (GoError.foreign "unable to parse date: notadate".toList)) :=
  unreadable_instant_panics (sampleEnv 0) '1' "H notadate".toList "notadate".toList
    (GoError.foreign "unable to parse date: notadate".toList)
    (by decide) (by decide) rfl

/-! ## Floating point: symmetry under negation -/

theorem roundRatio_neg (n : Int) (d : Nat) (s : Int) :
    roundRatio (-n) d s = { man := -(roundRatio n d s).man, exp := (roundRatio n d s).exp } := by
  by_cases hn : n = 0
  · subst hn
    simp [roundRatio]
  · have hn' : -n ≠ 0 := neg_ne_zero.2 hn
    simp only [roundRatio, hn, hn', if_false, Int.natAbs_neg, Int.sign_neg, neg_mul]

theorem ofInt_neg (i : Int) :
    F64.ofInt (-i) = { man := -(F64.ofInt i).man, exp := (F64.ofInt i).exp } :=
  roundRatio_neg i 1 0

theorem div_neg_left (x y : F64) :
    F64.div { man := -x.man, exp := x.exp } y
      = { man := -(F64.div x y).man, exp := (F64.div x y).exp } := by
  simp only [F64.div, neg_mul]
  exact roundRatio_neg _ _ _

theorem add_neg_both (x y : F64) :
    F64.add { man := -x.man, exp := x.exp } { man := -y.man, exp := y.exp }
      = { man := -(F64.add x y).man, exp := (F64.add x y).exp } := by
  simp only [F64.add, neg_mul, ← neg_add]
  exact roundRatio_neg _ _ _

theorem toInt_neg (m e : Int) :
    F64.toInt { man := -m, exp := e } = -F64.toInt { man := m, exp := e } := by
  simp only [F64.toInt]
  split
  · rw [neg_mul]
  · rw [Int.neg_tdiv]

theorem tmod_neg_left (a b : Int) : Int.tmod (-a) b = -Int.tmod a b := by
  rw [Int.tmod_def, Int.tmod_def, Int.neg_tdiv]
  ring

/-- The seconds of the opposite duration are the opposite floating-point number. -/
theorem Seconds_neg (d : Int) :
    Seconds (-d) = { man := -(Seconds d).man, exp := (Seconds d).exp } := by
  simp only [Seconds, Int.neg_tdiv, tmod_neg_left, ofInt_neg, div_neg_left]
  exact add_neg_both _ _

theorem Seconds_toInt_neg (d : Int) : F64.toInt (Seconds (-d)) = -F64.toInt (Seconds d) := by
  rw [Seconds_neg, toInt_neg]

/-! ## Floating point: truncation of a value between two integers -/

theorem toInt_of_val (x : F64) (I : Nat) (h1 : (I : ℚ) ≤ x.val) (h2 : x.val < (I : ℚ) + 1) :
    F64.toInt x = (I : Int) := by
  unfold F64.val at h1 h2
  unfold F64.toInt
  by_cases h : 0 ≤ x.exp
  · rw [if_pos h]
    have e : (2 : ℚ) ^ x.exp = ((2 ^ x.exp.toNat : Int) : ℚ) := by
      conv_lhs => rw [← Int.toNat_of_nonneg h]
      rw [zpow_natCast]
      push_cast
      rfl
    rw [e, ← Int.cast_mul] at h1 h2
    have a1 : (I : Int) ≤ x.man * 2 ^ x.exp.toNat := by exact_mod_cast h1
    have a2 : x.man * 2 ^ x.exp.toNat < (I : Int) + 1 := by exact_mod_cast h2
    omega
  · rw [if_neg h]
    have hx : 0 ≤ -x.exp := by omega
    have hp : (0 : Int) < 2 ^ (-x.exp).toNat := by positivity
    have hpq : (0 : ℚ) < ((2 ^ (-x.exp).toNat : Int) : ℚ) := by exact_mod_cast hp
    have e : (2 : ℚ) ^ x.exp = 1 / ((2 ^ (-x.exp).toNat : Int) : ℚ) := by
      have : x.exp = -((-x.exp).toNat : Int) := by
        rw [Int.toNat_of_nonneg hx]
        ring
      conv_lhs => rw [this]
      rw [zpow_neg, zpow_natCast]
      push_cast
      simp
    rw [e, mul_one_div] at h1 h2
    rw [le_div_iff₀ hpq, ← Int.cast_natCast, ← Int.cast_mul] at h1
    rw [div_lt_iff₀ hpq] at h2
    have a1 : (I : Int) * 2 ^ (-x.exp).toNat ≤ x.man := by exact_mod_cast h1
    have a2 : x.man < ((I : Int) + 1) * 2 ^ (-x.exp).toNat := by exact_mod_cast h2
    have hman : 0 ≤ x.man := le_trans (by positivity) a1
    rw [Int.tdiv_eq_ediv hman (le_of_lt hp)]
    have b1 : (I : Int) ≤ x.man / 2 ^ (-x.exp).toNat := (Int.le_ediv_iff_mul_le hp).2 a1
    have b2 : x.man / 2 ^ (-x.exp).toNat < (I : Int) + 1 := (Int.ediv_lt_iff_lt_mul hp).2 a2
    omega

/-! ## Floating point: rounding does not go below an integer that is below the exact value -/

theorem round_step_ge (num den : Nat) :
    num / den ≤ (if 2 * (num % den) < den then num / den
      else if den < 2 * (num % den) then num / den + 1
      else if num / den % 2 = 0 then num / den else num / den + 1) := by
  split
  · exact le_refl _
  · split
    · exact Nat.le_succ _
    · split
      · exact le_refl _
      · exact Nat.le_succ _

theorem roundRatio_ge_nat (n : Int) (s : Int) (I : Nat) (hn : 0 ≤ n)
    (hI : (I : ℚ) ≤ (n : ℚ) * (2 : ℚ) ^ s) (hI52 : I ≤ 2 ^ 52) :
    (I : ℚ) ≤ (roundRatio n 1 s).val := by
  by_cases hz : n = 0
  · subst hz
    have : roundRatio 0 1 s = { man := 0, exp := 0 } := by simp [roundRatio]
    rw [this]
    simpa [F64.val] using hI
  by_cases h53 : n.natAbs < 2 ^ 53
  · rw [(roundRatio_int_exact n s hz h53).1]
    exact hI
  have ha : 1 ≤ n.natAbs := Int.natAbs_pos.2 hz
  obtain ⟨hlo, hup⟩ := ilog2_spec n.natAbs ha
  have hL : 53 ≤ ilog2 n.natAbs := by
    by_contra hc
    have h1 : ilog2 n.natAbs + 1 ≤ 53 := by omega
    have h2 : 2 ^ (ilog2 n.natAbs + 1) ≤ 2 ^ 53 := Nat.pow_le_pow_right (by decide) h1
    omega
  have hnq : (n : ℚ) = (n.natAbs : ℚ) := by
    have h0 : n = (n.natAbs : Int) := (Int.natAbs_of_nonneg hn).symm
    have h1 : ((n : Int) : ℚ) = (((n.natAbs : Int) : Int) : ℚ) := congrArg _ h0
    rw [h1, Int.cast_natCast]
  have hsign : n.sign = 1 := Int.sign_eq_one_of_pos (lt_of_le_of_ne hn (Ne.symm hz))
  simp only [roundRatio, hz, if_false, ilog2Ratio_one _ ha, F64.val, hsign, one_mul]
  obtain ⟨K, hK⟩ : ∃ K : Nat, ilog2 n.natAbs = 52 + (K + 1) := ⟨ilog2 n.natAbs - 53, by omega⟩
  have hk : (ilog2 n.natAbs : Int) - 52 = ((K + 1 : Nat) : Int) := by
    rw [hK]
    push_cast
    ring
  rw [hk]
  simp only [Int.natCast_nonneg, if_true, Int.toNat_ofNat, one_mul]
  have hstep := round_step_ge n.natAbs (2 ^ (K + 1))
  generalize hm : (if 2 * (n.natAbs % 2 ^ (K + 1)) < 2 ^ (K + 1) then n.natAbs / 2 ^ (K + 1)
      else if 2 ^ (K + 1) < 2 * (n.natAbs % 2 ^ (K + 1)) then n.natAbs / 2 ^ (K + 1) + 1
      else if n.natAbs / 2 ^ (K + 1) % 2 = 0 then n.natAbs / 2 ^ (K + 1)
      else n.natAbs / 2 ^ (K + 1) + 1) = m at hstep
  have hq52 : 2 ^ 52 ≤ n.natAbs / 2 ^ (K + 1) := by
    rw [Nat.le_div_iff_mul_le (by positivity)]
    rw [hK, Nat.pow_add] at hlo
    exact hlo
  have hm52 : 2 ^ 52 ≤ m := le_trans hq52 hstep
  rw [Int.cast_natCast]
  by_cases hks : 0 ≤ ((K + 1 : Nat) : Int) + s
  · have h1 : (1 : ℚ) ≤ (2 : ℚ) ^ (((K + 1 : Nat) : Int) + s) :=
      one_le_zpow₀ (by norm_num) hks
    have h2 : (I : ℚ) ≤ (m : ℚ) := by exact_mod_cast le_trans hI52 hm52
    have h3 : (0 : ℚ) ≤ (m : ℚ) := by positivity
    calc (I : ℚ) ≤ (m : ℚ) := h2
      _ = (m : ℚ) * 1 := (mul_one _).symm
      _ ≤ (m : ℚ) * (2 : ℚ) ^ (((K + 1 : Nat) : Int) + s) := mul_le_mul_of_nonneg_left h1 h3
  · have hneg : 0 ≤ -(((K + 1 : Nat) : Int) + s) := by omega
    obtain ⟨t, ht⟩ : ∃ t : Nat, -(((K + 1 : Nat) : Int) + s) = (t : Int) :=
      ⟨(-(((K + 1 : Nat) : Int) + s)).toNat, (Int.toNat_of_nonneg hneg).symm⟩
    have hs : s = -((t + (K + 1) : Nat) : Int) := by
      push_cast
      push_cast at ht
      omega
    have hks' : ((K + 1 : Nat) : Int) + s = -(t : Int) := by omega
    rw [hks', zpow_neg, zpow_natCast]
    rw [hs, zpow_neg, zpow_natCast, hnq] at hI
    have hpt : (0 : ℚ) < (2 : ℚ) ^ t := by positivity
    have hptk : (0 : ℚ) < (2 : ℚ) ^ (t + (K + 1)) := by positivity
    rw [← div_eq_mul_inv, le_div_iff₀ hptk] at hI
    have hI' : I * 2 ^ (t + (K + 1)) ≤ n.natAbs := by exact_mod_cast hI
    have hJ : I * 2 ^ t ≤ n.natAbs / 2 ^ (K + 1) := by
      rw [Nat.le_div_iff_mul_le (by positivity), mul_assoc, ← Nat.pow_add]
      exact hI'
    have hJm : I * 2 ^ t ≤ m := le_trans hJ hstep
    rw [← div_eq_mul_inv, le_div_iff₀ hpt]
    exact_mod_cast hJm

theorem add_ge_nat (x y : F64) (I : Nat) (hI : (I : ℚ) ≤ x.val + y.val) (hI52 : I ≤ 2 ^ 52) :
    (I : ℚ) ≤ (F64.add x y).val := by
  have e : ((x.man * 2 ^ (x.exp - min x.exp y.exp).toNat
      + y.man * 2 ^ (y.exp - min x.exp y.exp).toNat : Int) : ℚ) * (2 : ℚ) ^ (min x.exp y.exp)
      = x.val + y.val := by
    rw [Int.cast_add, add_mul, shift_val _ _ _ (min_le_left _ _),
      shift_val _ _ _ (min_le_right _ _)]
    rfl
  have hp := two_zpow_pos (min x.exp y.exp)
  have hN : 0 ≤ x.man * 2 ^ (x.exp - min x.exp y.exp).toNat
      + y.man * 2 ^ (y.exp - min x.exp y.exp).toNat := by
    by_contra hc
    push_neg at hc
    have h1 : ((x.man * 2 ^ (x.exp - min x.exp y.exp).toNat
      + y.man * 2 ^ (y.exp - min x.exp y.exp).toNat : Int) : ℚ) < 0 := by exact_mod_cast hc
    have h2 := mul_neg_of_neg_of_pos h1 hp
    have h3 : (0 : ℚ) ≤ (I : ℚ) := by positivity
    linarith
  simp only [F64.add]
  exact roundRatio_ge_nat _ _ I hN (by rw [e]; exact hI) hI52

/-- The whole seconds of a non-negative duration of at most a hundred days. -/
theorem Seconds_trunc_nonneg (d : Int) (h0 : 0 ≤ d) (h : d ≤ 8640000 * Second) :
    F64.toInt (Seconds d) = d / 1000000000 := by
  rw [Second_val] at h
  have hsec : Int.tdiv d Second = d / 1000000000 ∧ Int.tmod d Second = d % 1000000000 := by
    rw [Second_val]
    exact ⟨Int.tdiv_eq_ediv h0 (by norm_num), Int.tmod_eq_emod h0 (by norm_num)⟩
  obtain ⟨S, hS⟩ : ∃ S : Nat, d / 1000000000 = (S : Int) :=
    ⟨(d / 1000000000).toNat, (Int.toNat_of_nonneg (by omega)).symm⟩
  obtain ⟨R, hR⟩ : ∃ R : Nat, d % 1000000000 = (R : Int) :=
    ⟨(d % 1000000000).toNat, (Int.toNat_of_nonneg (by omega)).symm⟩
  have hSle : S ≤ 8640000 := by omega
  have hRle : R ≤ 999999999 := by omega
  have hform : Seconds d
      = F64.add (F64.ofInt (S : Int)) (F64.div (F64.ofInt (R : Int)) (F64.ofInt 1000000000)) := by
    simp only [Seconds, hsec.1, hsec.2, hS, hR]
  have hX : (F64.ofInt (S : Int)).val = (S : ℚ) := by
    rw [(ofInt_exact (S : Int) (by rw [Int.natAbs_ofNat]; omega)).1, Int.cast_natCast]
  have hN : (F64.ofInt (R : Int)).val = (R : ℚ) := by
    rw [(ofInt_exact (R : Int) (by rw [Int.natAbs_ofNat]; omega)).1, Int.cast_natCast]
  have hD : (F64.ofInt 1000000000).val = 1000000000 := by
    rw [ofInt_billion]
    norm_num [F64.val, zpow_neg]
  have heps : (2 : ℚ) ^ (-53 : Int) = 1 / 9007199254740992 := by norm_num [zpow_neg]
  have hSq : (S : ℚ) ≤ 8640000 := by exact_mod_cast hSle
  have hS0 : (0 : ℚ) ≤ (S : ℚ) := by positivity
  have hRq : (R : ℚ) ≤ 999999999 := by exact_mod_cast hRle
  have hR0 : (0 : ℚ) ≤ (R : ℚ) := by positivity
  -- the fraction of a second
  have hY := div_err (F64.ofInt (R : Int)) (F64.ofInt 1000000000)
    (by rw [ofInt_billion]; decide)
  rw [hN, hD, heps, abs_of_nonneg (by positivity : (0 : ℚ) ≤ (R : ℚ) / 1000000000)] at hY
  rw [abs_le] at hY
  generalize (F64.div (F64.ofInt (R : Int)) (F64.ofInt 1000000000)) = Y at hY hform
  have hYlo : 0 ≤ Y.val := by
    have : (0 : ℚ) ≤ (R : ℚ) / 1000000000 * (1 - 1 / 9007199254740992) := by positivity
    linarith [hY.1]
  have hYhi : Y.val ≤ 999999999 / 1000000000 * (1 + 1 / 9007199254740992) := by
    have h1 : Y.val ≤ (R : ℚ) / 1000000000 * (1 + 1 / 9007199254740992) := by linarith [hY.2]
    have h2 : (R : ℚ) / 1000000000 * (1 + 1 / 9007199254740992)
        ≤ 999999999 / 1000000000 * (1 + 1 / 9007199254740992) := by
      apply mul_le_mul_of_nonneg_right _ (by norm_num)
      exact div_le_div_of_nonneg_right hRq (by norm_num)
    exact le_trans h1 h2
  -- the sum
  have hZ := add_err (F64.ofInt (S : Int)) Y
  rw [hX, heps, abs_of_nonneg (by linarith : (0 : ℚ) ≤ (S : ℚ) + Y.val)] at hZ
  rw [abs_le] at hZ
  have hlo : (S : ℚ) ≤ (F64.add (F64.ofInt (S : Int)) Y).val :=
    add_ge_nat _ _ S (by rw [hX]; linarith) (by omega)
  have hhi : (F64.add (F64.ofInt (S : Int)) Y).val < (S : ℚ) + 1 := by
    have h1 : (F64.add (F64.ofInt (S : Int)) Y).val
        ≤ ((S : ℚ) + Y.val) * (1 + 1 / 9007199254740992) := by linarith [hZ.2]
    have h2 : ((S : ℚ) + Y.val) * (1 + 1 / 9007199254740992)
        ≤ ((S : ℚ) + 999999999 / 1000000000 * (1 + 1 / 9007199254740992))
          * (1 + 1 / 9007199254740992) :=
      mul_le_mul_of_nonneg_right (by linarith) (by norm_num)
    have h3 : ((S : ℚ) + 999999999 / 1000000000 * (1 + 1 / 9007199254740992))
          * (1 + 1 / 9007199254740992) < (S : ℚ) + 1 := by
      have : (S : ℚ) * (1 / 9007199254740992) ≤ 8640000 * (1 / 9007199254740992) :=
        mul_le_mul_of_nonneg_right hSq (by norm_num)
      nlinarith
    linarith
  rw [hform, toInt_of_val _ S hlo hhi, hS]

/-- The whole seconds of a duration of at most a hundred days in size: the
nanoseconds divided by `Second`, truncated toward zero. -/
theorem Seconds_trunc (d : Int) (h : |d| ≤ 8640000 * Second) :
    F64.toInt (Seconds d) = Int.tdiv d Second := by
  rw [abs_le] at h
  rcases le_or_lt 0 d with h0 | h0
  · rw [Seconds_trunc_nonneg d h0 h.2, Second_val, Int.tdiv_eq_ediv h0 (by norm_num)]
  · have h1 := Seconds_trunc_nonneg (-d) (by omega) (by omega)
    have h2 := Seconds_toInt_neg d
    rw [h1] at h2
    have h3 : Int.tdiv d Second = -((-d) / 1000000000) := by
      have := Int.neg_tdiv (-d) Second
      rw [neg_neg] at this
      rw [this, Second_val, Int.tdiv_eq_ediv (by omega) (by norm_num)]
    rw [h3]
    omega

/-! ## The offset of the zone of a duration -/

/-- C20: for every duration `d` of at most 24 hours in size, `ToTimeZoneE d` succeeds
with a zone whose offset is the nanosecond count divided by `10^9`, truncated toward
zero; `ToTimeZone` gives the same zone. -/
theorem zone_offset_truncates (env : Env) (d : Int) (h : |d| ≤ 24 * Hour) :
    ∃ name, ToTimeZoneE env (GoAny.duration d)
        = Outcome.ok (some (FixedZone name (Int.tdiv d Second))) ∧
      ToTimeZone env (GoAny.duration d) = Except.ok (some (FixedZone name (Int.tdiv d Second))) := by
  have hb : |d| ≤ 8640000 * Second := by
    rw [Hour_val] at h
    rw [Second_val]
    omega
  have e : ToTimeZoneE env (GoAny.duration d) = durationToLocationE d := rfl
  unfold ToTimeZone
  rw [e]
  simp only [durationToLocationE, Seconds_trunc d hb]
  exact ⟨_, rfl, rfl⟩

theorem zone_offset_truncates_witness :
    ∃ name, ToTimeZoneE (sampleEnv 0) (GoAny.duration (-1500000000))
        = Outcome.ok (some (FixedZone name (-1))) ∧
      ToTimeZone (sampleEnv 0) (GoAny.duration (-1500000000))
        = Except.ok (some (FixedZone name (-1))) :=
  zone_offset_truncates (sampleEnv 0) (-1500000000) (by decide)

/-! ## Integers as durations and as zones -/

/-- C21: at an unsigned 64-bit integer `v`, `ToDurationE` succeeds with the duration
whose nanosecond count is `v` read as a two's-complement signed 64-bit integer: `v`
below `2^63`, and `v - 2^64` from `2^63` on. -/
theorem uint64_is_reinterpreted (env : Env) (v : Int) (h0 : 0 ≤ v)
    (h1 : v < 18446744073709551616) :
    ToDurationE env (GoAny.uint64 v)
      = Outcome.ok (if v < 9223372036854775808 then v else v - 18446744073709551616) := by
  show Outcome.ok (wrap64 v) = _
  unfold wrap64
  split
  · congr 1
    omega
  · congr 1
    omega

theorem uint64_is_reinterpreted_witness :
    ToDurationE (sampleEnv 0) (GoAny.uint64 18446744073709551615) = Outcome.ok (-1) ∧
    ToDurationE (sampleEnv 0) (GoAny.uint64 9223372036854775808)
      = Outcome.ok (-9223372036854775808) ∧
    ToDurationE (sampleEnv 0) (GoAny.uint64 9223372036854775807)
      = Outcome.ok 9223372036854775807 :=
  ⟨uint64_is_reinterpreted (sampleEnv 0) 18446744073709551615 (by decide) (by decide),
    uint64_is_reinterpreted (sampleEnv 0) 9223372036854775808 (by decide) (by decide),
    uint64_is_reinterpreted (sampleEnv 0) 9223372036854775807 (by decide) (by decide)⟩

/-- The label of the zone of a duration is never the plain `UTC`: a sign follows. -/
theorem durationToLocationE_label_ne (d : Int) :
    ∃ loc, durationToLocationE d = Outcome.ok (some loc) ∧ 4 ≤ loc.name.length ∧
      loc.name ≠ UTC := by
  simp only [durationToLocationE]
  refine ⟨_, rfl, ?_⟩
  have hlen : ∀ l : List Char, 4 ≤ l.length → 4 ≤ l.length ∧ l ≠ UTC := by
    intro l hl
    refine ⟨hl, ?_⟩
    intro e
    rw [e] at hl
    simp [UTC] at hl
  apply hlen
  simp only [FixedZone]
  split_ifs <;> simp only [List.length_append, List.length_cons, List.length_nil, UTC] <;> omega

/-- C26: at an integer `n` of any signed or unsigned type (in the 64-bit range of
`int`), `ToTimeZoneE` succeeds with the zone of offset `n` seconds and label `UTC`, and
`ToDurationE` succeeds with `n` nanoseconds; the zone of a duration, that of `n`
seconds included, never has the label `UTC`. -/
theorem integer_is_seconds_for_zone (env : Env) (n : Int) (hn : inInt64 n) :
    (∀ a ∈ [GoAny.int n, GoAny.int8 n, GoAny.int16 n, GoAny.int32 n, GoAny.int64 n,
        GoAny.uint n, GoAny.uint8 n, GoAny.uint16 n, GoAny.uint32 n, GoAny.uint64 n],
      ToTimeZoneE env a = Outcome.ok (some (FixedZone UTC n)) ∧
      ToDurationE env a = Outcome.ok n) ∧
    (∃ loc, ToTimeZoneE env (GoAny.duration (dmul n Second)) = Outcome.ok (some loc) ∧
      loc.name ≠ UTC) := by
  have hw := wrap64_of_inInt64 n hn
  constructor
  · intro a ha
    simp only [List.mem_cons, List.mem_singleton, List.not_mem_nil, or_false] at ha
    rcases ha with h | h | h | h | h | h | h | h | h | h <;> subst h <;>
      simp only [ToTimeZoneE, ToDurationE, indirectToStringerOrError, utcZone, hw, and_self]
  · obtain ⟨loc, h1, _, h3⟩ := durationToLocationE_label_ne (dmul n Second)
    exact ⟨loc, h1, h3⟩

theorem integer_is_seconds_for_zone_witness :
    (∀ a ∈ [GoAny.int 100, GoAny.int8 100, GoAny.int16 100, GoAny.int32 100,
        GoAny.int64 100, GoAny.uint 100, GoAny.uint8 100, GoAny.uint16 100,
        GoAny.uint32 100, GoAny.uint64 100],
      ToTimeZoneE (sampleEnv 0) a = Outcome.ok (some (FixedZone UTC 100)) ∧
      ToDurationE (sampleEnv 0) a = Outcome.ok 100) ∧
    (∃ loc, ToTimeZoneE (sampleEnv 0) (GoAny.duration (dmul 100 Second))
        = Outcome.ok (some loc) ∧ loc.name ≠ UTC) :=
  integer_is_seconds_for_zone (sampleEnv 0) 100 (by decide)

/-! ## Labels and offsets -/

/-- C23: the label does not determine the offset: eight hours and five seconds, and
eight hours and five minutes, have different offsets and the same label `UTC+08:05`. -/
theorem label_does_not_determine_offset :
    ∃ z1 z2 : Location,
      durationToLocationE (8 * Hour + 5 * Second) = Outcome.ok (some z1) ∧
      durationToLocationE (8 * Hour + 5 * Minute) = Outcome.ok (some z2) ∧
      z1.offsetAt 0 = 28805 ∧ z2.offsetAt 0 = 29100 ∧
      z1.name = "UTC+08:05".toList ∧ z2.name = "UTC+08:05".toList :=
  ⟨FixedZone "UTC+08:05".toList 28805, FixedZone "UTC+08:05".toList 29100,
    rfl, rfl, rfl, rfl, rfl, rfl⟩

/-- C28: for every duration of less than one second in size, zero included,
`ToTimeZoneE` returns the zone of offset 0 with the label `UTC+`, which is not the
label `UTC`. -/
theorem sub_second_zone (env : Env) (d : Int) (h : |d| < Second) :
    ToTimeZoneE env (GoAny.duration d) = Outcome.ok (some (FixedZone "UTC+".toList 0)) ∧
    "UTC+".toList ≠ UTC :=
  ⟨durationToLocationE_small d h, by decide⟩

theorem sub_second_zone_witness :
    ToTimeZoneE (sampleEnv 0) (GoAny.duration (-999999999))
        = Outcome.ok (some (FixedZone "UTC+".toList 0)) ∧
      "UTC+".toList ≠ UTC :=
  sub_second_zone (sampleEnv 0) (-999999999) (by decide)

/-- C25 (as the code behaves): a duration of `k` whole seconds, of at most 24 hours
in size, becomes a zone of offset `k` seconds, and `ToDurationE` at that zone
returns `k` nanoseconds, not the duration. -/
theorem zone_back_to_duration (env : Env) (k : Int) (hk : |k| ≤ 86400) :
    ∃ loc, ToTimeZoneE env (GoAny.duration (k * Second)) = Outcome.ok (some loc) ∧
      ToDurationE env (GoAny.locationPtr (some loc)) = Outcome.ok k ∧
      ToDurationE env (GoAny.location loc) = Outcome.ok k := by
  have hb : |k * Second| ≤ 8640000 * Second := by
    rw [Second_val, abs_le] at *
    constructor <;> omega
  have ht : Int.tdiv (k * Second) Second = k := by
    rw [Second_val]
    exact Int.mul_tdiv_cancel k (by norm_num)
  have hw : wrap64 k = k := by
    apply wrap64_of_inInt64
    unfold inInt64 minInt64 maxInt64
    rw [abs_le] at hk
    omega
  have e : ToTimeZoneE env (GoAny.duration (k * Second)) = durationToLocationE (k * Second) :=
    rfl
  rw [e]
  simp only [durationToLocationE, Seconds_trunc _ hb, ht]
  refine ⟨_, rfl, ?_, ?_⟩
  · show Outcome.ok (wrap64 k) = _
    rw [hw]
  · show Outcome.ok (wrap64 k) = _
    rw [hw]

theorem zone_back_to_duration_witness :
    ∃ loc, ToTimeZoneE (sampleEnv 0) (GoAny.duration (3600 * Second))
        = Outcome.ok (some loc) ∧
      ToDurationE (sampleEnv 0) (GoAny.locationPtr (some loc)) = Outcome.ok 3600 ∧
      ToDurationE (sampleEnv 0) (GoAny.location loc) = Outcome.ok 3600 :=
  zone_back_to_duration (sampleEnv 0) 3600 (by decide)

/-! ## The names of the time-format types -/

/-- C29: `String` never indexes out of range: for `i` from 0 to 4 it returns the
`i`-th of the five names, which are pairwise distinct, and for every other `i` the
text `timeFormatType(`, the decimal digits of `i`, `)`; the index table increases
strictly from 0 to 119, the length of the text of the names. -/
theorem String_of_TimeFormatType (i : Int) :
    TimeFormatType.String i
      = Except.ok (if 0 ≤ i ∧ i < 5 then timeFormatTypeNames.getD i.toNat []
          else "timeFormatType(".toList ++ FormatInt i ++ ")".toList) ∧
    timeFormatTypeNames.Nodup ∧ timeFormatTypeNames.length = 5 ∧
    _timeFormatTypeIndex.Pairwise (fun a b => a < b) ∧
    _timeFormatTypeIndex.head? = some 0 ∧
    _timeFormatTypeIndex.getLast? = some 119 ∧ _timeFormatTypeName.length = 119 ∧
    [TimeFormatNoTimezone, TimeFormatNamedTimezone, TimeFormatNumericTimezone,
      TimeFormatNumericAndNamedTimezone, TimeFormatTimeOnly] = [0, 1, 2, 3, 4] := by
  refine ⟨?_, by decide, rfl, by decide, rfl, rfl, by decide, rfl⟩
  by_cases h : 0 ≤ i ∧ i < 5
  · rw [if_pos h]
    obtain ⟨h0, h5⟩ := h
    have hc : i = 0 ∨ i = 1 ∨ i = 2 ∨ i = 3 ∨ i = 4 := by omega
    set_option maxRecDepth 4000 in
    rcases hc with e | e | e | e | e <;> subst e <;> rfl
  · rw [if_neg h]
    have hg : i < 0 ∨ i ≥ ((_timeFormatTypeIndex.length : Int) - 1) := by
      have : ((_timeFormatTypeIndex.length : Int) - 1) = 5 := by decide
      rw [this]
      omega
    simp only [TimeFormatType.String, if_pos hg]

/-! ## Text after the groups -/

/-- What `regexpStringToDurationE` makes of a text without a blank that ends in no
digit, given the texts of the nine groups and the numbers read from them. -/
theorem regexp_of_captures (env : Env) (str : List Char) (caps : List (List Char))
    (hsp : ' ' ∉ str) (c : Char) (hlast : str.getLast? = some c) (hc : isDigit c = false)
    (hcaps : (FindStringSubmatch durationRegExp str).drop 1 = caps)
    (n0 n1 n2 n3 n4 n5 n6 n7 n8 : Int)
    (hnums : parseNums env str caps = Outcome.ok [n0, n1, n2, n3, n4, n5, n6, n7, n8]) :
    regexpStringToDurationE env str = Outcome.ok (applyNums env.now n0 n1 n2 n3 n4 n5 n6 n7 n8) := by
  have hlen : (FindStringSubmatch durationRegExp str).length ≠ 0 := by
    rw [FindStringSubmatch_length]
    decide
  simp only [regexpStringToDurationE, afterFirstSpace_none _ hsp, hlast, hc]
  simp only [Bool.false_eq_true, if_false, hlen, hcaps, hnums]

/-- C27: the pattern is matched at the head of the input and what follows the match is
ignored: when `ToInt64E` reads `1` as 1, the input `1s1H`, whose hours group comes
after its seconds group, is converted without an error to one second, the value of the
input `1s`. -/
theorem text_after_groups_ignored (env : Env) (h1 : env.ToInt64E ['1'] = Except.ok 1) :
    ToDurationE env (GoAny.string "1s1H".toList) = Outcome.ok Second ∧
    ToDurationE env (GoAny.string "1s".toList) = Outcome.ok Second ∧
    (FindStringSubmatch durationRegExp "1s1H".toList).head? = some "1s".toList := by
  have ha : applyNums env.now 0 0 0 0 0 1 0 0 0 = Second := by
    rw [applyNums_flat _ _ _ _ _ _ _ (by decide) (by decide) (by decide) (by decide)
      (by decide) (by decide) (by decide)]
    decide
  have hp : ∀ str, parseNums env str [[], [], [], [], [], ['1', 's'], [], [], []]
      = Outcome.ok [0, 0, 0, 0, 0, 1, 0, 0, 0] := by
    intro str
    have hs : stripNonDigits ['1', 's'] = some ['1'] := by decide
    simp [parseNums, hs, h1]
  have e1 := regexp_of_captures env "1s1H".toList _ (by decide) 'H' (by decide) (by decide)
    (by decide) 0 0 0 0 0 1 0 0 0 (hp _)
  have e2 := regexp_of_captures env "1s".toList _ (by decide) 's' (by decide) (by decide)
    (by decide) 0 0 0 0 0 1 0 0 0 (hp _)
  rw [ha] at e1 e2
  refine ⟨?_, ?_, by decide⟩
  · show stringToDurationE env "1s1H".toList = _
    simp only [String.toList, stringToDurationE] at e1 ⊢
    rw [if_pos (by decide), e1]
    rfl
  · show stringToDurationE env "1s".toList = _
    simp only [String.toList, stringToDurationE] at e2 ⊢
    rw [if_pos (by decide), e2]
    rfl

theorem text_after_groups_ignored_witness :
    ToDurationE (sampleEnv 0) (GoAny.string "1s1H".toList) = Outcome.ok Second ∧
    ToDurationE (sampleEnv 0) (GoAny.string "1s".toList) = Outcome.ok Second ∧
    (FindStringSubmatch durationRegExp "1s1H".toList).head? = some "1s".toList :=
  text_after_groups_ignored (sampleEnv 0) rfl

/-! ## The texts the groups capture -/

theorem groupOK_durationRegExp : durationRegExp.all groupOK = true := by decide

theorem digitsLoop_shape {β : Type} (k : List Char → Option β) (s : List Char) (r : β)
    (h : digitsLoop k s = some r) :
    ∃ ds rest, s = ds ++ rest ∧ (∀ c ∈ ds, isDigit c = true) ∧ k rest = some r := by
  induction s with
  | nil => exact ⟨[], [], rfl, by simp, by simpa [digitsLoop] using h⟩
  | cons c cs ih =>
    simp only [digitsLoop] at h
    split at h
    · rename_i hc
      cases hd : digitsLoop k cs with
      | some x =>
        rw [hd] at h
        simp only [orElse] at h
        obtain ⟨ds, rest, e, hds, hk⟩ := ih (hd.trans h)
        refine ⟨c :: ds, rest, by rw [e]; rfl, ?_, hk⟩
        intro c' hc'
        rcases List.mem_cons.1 hc' with rfl | hm
        · exact hc
        · exact hds c' hm
      | none =>
        rw [hd] at h
        simp only [orElse] at h
        exact ⟨[], c :: cs, rfl, by simp, h⟩
    · exact ⟨[], c :: cs, rfl, by simp, h⟩

theorem unitAtoms_shape {β : Type} (us : List Atom) (hus : unitAtoms us = true)
    (k : List Char → Option β) (s : List Char) (r : β) (h : matchAtoms us k s = some r) :
    ∃ u rest, s = u ++ rest ∧ u.length = us.length ∧ (∀ c ∈ u, isDigit c = false) ∧
      k rest = some r := by
  induction us generalizing s with
  | nil => exact ⟨[], s, rfl, rfl, by simp, by simpa [matchAtoms] using h⟩
  | cons a rest ih =>
    cases a with
    | one cls =>
      simp only [unitAtoms, Bool.and_eq_true] at hus
      cases s with
      | nil => simp [matchAtoms] at h
      | cons c cs =>
        simp only [matchAtoms] at h
        split at h
        · rename_i hc
          obtain ⟨u, rest', e, hlen, hu, hk⟩ := ih hus.2 cs h
          refine ⟨c :: u, rest', by rw [e]; rfl, by simp [hlen], ?_, hk⟩
          intro c' hc'
          rcases List.mem_cons.1 hc' with rfl | hm
          · have hmem : c' ∈ cls := by simpa using hc
            have := List.all_eq_true.1 hus.1 c' hmem
            simpa using this
          · exact hu c' hm
        · simp at h
    | opt cls => simp [unitAtoms] at hus
    | digits => simp [unitAtoms] at hus

theorem digits_units_shape {β : Type} (us : List Atom) (hus : unitAtoms us = true)
    (k : List Char → Option β) (s : List Char) (r : β)
    (h : matchAtoms (Atom.digits :: us) k s = some r) :
    ∃ ds u rest, s = ds ++ u ++ rest ∧ ds ≠ [] ∧ (∀ c ∈ ds, isDigit c = true) ∧
      u.length = us.length ∧ (∀ c ∈ u, isDigit c = false) ∧ k rest = some r := by
  cases s with
  | nil => simp [matchAtoms] at h
  | cons c cs =>
    simp only [matchAtoms] at h
    split at h
    · rename_i hc
      obtain ⟨ds, rest1, e1, hds, h1⟩ := digitsLoop_shape _ _ _ h
      obtain ⟨u, rest, e2, hlen, hu, hk⟩ := unitAtoms_shape us hus k rest1 r h1
      refine ⟨c :: ds, u, rest, ?_, by simp, ?_, hlen, hu, hk⟩
      · rw [e1, e2]
        simp
      · intro c' hc'
        rcases List.mem_cons.1 hc' with rfl | hm
        · exact hc
        · exact hds c' hm
    · simp at h

theorem group_shape {β : Type} (g : List Atom) (hg : groupOK g = true)
    (k : List Char → Option β) (s : List Char) (r : β) (h : matchAtoms g k s = some r) :
    ∃ cap sign ds unit rest, s = cap ++ rest ∧ isCapture cap sign ds unit ∧ k rest = some r := by
  match g, hg with
  | Atom.opt sc :: Atom.digits :: u :: us, hg =>
    simp only [groupOK, Bool.and_eq_true, beq_iff_eq] at hg
    obtain ⟨hsc, hus⟩ := hg
    have hne : ∀ v : List Char, v.length = (u :: us).length → v ≠ [] := by
      intro v hv e
      rw [e] at hv
      simp at hv
    have skip : matchAtoms (Atom.digits :: u :: us) k s = some r →
        ∃ cap sign ds unit rest, s = cap ++ rest ∧ isCapture cap sign ds unit ∧
          k rest = some r := by
      intro h2
      obtain ⟨ds, un, rest, e, hds0, hds, hlen, hu, hk⟩ := digits_units_shape _ hus k s r h2
      exact ⟨ds ++ un, [], ds, un, rest, e, ⟨rfl, by simp, by simp, hds0, hds, hne un hlen, hu⟩, hk⟩
    simp only [matchAtoms] at h
    cases s with
    | nil =>
      simp only [orElse] at h
      exact skip (by simp only [matchAtoms]; exact h)
    | cons c cs =>
      by_cases hc : sc.contains c = true
      · simp only [hc, if_true] at h
        cases h1 : matchAtoms (Atom.digits :: u :: us) k cs with
        | some x =>
          simp only [matchAtoms] at h1
          rw [h1] at h
          simp only [orElse, Option.some.injEq] at h
          subst h
          have h1' : matchAtoms (Atom.digits :: u :: us) k cs = some x := by
            simpa [matchAtoms] using h1
          obtain ⟨ds, un, rest, e, hds0, hds, hlen, hu, hk⟩ :=
            digits_units_shape _ hus k cs x h1'
          refine ⟨c :: (ds ++ un), [c], ds, un, rest, by rw [e]; simp, ⟨by simp, by simp, ?_,
            hds0, hds, hne un hlen, hu⟩, hk⟩
          intro c' hc'
          simp only [List.mem_singleton] at hc'
          subst hc'
          rw [← hsc]
          exact hc
        | none =>
          simp only [matchAtoms] at h1
          rw [h1] at h
          simp only [orElse] at h
          exact skip (by simpa [matchAtoms] using h)
      · simp only [hc, if_false, orElse] at h
        exact skip (by simpa [matchAtoms] using h)

theorem matchGroups_shape (gs : List (List Atom)) (hgs : gs.all groupOK = true) (s : List Char)
    (r : List (List Char) × List Char) (h : matchGroups gs s = some r) :
    ∀ cap ∈ r.1, cap = [] ∨ ∃ sign ds unit, isCapture cap sign ds unit := by
  induction gs generalizing s r with
  | nil =>
    simp only [matchGroups, Option.some.injEq] at h
    rw [← h]
    simp
  | cons g gs ih =>
    simp only [List.all_cons, Bool.and_eq_true] at hgs
    simp only [matchGroups] at h
    cases h1 : matchAtoms g
        (fun rest => (matchGroups gs rest).map (fun r => (consumed s rest :: r.1, r.2))) s with
    | some x =>
      rw [h1] at h
      simp only [orElse, Option.some.injEq] at h
      obtain ⟨cap, sign, ds, un, rest, e, hshape, hrest⟩ := group_shape g hgs.1 _ _ _ h1
      cases h2 : matchGroups gs rest with
      | none => simp [h2] at hrest
      | some y =>
        simp only [h2, Option.map_some', Option.some.injEq] at hrest
        rw [← h, ← hrest]
        intro c hc
        rcases List.mem_cons.1 hc with rfl | hm
        · right
          rw [e, consumed_append]
          exact ⟨sign, ds, un, hshape⟩
        · exact ih hgs.2 _ _ h2 c hm
    | none =>
      rw [h1] at h
      simp only [orElse] at h
      cases h2 : matchGroups gs s with
      | none => simp [h2] at h
      | some y =>
        simp only [h2, Option.map_some', Option.some.injEq] at h
        rw [← h]
        intro c hc
        rcases List.mem_cons.1 hc with rfl | hm
        · exact Or.inl rfl
        · exact ih hgs.2 _ _ h2 c hm

/-- The stripping loop on the text of a matched group stops at the last digit. -/
theorem stripNonDigits_capture (cap sign ds unit : List Char)
    (h : isCapture cap sign ds unit) :
    stripNonDigits cap = some (sign ++ ds) ∧
      ∃ d, (sign ++ ds).getLast? = some d ∧ isDigit d = true := by
  obtain ⟨e, _, _, hne, hds, _, hu⟩ := h
  have hrev : ds.reverse ≠ [] := by simpa using hne
  cases hr : ds.reverse with
  | nil => exact absurd hr hrev
  | cons c cs =>
    have hc : isDigit c = true := by
      apply hds
      have : c ∈ ds.reverse := by rw [hr]; simp
      exact List.mem_reverse.1 this
    have hlast : (sign ++ ds).getLast? = some c := by
      have e2 : sign ++ ds = (sign ++ cs.reverse) ++ [c] := by
        have : ds = cs.reverse ++ [c] := by
          have := congrArg List.reverse hr
          simpa using this
        rw [this, List.append_assoc]
      rw [e2, List.getLast?_append]
      rfl
    refine ⟨?_, c, hlast, hc⟩
    subst e
    simp only [stripNonDigits, List.reverse_append]
    rw [stripNonDigitsRev_append _ _ (fun c hc => hu c (List.mem_reverse.1 hc)), hr]
    simp only [List.cons_append, stripNonDigitsRev, hc, if_true, Option.map_some',
      Option.some.injEq]
    have e3 : c :: cs.append sign.reverse = (sign ++ ds).reverse := by
      rw [List.reverse_append, hr]
      rfl
    rw [e3, List.reverse_reverse]

/-- The number loop does not panic on texts the pattern captures. -/
theorem parseNums_no_panic (env : Env) (str : List Char) (caps : List (List Char))
    (h : ∀ cap ∈ caps, cap = [] ∨ ∃ sign ds unit, isCapture cap sign ds unit) :
    ∀ p, parseNums env str caps ≠ Outcome.panic p := by
  induction caps with
  | nil => simp [parseNums]
  | cons cap rest ih =>
    have hrest := ih (fun c hc => h c (List.mem_cons_of_mem _ hc))
    intro p
    simp only [parseNums]
    split
    · cases hp : parseNums env str rest with
      | panic q => exact absurd hp (hrest q)
      | ret v err => cases err <;> simp
    · rename_i hlen
      rcases h cap (List.mem_cons_self _ _) with e | ⟨sign, ds, un, hshape⟩
      · rw [e] at hlen
        simp at hlen
      · rw [(stripNonDigits_capture cap sign ds un hshape).1]
        simp only
        cases env.ToInt64E (sign ++ ds) with
        | error err => simp
        | ok n =>
          cases hp : parseNums env str rest with
          | panic q => exact absurd hp (hrest q)
          | ret v err => cases err <;> simp

/-- C22: every non-empty text a group of the pattern captures, in any input, is an
optional character of the sign class, one or more digits and a unit of characters that
are no digits; on it the stripping loop stops with the sign-and-digits part, which is
not empty and ends in a digit, so the loop over the groups never indexes an empty text
(it does not panic). -/
theorem strip_loop_keeps_digits (env : Env) (str : List Char) :
    (∀ cap ∈ (FindStringSubmatch durationRegExp str).drop 1, cap ≠ [] →
      ∃ sign ds unit, cap = sign ++ ds ++ unit ∧ sign.length ≤ 1 ∧
        (∀ c ∈ sign, signClass.contains c = true) ∧
        ds ≠ [] ∧ (∀ c ∈ ds, isDigit c = true) ∧
        unit ≠ [] ∧ (∀ c ∈ unit, isDigit c = false) ∧
        stripNonDigits cap = some (sign ++ ds) ∧
        ∃ d, (sign ++ ds).getLast? = some d ∧ isDigit d = true) ∧
    (∀ text p,
      parseNums env text ((FindStringSubmatch durationRegExp str).drop 1) ≠ Outcome.panic p) := by
  obtain ⟨r, hr⟩ := matchGroups_isSome durationRegExp str
  have hshape := matchGroups_shape durationRegExp groupOK_durationRegExp str r hr
  rw [FindStringSubmatch_of_match _ _ _ hr]
  simp only [List.drop_succ_cons, List.drop_zero]
  constructor
  · intro cap hcap hne
    rcases hshape cap hcap with e | ⟨sign, ds, un, hs⟩
    · exact absurd e hne
    · obtain ⟨h1, h2⟩ := stripNonDigits_capture cap sign ds un hs
      obtain ⟨a1, a2, a3, a4, a5, a6, a7⟩ := hs
      exact ⟨sign, ds, un, a1, a2, a3, a4, a5, a6, a7, h1, h2⟩
  · intro text p
    exact parseNums_no_panic env text r.1 hshape p

theorem strip_loop_keeps_digits_witness :
    (∃ sign ds unit, "-12h".toList = sign ++ ds ++ unit ∧ sign.length ≤ 1 ∧
        (∀ c ∈ sign, signClass.contains c = true) ∧
        ds ≠ [] ∧ (∀ c ∈ ds, isDigit c = true) ∧
        unit ≠ [] ∧ (∀ c ∈ unit, isDigit c = false) ∧
        stripNonDigits "-12h".toList = some (sign ++ ds) ∧
        ∃ d, (sign ++ ds).getLast? = some d ∧ isDigit d = true) ∧
    stripNonDigits "-12h".toList = some "-12".toList :=
  ⟨(strip_loop_keeps_digits (sampleEnv 0) "-12h30m".toList).1 "-12h".toList (by decide)
      (by decide),
    by decide⟩

/-! ## Labels read back -/

theorem digitChar_isDigit (m : Nat) (h : m < 10) : isDigit (Nat.digitChar m) = true := by
  have hall : ∀ k < 10, isDigit (Nat.digitChar k) = true := by decide
  exact hall m h

theorem toDigitsCore_digits (fuel n : Nat) (acc : List Char)
    (hacc : ∀ c ∈ acc, isDigit c = true) :
    ∀ c ∈ Nat.toDigitsCore 10 fuel n acc, isDigit c = true := by
  induction fuel generalizing n acc with
  | zero => simpa [Nat.toDigitsCore] using hacc
  | succ f ih =>
    have hacc2 : ∀ c ∈ Nat.digitChar (n % 10) :: acc, isDigit c = true := by
      intro c hc
      rcases List.mem_cons.1 hc with rfl | hm
      · exact digitChar_isDigit _ (Nat.mod_lt _ (by decide))
      · exact hacc c hm
    simp only [Nat.toDigitsCore]
    split
    · exact hacc2
    · exact ih _ _ hacc2

theorem toDigits_digits (n : Nat) : ∀ c ∈ Nat.toDigits 10 n, isDigit c = true :=
  toDigitsCore_digits _ _ [] (by simp)

theorem hoursField_digits (h : Nat) : ∀ c ∈ hoursField h, isDigit c = true := by
  unfold hoursField
  split
  · rename_i h10
    intro c hc
    simp only [List.mem_cons, List.mem_singleton, List.not_mem_nil, or_false] at hc
    rcases hc with rfl | rfl
    · decide
    · exact digitChar_isDigit _ h10
  · exact toDigits_digits h

theorem twoDigits_digits (n : Nat) (h : n < 100) : ∀ c ∈ twoDigits n, isDigit c = true := by
  intro c hc
  simp only [twoDigits, List.mem_cons, List.mem_singleton, List.not_mem_nil, or_false] at hc
  rcases hc with rfl | rfl
  · exact digitChar_isDigit _ (by omega)
  · exact digitChar_isDigit _ (Nat.mod_lt _ (by decide))

theorem no_colon_of_digits (f : List Char) (h : ∀ c ∈ f, isDigit c = true) : ':' ∉ f := by
  intro hm
  have := h ':' hm
  revert this
  decide

/-- The whole seconds of a duration of `k` seconds are `k`. -/
theorem Seconds_whole (k : Int) (hk : |k| ≤ 9223372036) :
    F64.toInt (Seconds (k * Second)) = k := by
  have key : ∀ n : Nat, n ≤ 9223372036 → F64.toInt (Seconds ((n : Int) * Second)) = (n : Int) := by
    intro n hn
    have hsec : Int.tdiv ((n : Int) * Second) Second = (n : Int) ∧
        Int.tmod ((n : Int) * Second) Second = 0 := by
      rw [Second_val]
      exact ⟨Int.mul_tdiv_cancel _ (by norm_num), Int.mul_tmod_left _ _⟩
    have hY : F64.div (F64.ofInt 0) (F64.ofInt 1000000000) = { man := 0, exp := 0 } := by
      decide
    have hform : Seconds ((n : Int) * Second)
        = F64.add (F64.ofInt (n : Int)) { man := 0, exp := 0 } := by
      simp only [Seconds, hsec.1, hsec.2, hY]
    have hX : (F64.ofInt (n : Int)).val = (n : ℚ) := by
      rw [(ofInt_exact (n : Int) (by rw [Int.natAbs_ofNat]; omega)).1, Int.cast_natCast]
    have hZero : (({ man := 0, exp := 0 } : F64)).val = 0 := by simp [F64.val]
    have heps : (2 : ℚ) ^ (-53 : Int) = 1 / 9007199254740992 := by norm_num [zpow_neg]
    have hnq : (n : ℚ) ≤ 9223372036 := by exact_mod_cast hn
    have hn0 : (0 : ℚ) ≤ (n : ℚ) := by positivity
    have hZ := add_err (F64.ofInt (n : Int)) { man := 0, exp := 0 }
    rw [hX, hZero, add_zero, heps, abs_of_nonneg hn0, abs_le] at hZ
    have hlo : (n : ℚ) ≤ (F64.add (F64.ofInt (n : Int)) { man := 0, exp := 0 }).val :=
      add_ge_nat _ _ n (by rw [hX, hZero, add_zero]) (by omega)
    have hhi : (F64.add (F64.ofInt (n : Int)) { man := 0, exp := 0 }).val < (n : ℚ) + 1 := by
      have : (n : ℚ) * (1 / 9007199254740992) ≤ 9223372036 * (1 / 9007199254740992) :=
        mul_le_mul_of_nonneg_right hnq (by norm_num)
      have h2 : (9223372036 : ℚ) * (1 / 9007199254740992) < 1 := by norm_num
      linarith [hZ.2]
    rw [hform, toInt_of_val _ n hlo hhi]
  rw [abs_le] at hk
  rcases le_or_lt 0 k with h0 | h0
  · obtain ⟨n, rfl⟩ : ∃ n : Nat, k = (n : Int) := ⟨k.toNat, (Int.toNat_of_nonneg h0).symm⟩
    exact key n (by omega)
  · obtain ⟨n, hn⟩ : ∃ n : Nat, -k = (n : Int) :=
      ⟨(-k).toNat, (Int.toNat_of_nonneg (by omega)).symm⟩
    have h1 := key n (by omega)
    have h2 := Seconds_toInt_neg ((n : Int) * Second)
    rw [h1] at h2
    have e : -((n : Int) * Second) = k * Second := by
      rw [← hn]
      ring
    rw [e] at h2
    rw [h2]
    omega

/-- The zone `durationToLocationE` returns, given the whole seconds of the duration. -/
theorem durationToLocationE_of_seconds (d k : Int) (hk : F64.toInt (Seconds d) = k)
    (hb : |k| ≤ 36893488180) :
    durationToLocationE d = Outcome.ok (some (FixedZone (describedLabel k) k)) := by
  simp only [durationToLocationE, hk]
  have habs : (if k < 0 then wrap64 (-k) else k) = (k.natAbs : Int) := by
    rcases abs_cases k with ⟨e, h0⟩ | ⟨e, h0⟩
    · rw [if_neg (by omega)]
      omega
    · rw [if_pos h0, wrap64_of_inInt64 _ (by unfold inInt64 minInt64 maxInt64; omega)]
      omega
  rw [habs]
  simp only [describedLabel]
  generalize k.natAbs = a
  have t1 : Int.tmod (a : Int) 3600 = ((a % 3600 : Nat) : Int) := (Int.ofNat_tmod a 3600).symm
  have e1 : Int.tdiv (a : Int) 3600 = ((a / 3600 : Nat) : Int) := (Int.ofNat_tdiv a 3600).symm
  have e2 : Int.tdiv (Int.tmod (a : Int) 3600) 60 = ((a % 3600 / 60 : Nat) : Int) := by
    rw [t1]
    exact (Int.ofNat_tdiv (a % 3600) 60).symm
  have e3 : Int.tmod (Int.tmod (a : Int) 3600) 60 = ((a % 60 : Nat) : Int) := by
    have h60 : a % 3600 % 60 = a % 60 := by omega
    rw [t1, ← h60]
    exact (Int.ofNat_tmod (a % 3600) 60).symm
  rw [e1, e2, e3, sprintf02d_hours, sprintf02d_two _ (by omega), sprintf02d_two _ (by omega)]
  have c1 : (((a / 3600 : Nat) : Int) ≠ 0) = ¬ (a / 3600 = 0) := by
    rw [ne_eq, Nat.cast_eq_zero]
  have c2 : (((a % 3600 / 60 : Nat) : Int) ≠ 0) = ¬ (a % 3600 / 60 = 0) := by
    rw [ne_eq, Nat.cast_eq_zero]
  have c3 : (((a % 60 : Nat) : Int) ≠ 0) = ¬ (a % 60 = 0) := by
    rw [ne_eq, Nat.cast_eq_zero]
  simp only [c1, c2, c3]
  congr 3
  by_cases hk0 : k < 0 <;> by_cases hh : a / 3600 = 0 <;> by_cases hm : a % 3600 / 60 = 0 <;>
    by_cases hs : a % 60 = 0 <;>
    simp only [hk0, hh, hm, hs, if_true, if_false, not_true_eq_false, not_false_eq_true,
      List.append_nil, List.nil_append, List.append_assoc, List.cons_append, UTC]

/-- A label with an hours field, and with a minutes field when it has a seconds field,
is read back as the duration of its offset, when `ToInt64E` reads each field as its
number. -/
theorem stringToDurationE_described (env : Env) (k : Int) (hk : |k| ≤ 9223372036)
    (hh : 1 ≤ k.natAbs / 3600) (hms : k.natAbs % 3600 / 60 ≠ 0 ∨ k.natAbs % 60 = 0)
    (hH : env.ToInt64E (hoursField (k.natAbs / 3600))
      = Except.ok ((k.natAbs / 3600 : Nat) : Int))
    (hM : k.natAbs % 3600 / 60 ≠ 0 → env.ToInt64E (twoDigits (k.natAbs % 3600 / 60))
      = Except.ok ((k.natAbs % 3600 / 60 : Nat) : Int))
    (hS : k.natAbs % 60 ≠ 0 → env.ToInt64E (twoDigits (k.natAbs % 60))
      = Except.ok ((k.natAbs % 60 : Nat) : Int)) :
    stringToDurationE env (describedLabel k) = Outcome.ok (k * Second) := by
  have hcH := no_colon_of_digits _ (hoursField_digits (k.natAbs / 3600))
  have hcM := no_colon_of_digits _ (twoDigits_digits (k.natAbs % 3600 / 60) (by omega))
  have hcS := no_colon_of_digits _ (twoDigits_digits (k.natAbs % 60) (by omega))
  have hsgn : (if k < 0 then '-' else '+') = (if decide (k < 0) = true then '-' else '+') := by
    by_cases h : k < 0 <;> simp [h]
  have hsign : (if decide (k < 0) = true then (-1 : Int) else 1) = 1 ∨
      (if decide (k < 0) = true then (-1 : Int) else 1) = -1 := by
    by_cases h : k < 0 <;> simp [h]
  have hfit : |((k.natAbs / 3600 : Nat) : Int)| * Hour + |((k.natAbs % 3600 / 60 : Nat) : Int)| * Minute
      + |((k.natAbs % 60 : Nat) : Int)| * Second ≤ maxInt64 := by
    rw [abs_of_nonneg (by positivity), abs_of_nonneg (by positivity),
      abs_of_nonneg (by positivity), Hour_val, Minute_val, Second_val]
    unfold maxInt64
    rw [abs_le] at hk
    omega
  have hval : (if decide (k < 0) = true then (-1 : Int) else 1) *
      (((k.natAbs / 3600 : Nat) : Int) * Hour + ((k.natAbs % 3600 / 60 : Nat) : Int) * Minute
        + ((k.natAbs % 60 : Nat) : Int) * Second) = k * Second := by
    rw [Hour_val, Minute_val, Second_val]
    by_cases h : k < 0
    · simp only [h, decide_True, if_true]
      omega
    · simp only [h, decide_False, if_false, Bool.false_eq_true]
      omega
  have ha := utc_arith _ ((k.natAbs / 3600 : Nat) : Int) ((k.natAbs % 3600 / 60 : Nat) : Int)
    ((k.natAbs % 60 : Nat) : Int) hsign hfit
  have hne : ¬ (k.natAbs / 3600 = 0) := by omega
  simp only [describedLabel, hne, if_false, UTC, List.cons_append, List.nil_append,
    List.append_assoc, hsgn]
  rw [stringToDurationE_utc, utcStringToDurationE_signed]
  by_cases hm : k.natAbs % 3600 / 60 = 0
  · have hs : k.natAbs % 60 = 0 := by
      rcases hms with h | h
      · exact absurd hm h
      · exact h
    simp only [hm, hs, if_true, List.append_nil] at hval ha ⊢
    rw [Split_no_sep _ _ hcH]
    simp only [hH, orZero]
    rw [ha.1]
    simp only [Nat.cast_zero, zero_mul, add_zero] at hval
    rw [hval]
  · by_cases hs : k.natAbs % 60 = 0
    · simp only [hm, hs, if_true, if_false, List.append_nil] at hval ha ⊢
      rw [Split_append_sep _ _ _ hcH, Split_no_sep _ _ hcM]
      simp only [hH, hM hm, orZero]
      rw [ha.2.1]
      simp only [Nat.cast_zero, zero_mul, add_zero] at hval
      rw [hval]
    · simp only [hm, hs, if_false, List.cons_append] at hval ha ⊢
      rw [Split_append_sep _ _ _ hcH, Split_append_sep _ _ _ hcM, Split_no_sep _ _ hcS]
      simp only [hH, hM hm, hS hs, orZero]
      rw [ha.2.2, hval]

/-- C24: for a duration of `k` whole seconds whose hours component is at least 1 and
whose minutes component is not zero or whose seconds component is zero, the label of
`ToTimeZoneE` is read back by `ToDurationE` as the duration, and `ToTimeZoneE` at the
label gives the same label and offset again, when `ToInt64E` reads each field of the
label as its number. -/
theorem label_round_trip (env : Env) (k : Int) (hk : |k| ≤ 9223372036)
    (hh : 1 ≤ k.natAbs / 3600) (hms : k.natAbs % 3600 / 60 ≠ 0 ∨ k.natAbs % 60 = 0)
    (hH : env.ToInt64E (hoursField (k.natAbs / 3600))
      = Except.ok ((k.natAbs / 3600 : Nat) : Int))
    (hM : k.natAbs % 3600 / 60 ≠ 0 → env.ToInt64E (twoDigits (k.natAbs % 3600 / 60))
      = Except.ok ((k.natAbs % 3600 / 60 : Nat) : Int))
    (hS : k.natAbs % 60 ≠ 0 → env.ToInt64E (twoDigits (k.natAbs % 60))
      = Except.ok ((k.natAbs % 60 : Nat) : Int)) :
    ToTimeZoneE env (GoAny.duration (k * Second))
      = Outcome.ok (some (FixedZone (describedLabel k) k)) ∧
    ToDurationE env (GoAny.string (describedLabel k)) = Outcome.ok (k * Second) ∧
    ToTimeZoneE env (GoAny.string (describedLabel k))
      = Outcome.ok (some (FixedZone (describedLabel k) k)) := by
  have hz : durationToLocationE (k * Second)
      = Outcome.ok (some (FixedZone (describedLabel k) k)) :=
    durationToLocationE_of_seconds _ k (Seconds_whole k hk) (le_trans hk (by norm_num))
  have hd := stringToDurationE_described env k hk hh hms hH hM hS
  refine ⟨hz, hd, ?_⟩
  show stringToLocationE env (describedLabel k) = _
  unfold stringToLocationE
  rw [hd]
  exact hz

theorem label_round_trip_witness :
    ToTimeZoneE (sampleEnv 0) (GoAny.duration (-29107 * Second))
      = Outcome.ok (some (FixedZone "UTC-08:05:07".toList (-29107))) ∧
    ToDurationE (sampleEnv 0) (GoAny.string "UTC-08:05:07".toList)
      = Outcome.ok (-29107 * Second) ∧
    ToTimeZoneE (sampleEnv 0) (GoAny.string "UTC-08:05:07".toList)
      = Outcome.ok (some (FixedZone "UTC-08:05:07".toList (-29107))) := by
  have eH : hoursField ((-29107 : Int).natAbs / 3600) = "08".toList := by decide
  have eM : twoDigits ((-29107 : Int).natAbs % 3600 / 60) = "05".toList := by decide
  have eS : twoDigits ((-29107 : Int).natAbs % 60) = "07".toList := by decide
  have h := label_round_trip (sampleEnv 0) (-29107) (by decide) (by decide) (by decide)
    (by rw [eH]; rfl) (fun _ => by rw [eM]; rfl) (fun _ => by rw [eS]; rfl)
  have e : describedLabel (-29107) = "UTC-08:05:07".toList := by decide
  rw [e] at h
  exact h

/-! ## A digit run at the end of the text -/

end Cast
